import Mathlib

/-!
# Verification of the pyformlang Cfg core and recursive automaton

Shallow embedding of `pyformlang/cfg/cfg.py` and
`pyformlang/rsa/recursive_automaton.py`.

Modelling conventions:
* Python `Variable`/`Terminal` values are strings; `GObj` is the tagged
  variant ("grammar object").  `Epsilon` is the spec's singleton sentinel,
  distinct from every variable and terminal; it never occurs inside a
  (filtered) production body, and inside the fixed-point engine's working
  set it is modelled by `none : Option GObj`.
* Python sets are modelled as duplicate-free lists in insertion order
  (`setInsert` inserts at the back when absent); Python dicts are
  association lists in key-insertion order.
* Python's unbounded `while` loops are modelled with an explicit fuel
  argument using structural recursion, so that concrete runs evaluate.
-/

/-- A grammar object: a variable or a terminal, equal iff same category and
same underlying value (`cfg_object.py` / `variable.py` / `terminal.py`). -/
inductive GObj where
  | var : String → GObj
  | term : String → GObj
deriving DecidableEq, Repr

/-- A production `head -> body` (`production.py`).  The head is a variable
(carried as its value).  Bodies never contain Epsilon: filtered productions
strip it, and all unfiltered constructions in the source copy bodies that are
already Epsilon-free. -/
structure Production where
  head : String
  body : List GObj
deriving DecidableEq, Repr

/-- Insert into a Python-set modelled as a duplicate-free list (no-op when
the element is already present, appended at the back otherwise). -/
def setInsert {α : Type} [DecidableEq α] (l : List α) (a : α) : List α :=
  if a ∈ l then l else l ++ [a]

/-- `set(xs)`: deduplicate a list keeping first occurrences. -/
def uniq {α : Type} [DecidableEq α] (l : List α) : List α :=
  l.foldl setInsert []

/-- Association-list (Python dict) lookup. -/
def alookup {α β : Type} [DecidableEq α] : List (α × β) → α → Option β
  | [], _ => none
  | (k, v) :: rest, a => if k = a then some v else alookup rest a

/-- Association-list update: replace the first binding of the key in place,
or append a new binding (Python dict assignment). -/
def aset {α β : Type} [DecidableEq α] : List (α × β) → α → β → List (α × β)
  | [], a, b => [(a, b)]
  | (k, v) :: rest, a, b =>
    if k = a then (a, b) :: rest else (k, v) :: aset rest a b

/-- A context-free grammar (`Cfg.__init__` state): variable values, terminal
values, optional start symbol, and the production collection (a Python list
or set; modelled as a list in iteration order). -/
structure Cfg where
  vars : List String
  terms : List String
  start : Option String
  prods : List Production
deriving DecidableEq, Repr

/-- Add a production's symbols to the variable/terminal sets
(`Cfg.__initialize_production_in_cfg`). -/
def initProductionInCFG (vt : List String × List String) (p : Production) :
    List String × List String :=
  let vars := setInsert vt.1 p.head
  p.body.foldl (fun vt s =>
    match s with
    | GObj.term t => (vt.1, setInsert vt.2 t)
    | GObj.var v => (setInsert vt.1 v, vt.2)) (vars, vt.2)

/-- `Cfg.__init__`: deduplicate the given variable and terminal sets, add the
start symbol to the variables, then close both sets under the symbols
appearing in the productions. -/
def Cfg.make (vs ts : List String) (start : Option String)
    (ps : List Production) : Cfg :=
  let v0 := uniq vs
  let t0 := uniq ts
  let v1 := match start with
    | some s => setInsert v0 s
    | none => v0
  let vt := ps.foldl initProductionInCFG (v1, t0)
  ⟨vt.1, vt.2, start, ps⟩

/-- The default-constructed grammar `Cfg()`. -/
def Cfg.default0 : Cfg := Cfg.make [] [] none []

/-! ## The fixed-point engine (`_set_impacts_and_remaining_lists` and
`_get_generating_or_nullable`) -/

/-- Result of `_set_impacts_and_remaining_lists`: the heads of empty
productions (`_added_impacts`), the per-head counter lists
(`_remaining_lists`), and the impact lists (`_impacts`). -/
structure ImpactTables where
  added : List String
  remaining : List (String × List Int)
  impacts : List (GObj × List (String × Nat))
deriving Repr

/-- `_set_impacts_and_remaining_lists`, folded over the production list. -/
def setImpactsAndRemaining (ps : List Production) : ImpactTables :=
  ps.foldl (fun tb p =>
    if p.body = [] then
      { tb with added := setInsert tb.added p.head }
    else
      let temp := (alookup tb.remaining p.head).getD []
      let temp := temp ++ [(p.body.length : Int)]
      let indexImpact := temp.length - 1
      let rem := aset tb.remaining p.head temp
      let imp := p.body.foldl (fun imp s =>
        aset imp s ((alookup imp s).getD [] ++ [(p.head, indexImpact)])) tb.impacts
      { tb with remaining := rem, impacts := imp })
    ⟨[], [], []⟩

/-- Engine working set elements: `none` is the Epsilon sentinel. -/
abbrev ESym := Option GObj

/-- State of the `_get_generating_or_nullable` worklist loop: the working
set `g_symbols`, the to-process stack (Python appends/pops at the end; we
push/pop at the head, which realises the same LIFO order), the mutable
counter table and the `processed_with_modification` log. -/
structure EngSt where
  gSyms : List ESym
  stack : List ESym
  rem : List (String × List Int)
  procMod : List (String × Nat)
deriving Repr

/-- `l[i] += d` on a counter list (no-op beyond the length; in Python the
index is always in range when this is reached). -/
def bump (l : List Int) (i : Nat) (d : Int) : List Int :=
  l.set i (l.getD i 0 + d)

/-- Adjust counter `remaining[h][i]` by `d`; no-op when the key is absent
(in Python the key is always present when this is reached). -/
def adjAt (r : List (String × List Int)) (h : String) (i : Nat) (d : Int) :
    List (String × List Int) :=
  match alookup r h with
  | none => r
  | some l => aset r h (bump l i d)

/-- Process one impact entry `(symbol_impact, index_impact)` of the popped
symbol: skip it when the head is already in the working set, otherwise
decrement its counter (logging the decrement) and, when the counter reaches
zero, add the head to the working set and the stack. -/
def procImpactOne (st : EngSt) (hi : String × Nat) : EngSt :=
  if (some (GObj.var hi.1) : ESym) ∈ st.gSyms then st
  else
    let rem' := adjAt st.rem hi.1 hi.2 (-1)
    let st := { st with rem := rem', procMod := st.procMod ++ [hi] }
    if ((alookup st.rem hi.1).getD []).getD hi.2 0 = 0 then
      { st with gSyms := st.gSyms ++ [some (GObj.var hi.1)],
                stack := some (GObj.var hi.1) :: st.stack }
    else st

/-- Process the impact list of the popped symbol: the body of the `for`
loop in `_get_generating_or_nullable`. -/
def procImpacts (entries : List (String × Nat)) (st : EngSt) : EngSt :=
  entries.foldl procImpactOne st

/-- Impact-list lookup lifted to the Epsilon sentinel: bodies never contain
Epsilon, so `impacts.get(Epsilon(), [])` is empty. -/
def impLookup (imp : List (GObj × List (String × Nat))) : ESym → List (String × Nat)
  | none => []
  | some s => (alookup imp s).getD []

/-- The engine's `while to_process:` loop, with fuel. -/
def engLoop (imp : List (GObj × List (String × Nat))) :
    Nat → EngSt → EngSt
  | 0, st => st
  | fuel + 1, st =>
    match st.stack with
    | [] => st
    | c :: rest =>
      engLoop imp fuel (procImpacts (impLookup imp c) { st with stack := rest })

/-- The distinct heads occurring in the impact lists: the only symbols the
loop can ever push. -/
def impactHeads (imp : List (GObj × List (String × Nat))) : List GObj :=
  uniq ((imp.map Prod.snd).flatten.map (fun hi => GObj.var hi.1))

/-- Seed the engine state (`to_process = [Epsilon()]`, `g_symbols =
{Epsilon()}`, then `_added_impacts`, then — for the generating analysis —
the terminals). -/
def engSeed (g : Cfg) (tb : ImpactTables) (remInit : List (String × List Int))
    (nullable : Bool) : EngSt :=
  let st0 : EngSt := ⟨[none], [none], remInit, []⟩
  let st1 := tb.added.foldl (fun st h =>
    if (some (GObj.var h) : ESym) ∈ st.gSyms then st
    else { st with gSyms := st.gSyms ++ [some (GObj.var h)],
                   stack := some (GObj.var h) :: st.stack }) st0
  if nullable then st1
  else g.terms.foldl (fun st t =>
    { st with gSyms := setInsert st.gSyms (some (GObj.term t)),
              stack := some (GObj.term t) :: st.stack }) st1

/-- Run `_get_generating_or_nullable` from a given counter table, returning
the final loop state (before the restoration pass). -/
def runEngineSt (g : Cfg) (remInit : List (String × List Int))
    (nullable : Bool) : EngSt :=
  let tb := setImpactsAndRemaining g.prods
  let st := engSeed g tb remInit nullable
  engLoop tb.impacts (st.stack.length + (impactHeads tb.impacts).length + 1) st

/-- The `# Fix modifications` restoration pass. -/
def restoreRem (procMod : List (String × Nat))
    (rem : List (String × List Int)) : List (String × List Int) :=
  procMod.foldl (fun r hi => adjAt r hi.1 hi.2 1) rem

/-- `_get_generating_or_nullable`: the resulting symbol set (with the
Epsilon sentinel removed) and the restored counter table. -/
def runEngine (g : Cfg) (remInit : List (String × List Int))
    (nullable : Bool) : List GObj × List (String × List Int) :=
  let st := runEngineSt g remInit nullable
  (st.gSyms.filterMap id, restoreRem st.procMod st.rem)

/-- `get_generating_symbols` (computed on the freshly initialised tables). -/
def getGeneratingSymbols (g : Cfg) : List GObj :=
  (runEngine g (setImpactsAndRemaining g.prods).remaining false).1

/-- `get_nullable_symbols`. -/
def getNullableSymbols (g : Cfg) : List GObj :=
  (runEngine g (setImpactsAndRemaining g.prods).remaining true).1

/-! ## Generic worklist closure

`get_reachable_symbols` and `get_unit_pairs` share the same shape: a visited
set seeded with the initial elements, a stack, and a step function; popped
elements have their successors added when new.  `univ` is the (finite) set
of elements the Python loop could ever push — successors are always drawn
from it, so the `x ∈ univ` guard below never fires in the modelled runs and
only serves to make the fuel bound `|stack| + |univ| + 1` sufficient. -/

/-- One worklist iteration: push the new successors of the popped element. -/
def wlStep {α : Type} [DecidableEq α] (univ : List α) (succs : List α)
    (vs : List α × List α) : List α × List α :=
  succs.foldl (fun vs x =>
    if x ∈ vs.1 then vs
    else if x ∈ univ then (vs.1 ++ [x], x :: vs.2) else vs) vs

/-- The worklist loop (`while to_process:`), with fuel. -/
def wlLoop {α : Type} [DecidableEq α] (univ : List α) (step : α → List α) :
    Nat → List α × List α → List α
  | 0, vs => vs.1
  | fuel + 1, vs =>
    match vs.2 with
    | [] => vs.1
    | c :: rest => wlLoop univ step fuel (wlStep univ (step c) (vs.1, rest))

/-- Worklist closure of `init` under `step` (inside `univ`). -/
def wlClosure {α : Type} [DecidableEq α] (univ : List α) (step : α → List α)
    (init : List α) : List α :=
  let v0 := uniq init
  wlLoop univ step (v0.length + univ.length + 1) (v0, v0.reverse)

/-! ## `get_reachable_symbols` -/

/-- The `reachable_transition_d` dict: head value ↦ non-epsilon body symbols
of its productions, in production order. -/
def reachableTransitionD (ps : List Production) : List (String × List GObj) :=
  ps.foldl (fun d p =>
    aset d p.head ((alookup d p.head).getD [] ++ p.body)) []

/-- Elements of the reachability worklist: the start symbol may be Python
`None` (modelled `none`), which has no transitions. -/
def reachStep (d : List (String × List GObj)) : Option GObj → List (Option GObj)
  | some (GObj.var v) => ((alookup d v).getD []).map some
  | _ => []

/-- `get_reachable_symbols`: DFS from the start symbol over
head → body-element edges.  The result contains the start element itself
(which is `none` when the grammar has no start symbol, exactly as the
Python set contains `None`). -/
def getReachableSymbols (g : Cfg) : List (Option GObj) :=
  let d := reachableTransitionD g.prods
  let start : Option GObj := g.start.map GObj.var
  let univ : List (Option GObj) :=
    uniq (start :: (d.map Prod.snd).flatten.map some)
  wlClosure univ (reachStep d) [start]

/-! ## `get_unit_pairs` and `eliminate_unit_productions` -/

/-- Is this a unit production (body of exactly one variable)? -/
def isUnitProduction (p : Production) : Bool :=
  match p.body with
  | [GObj.var _] => true
  | _ => false

/-- `get_productions_d` (from `utils_cfg.py`, not in the provided sources).
Modelled from the spec and its uses: the dict head ↦ list of its
productions, in production order. -/
def getProductionsD (ps : List Production) : List (String × List Production) :=
  ps.foldl (fun d p => aset d p.head ((alookup d p.head).getD [] ++ [p])) []

/-- The target variable of a unit production. -/
def unitTarget (p : Production) : String :=
  match p.body with
  | [GObj.var v] => v
  | _ => ""

/-- `get_unit_pairs`: reflexive-transitive closure of variable pairs over
single-variable productions. -/
def getUnitPairs (g : Cfg) : List (String × String) :=
  let unitProds := g.prods.filter isUnitProduction
  let d := getProductionsD unitProds
  let targets := unitProds.map unitTarget
  let univ := (g.vars.map (fun a =>
    (uniq (g.vars ++ targets)).map (fun b => (a, b)))).flatten
  wlClosure univ
    (fun ab => ((alookup d ab.2).getD []).map (fun p => (ab.1, unitTarget p)))
    (g.vars.map (fun v => (v, v)))

/-- `eliminate_unit_productions`: keep non-unit productions and add, for
every unit pair (A, B), a copy with head A of every non-unit production of
B. -/
def eliminateUnitProductions (g : Cfg) : Cfg :=
  let unitPairs := getUnitPairs g
  let ps := g.prods.filter (fun p => ¬ isUnitProduction p)
  let d := getProductionsD ps
  let ps := ps ++ unitPairs.flatMap (fun ab =>
    ((alookup d ab.2).getD []).map (fun p => Production.mk ab.1 p.body))
  Cfg.make g.vars g.terms g.start ps

/-! ## `remove_useless_symbols` -/

/-- Membership of a grammar object in a symbol list. -/
def symMem (s : GObj) (l : List GObj) : Bool := s ∈ l

/-- `remove_useless_symbols`: intersect with the generating symbols, then
with the reachable symbols of the intermediate grammar. -/
def removeUselessSymbols (g : Cfg) : Cfg :=
  let gen := getGeneratingSymbols g
  let ps := g.prods.filter (fun p =>
    GObj.var p.head ∈ gen ∧ ∀ s ∈ p.body, s ∈ gen)
  let newVar := g.vars.filter (fun v => GObj.var v ∈ gen)
  let newTer := g.terms.filter (fun t => GObj.term t ∈ gen)
  let cfgTemp := Cfg.make newVar newTer g.start ps
  let reach := getReachableSymbols cfgTemp
  let ps2 := ps.filter (fun p => (some (GObj.var p.head) : Option GObj) ∈ reach)
  Cfg.make (newVar.filter (fun v => (some (GObj.var v) : Option GObj) ∈ reach))
    (newTer.filter (fun t => (some (GObj.term t) : Option GObj) ∈ reach))
    g.start ps2

/-! ## `remove_epsilon` -/

/-- All keep/drop substitutions of the nullable occurrences of a body.
`remove_nullable_production_sub` lives in `utils_cfg.py`, which is not in
the provided sources.  Modelled from the spec: "emit every
subset-substitution obtained by independently choosing, for each nullable
occurrence in the body, to keep it or drop it". -/
def nullableCombos (nullables : List GObj) : List GObj → List (List GObj)
  | [] => [[]]
  | x :: xs =>
    let rest := nullableCombos nullables xs
    if x ∈ nullables then rest.map (fun r => x :: r) ++ rest
    else rest.map (fun r => x :: r)

/-- `remove_nullable_production`.  Modelled from the spec: all
subset-substitutions, "excluding the all-dropped case when the head is not
the start symbol (i.e., preserve the empty body only at the start)". -/
def removeNullableProduction (start : Option String) (nullables : List GObj)
    (p : Production) : List Production :=
  (nullableCombos nullables p.body).filterMap (fun b =>
    if b = [] ∧ some p.head ≠ start then none else some (Production.mk p.head b))

/-- `remove_epsilon`. -/
def removeEpsilon (g : Cfg) : Cfg :=
  let nullables := getNullableSymbols g
  Cfg.make g.vars g.terms g.start
    (g.prods.flatMap (removeNullableProduction g.start nullables))

/-! ## CNF final phase -/

/-- The fresh variable standing for a terminal: `Variable(value + "#CNF#")`. -/
def termToVarName (t : String) : String := t ++ "#CNF#"

/-- `_get_productions_with_only_single_terminals`: in bodies of length ≠ 1,
replace every terminal (of the grammar's terminal set) by its fresh
variable, recording which terminals were used; then add `t#CNF# -> t` for
each used terminal, in the order of first use. -/
def getProductionsWithOnlySingleTerminals (g : Cfg) : List Production :=
  let step := fun (acc : List Production × List String) (p : Production) =>
    if p.body.length = 1 then (acc.1 ++ [p], acc.2)
    else
      let folded := p.body.foldl (fun (bu : List GObj × List String) s =>
        match s with
        | GObj.term t =>
          if t ∈ g.terms then (bu.1 ++ [GObj.var (termToVarName t)], setInsert bu.2 t)
          else (bu.1 ++ [s], bu.2)
        | GObj.var _ => (bu.1 ++ [s], bu.2)) ([], acc.2)
      (acc.1 ++ [Production.mk p.head folded.1], folded.2)
  let accUsed := g.prods.foldl step ([], [])
  accUsed.1 ++ accUsed.2.map (fun t =>
    Production.mk (termToVarName t) [GObj.term t])

/-- `_get_next_free_variable`: smallest index > idx whose name
`pre ++ toString index` is not an existing variable.  The searched indices
are all distinct, so `|vars| + 1` attempts always suffice; the fuel-exhausted
branch is unreachable. -/
def getNextFreeVariable (vars : List String) (pre : String) :
    Nat → Nat → Nat × String
  | 0, idx => (idx + 1, pre ++ toString (idx + 1))
  | fuel + 1, idx =>
    let idx := idx + 1
    let temp := pre ++ toString idx
    if temp ∈ vars then getNextFreeVariable vars pre fuel idx
    else (idx, temp)

/-- State of `_decompose_productions`: the fresh-name index, the
suffix-memoisation dict `done`, and the output list. -/
structure DecompSt where
  idx : Nat
  done : List (List GObj × String)
  out : List Production

/-- The inner `for i in range(len(body) - 2)` loop of
`_decompose_productions`, walking the body with memoisation by suffix.
`head` is the current head, `newVar` the pre-generated fresh variables. -/
def decompWalk (body : List GObj) (newVar : List String) :
    Nat → String → DecompSt → DecompSt
  | i, head, st =>
    if body.length - 2 ≤ i then
      -- `if not stopped`: final length-2 production
      { st with out := st.out ++
          [Production.mk head [body.getD (body.length - 2) (GObj.var ""),
                               body.getD (body.length - 1) (GObj.var "")]] }
    else
      let temp := body.drop (i + 1)
      match alookup st.done temp with
      | some v =>
        { st with out := st.out ++
            [Production.mk head [body.getD i (GObj.var ""), GObj.var v]] }
      | none =>
        let nv := newVar.getD i ""
        let out' := st.out ++ [Production.mk head [body.getD i (GObj.var ""), GObj.var nv]]
        let done' := st.done ++ [(temp, nv)]
        decompWalk body newVar (i + 1) nv { st with out := out', done := done' }
  termination_by i _ _ => body.length - i

/-- `_decompose_productions`: left-associating binarisation with suffix
memoisation; `vars` is the variable set used for fresh-name generation. -/
def decomposeProductions (vars : List String) (ps : List Production) :
    List Production :=
  let st := ps.foldl (fun (st : DecompSt) p =>
    if p.body.length ≤ 2 then { st with out := st.out ++ [p] }
    else
      let gen := (List.range (p.body.length - 2)).foldl
        (fun (iv : Nat × List String) _ =>
          let r := getNextFreeVariable vars "C#CNF#" (vars.length + 1) iv.1
          (r.1, iv.2 ++ [r.2])) (st.idx, [])
      decompWalk p.body gen.2 0 p.head { st with idx := gen.1 })
    ⟨0, [], []⟩
  st.out

/-- The four-part canonical-shape guard at the top of `to_normal_form`
(lines 393–397): no nullable symbol, only reflexive unit pairs, and every
variable and terminal generating and reachable — all tested by comparing
set sizes, exactly as in the source. -/
def isCanonical (g : Cfg) : Bool :=
  (getNullableSymbols g).length = 0 ∧
  (getUnitPairs g).length = g.vars.length ∧
  (getGeneratingSymbols g).length = g.vars.length + g.terms.length ∧
  (getReachableSymbols g).length = g.vars.length + g.terms.length

/-- One cleaning pass of `to_normal_form` (useless → epsilon → useless →
unit → useless). -/
def normalFormPass (g : Cfg) : Cfg :=
  removeUselessSymbols
    (eliminateUnitProductions
      (removeUselessSymbols (removeEpsilon (removeUselessSymbols g))))

/-- The terminal-replacement plus binarisation phase taken once the guard
holds (`CFG(start_symbol=self._start_symbol, productions=set(...))`). -/
def normalFormFinal (g : Cfg) : Cfg :=
  Cfg.make [] [] g.start
    (uniq (decomposeProductions g.vars (getProductionsWithOnlySingleTerminals g)))

/-- `to_normal_form`, with fuel for the (not obviously terminating)
pass-until-canonical recursion; `none` models non-termination within the
given fuel. -/
def toNormalForm : Cfg → Nat → Option Cfg
  | _, 0 => none
  | g, fuel + 1 =>
    if ¬ isCanonical g then
      if g.prods.length = 0 then some g
      else toNormalForm (normalFormPass g) fuel
    else some (normalFormFinal g)

/-! ## `get_words` -/

/-- Words as yielded by `get_words`: lists of grammar objects (in the
source they are lists of `Terminal`s, except for the quirk that a
single-variable body is also emitted verbatim). -/
abbrev Word := List GObj

/-- `gen_d`: per-symbol lists of word lists indexed by length. -/
abbrev GenD := List (GObj × List (List Word))

/-- `if key not in gen_d: gen_d[key] = [[]]`. -/
def gdEnsure (gd : GenD) (k : GObj) : GenD :=
  match alookup gd k with
  | some _ => gd
  | none => aset gd k [[]]

/-- The `# Look for Epsilon Transitions` initialisation pass of
`get_words`. -/
def gwInit (ps : List Production) : GenD :=
  ps.foldl (fun gd p =>
    let gd := gdEnsure gd (GObj.var p.head)
    if p.body.length = 2 then p.body.foldl gdEnsure gd else gd) []

/-- The `# To a single terminal` pass of `get_words`: record (and yield
from the start symbol) every length-one body. -/
def gwSingles (start : Option String) (ps : List Production)
    (gd : GenD) (acc : List Word) : GenD × List Word :=
  ps.foldl (fun ga p =>
    if p.body.length = 1 then
      let cur := (alookup ga.1 (GObj.var p.head)).getD [[]]
      let cur := if cur.length = 1 then cur ++ [[]] else cur
      let lastRow := cur.getLastD []
      if p.body ∈ lastRow then (aset ga.1 (GObj.var p.head) cur, ga.2)
      else
        let gd' := aset ga.1 (GObj.var p.head) (cur.dropLast ++ [lastRow ++ [p.body]])
        let acc' := if start = some p.head then ga.2 ++ [p.body] else ga.2
        (gd', acc')
    else ga) (gd, acc)

/-- Append `new` to the current-length row of `head` if it is new there;
returns the updated tables, yields and modification flag. -/
def gwAddWord (start : Option String) (head : String) (w : Word)
    (gam : GenD × List Word × Bool) : GenD × List Word × Bool :=
  let cur := (alookup gam.1 (GObj.var head)).getD [[]]
  let lastRow := cur.getLastD []
  if w ∈ lastRow then gam
  else
    let gd' := aset gam.1 (GObj.var head) (cur.dropLast ++ [lastRow ++ [w]])
    let acc' := if start = some head then gam.2.1 ++ [w] else gam.2.1
    (gd', acc', true)

/-- The per-production body of the main `get_words` loop: pad the head's
row list to the current length, then combine left and right sub-words of
every split of a length-2 body. -/
def gwProdStep (start : Option String) (curLen : Nat)
    (gam : GenD × List Word × Bool) (p : Production) :
    GenD × List Word × Bool :=
  let ls := (alookup gam.1 (GObj.var p.head)).getD [[]]
  let gam := if ls.length ≠ curLen + 1 then
      (aset gam.1 (GObj.var p.head) (ls ++ [[]]), gam.2) else gam
  if p.body.length ≠ 2 then gam
  else
    (List.range' 1 (curLen - 1)).foldl (fun gam i =>
      let j := curLen - i
      let lefts := ((alookup gam.1 (p.body.getD 0 (GObj.var ""))).getD []).getD i []
      let rights := ((alookup gam.1 (p.body.getD 1 (GObj.var ""))).getD []).getD j []
      lefts.foldl (fun gam left =>
        rights.foldl (fun gam right =>
          gwAddWord start p.head (left ++ right) gam) gam) gam) gam

/-- The `# Complete what is missing` loop of `get_words`, with fuel; the
loop-entry condition (`current_length <= max_length or max_length == -1`)
and the no-progress termination heuristic
(`total_no_modification > current_length / 2`) are checked exactly as in
the source. -/
def gwLoop (start : Option String) (ps : List Production) (maxLength : Int) :
    Nat → Int → Nat → GenD → List Word → Option (List Word)
  | fuel, curLen, noMod, gd, acc =>
    if ¬ (curLen ≤ maxLength ∨ maxLength = -1) then some acc
    else
      match fuel with
      | 0 => none
      | fuel + 1 =>
        let gd := gd.map (fun kl =>
          (kl.1, if (kl.2.length : Int) ≠ curLen then kl.2 ++ [[]] else kl.2))
        let gam := ps.foldl (gwProdStep start curLen.toNat) (gd, acc, false)
        let noMod' := if gam.2.2 then 0 else noMod + 1
        let curLen' := curLen + 1
        if (2 * noMod' : Int) > curLen' then some gam.2.1
        else gwLoop start ps maxLength fuel curLen' noMod' gam.1 gam.2.1

/-- `get_words(max_length)`: the list of yielded words, in yield order.
`nfFuel` fuels the inner `to_normal_form`, `loopFuel` the main loop;
`none` models running beyond the supplied fuel. -/
def getWords (g : Cfg) (maxLength : Int) (nfFuel loopFuel : Nat) :
    Option (List Word) :=
  let nullables := getNullableSymbols g
  let acc0 : List Word :=
    if (match g.start with
        | some s => GObj.var s ∈ nullables
        | none => false : Bool) then [[]] else []
  if maxLength = 0 then some acc0
  else
    match toNormalForm g nfFuel with
    | none => none
    | some cfg =>
      let gd := gwInit cfg.prods
      let ga := gwSingles cfg.start cfg.prods gd acc0
      gwLoop cfg.start cfg.prods maxLength loopFuel 2 0 ga.1 ga.2

/-! ## `generate_epsilon` -/

/-- The short-circuiting inner `for` loop of `generate_epsilon`: process
impact entries on a private copy of the counters, stopping as soon as the
start symbol's counter reaches zero.  Returns `none` when `True` was
returned, otherwise the updated working set, stack and counters. -/
def geProcEntries (start : Option String) :
    List (String × Nat) → List ESym → List ESym → List (String × List Int) →
    Option (List ESym × List ESym × List (String × List Int))
  | [], g, s, r => some (g, s, r)
  | hi :: rest, g, s, r =>
    if (some (GObj.var hi.1) : ESym) ∈ g then geProcEntries start rest g s r
    else
      let r' := adjAt r hi.1 hi.2 (-1)
      if ((alookup r' hi.1).getD []).getD hi.2 0 = 0 then
        if start = some hi.1 then none
        else geProcEntries start rest (g ++ [some (GObj.var hi.1)])
          (some (GObj.var hi.1) :: s) r'
      else geProcEntries start rest g s r'

/-- The `while to_process:` loop of `generate_epsilon`, with fuel. -/
def geLoop (start : Option String) (imp : List (GObj × List (String × Nat))) :
    Nat → List ESym × List ESym × List (String × List Int) → Bool
  | 0, _ => false
  | fuel + 1, st =>
    match st.2.1 with
    | [] => false
    | c :: rest =>
      match geProcEntries start (impLookup imp c) st.1 rest st.2.2 with
      | none => true
      | some st' => geLoop start imp fuel st'

/-- `generate_epsilon`: runs the nullable engine, short-circuiting the
moment the start symbol joins the working set; the `deepcopy` of the
counter table is the identity in this pure model. -/
def generateEpsilon (g : Cfg) : Bool :=
  let tb := setImpactsAndRemaining g.prods
  if (match g.start with
      | some s => s ∈ tb.added
      | none => false : Bool) then true
  else
    let st := engSeed g tb tb.remaining true
    geLoop g.start tb.impacts (st.stack.length + (impactHeads tb.impacts).length + 1)
      (st.gSyms, st.stack, st.rem)

/-! ## `contains` (via the CYK table)

`cyk_table.py` is not in the provided sources.  Modelled from the spec
(§4.3): `T[i][0] = {A : A → w[i] ∈ P}`;
`T[i][j] = {A : ∃ A → B C ∈ P, ∃ k ∈ [0,j): B ∈ T[i][k] ∧
C ∈ T[i+k+1][j-k-1]}`; the word is accepted iff the start symbol lies in
`T[0][n-1]`. -/

/-- The CYK table cell `T[i][j]` (set of variable values). -/
def cykCell (ps : List Production) (w : List String) : Nat → Nat → List String
  | i, 0 =>
    uniq ((ps.filter (fun p => p.body = [GObj.term (w.getD i "")])).map Production.head)
  | i, j + 1 =>
    uniq ((ps.filter (fun p =>
      match p.body with
      | [GObj.var b, GObj.var c] =>
        (List.range (j + 1)).attach.any (fun k =>
          b ∈ cykCell ps w i k.1 ∧ c ∈ cykCell ps w (i + k.1 + 1) (j - k.1))
      | _ => false)).map Production.head)
  termination_by _ j => j
  decreasing_by
  · exact Nat.lt_succ_of_le (Nat.le_of_lt_succ (List.mem_range.mp k.2))
  · exact Nat.lt_succ_of_le (Nat.sub_le j k.1)

/-- CYK acceptance of a non-empty word from a CNF grammar. -/
def cykAccept (g : Cfg) (w : List String) : Bool :=
  match g.start with
  | none => false
  | some s => s ∈ cykCell g.prods w 0 (w.length - 1)

/-- `contains`: the empty word is decided by `generate_epsilon`, other
words by the CYK table built over the Chomsky normal form. -/
def containsCfg (g : Cfg) (w : List String) (nfFuel : Nat) : Option Bool :=
  if w = [] then some (generateEpsilon g)
  else
    match toNormalForm g nfFuel with
    | none => none
    | some cnf => some (cykAccept cnf w)

/-! ## `substitute` and `union` -/

/-- Rename a variable set with fresh `value + "#SUBS#" + str(idx)` names:
returns the renaming dict, the accumulated new-variable set and the next
index. -/
def subsRename (vs : List String) (newVars : List String) (idx : Nat) :
    List (String × String) × List String × Nat :=
  vs.foldl (fun acc v =>
    let temp := v ++ "#SUBS#" ++ toString acc.2.2
    (aset acc.1 v temp, setInsert acc.2.1 temp, acc.2.2 + 1)) ([], newVars, idx)

/-- State threaded through the substitution loop of `substitute`. -/
structure SubsSt where
  finalRepl : List (String × String)
  newVars : List String
  idx : Nat
  out : List Production

/-- Process one `(terminal, grammar)` item of the substitution dict: rename
the grammar's variables, copy its productions with renamed variables, and
record the renamed start symbol as the replacement of the terminal.  `none`
models the `KeyError` raised when the grammar's start symbol is absent from
its renaming dict (e.g. a grammar without a start symbol).
The source also accumulates `terminals |= cfg.terminals` here; that union is
never used afterwards (the final constructor is passed `None` terminals), so
it has no counterpart in the model. -/
def subsOne (st : SubsSt) (item : String × Cfg) : Option SubsSt :=
  let cfg := item.2
  let lr := subsRename cfg.vars st.newVars st.idx
  let localD := lr.1
  match cfg.prods.mapM (fun p =>
      (alookup localD p.head).map (fun h' =>
        Production.mk h' (p.body.map (fun o =>
          match o with
          | GObj.var v =>
            match alookup localD v with
            | some nv => GObj.var nv
            | none => GObj.var v
          | GObj.term t => GObj.term t)))) with
  | none => none
  | some newProds =>
    match cfg.start with
    | none => none
    | some s =>
      match alookup localD s with
      | none => none
      | some s' =>
        some ⟨aset st.finalRepl item.1 s', lr.2.1, lr.2.2, st.out ++ newProds⟩

/-- Rewrite one host production: rename the head and every body variable
through the host renaming dict, and replace substituted terminals by the
renamed start symbol recorded in `final_replacement`; `none` models the
`KeyError` on a head absent from the renaming dict. -/
def hostProdMap (dHost finalRepl : List (String × String)) (p : Production) :
    Option Production :=
  (alookup dHost p.head).map (fun h' =>
    Production.mk h' (p.body.map (fun o =>
      match o with
      | GObj.var v =>
        match alookup dHost v with
        | some nv => GObj.var nv
        | none => GObj.var v
      | GObj.term t =>
        match alookup finalRepl t with
        | some nv => GObj.var nv
        | none => GObj.term t)))

/-- The computation of `substitute` up to the final constructor call: the
new variable set, the renamed start symbol, and the production set. -/
def subsCore (g : Cfg) (subst : List (String × Cfg)) :
    Option (List String × String × List Production) :=
  let hostR := subsRename g.vars [] 0
  let dHost := hostR.1
  match subst.foldlM subsOne (⟨[], hostR.2.1, hostR.2.2, []⟩ : SubsSt) with
  | none => none
  | some st =>
    match g.prods.mapM (hostProdMap dHost st.finalRepl) with
    | none => none
    | some hostProds =>
      match g.start with
      | none => none
      | some s =>
        match alookup dHost s with
        | none => none
        | some s' => some (st.newVars, s', uniq (st.out ++ hostProds))

/-- `substitute`: rename the host's variables, process every substituted
grammar, then rewrite the host's productions, replacing substituted
terminals by the renamed start symbols; the result is constructed with
`None` terminals (`CFG(new_vars, None, ...)`).  `none` models a
`KeyError`. -/
def substitute (g : Cfg) (subst : List (String × Cfg)) : Option Cfg :=
  (subsCore g subst).map (fun x => Cfg.make x.1 [] (some x.2.1) x.2.2)

/-- `union` (`cfg0 | cfg1`): the scaffold `S -> t0 | t1` substituted with
the two grammars. -/
def unionCfg (g1 g2 : Cfg) : Option Cfg :=
  let startTemp := "#STARTUNION#"
  let t0 := "#0UNION#"
  let t1 := "#1UNION#"
  let cfgTemp := Cfg.make [startTemp] [t0, t1] (some startTemp)
    [Production.mk startTemp [GObj.term t0], Production.mk startTemp [GObj.term t1]]
  substitute cfgTemp [(t0, g1), (t1, g2)]

/-! ## `intersection`

The regular-expression and finite-automaton collaborators are external
(spec §6): a deterministic automaton exposes its state list, its start and
final state sets, the transition callable, and emptiness / empty-word
acceptance tests.  A regex operand stands together with the DFA its
compilation (`to_epsilon_nfa().to_deterministic()`) yields; a non-deterministic
automaton stands together with its determinisation. -/

/-- The external DFA contract used by `intersection` (spec §6). -/
structure DfaModel where
  states : List String
  startStates : List String
  finalStates : List String
  delta : String → String → List String
  emptyLanguage : Bool
  acceptsEmptyWord : Bool

/-- The operand of `intersection`: a regex (with its compiled DFA), a
finite automaton (with its determinisation), or any other object. -/
inductive IntersectOperand where
  | regexOp (compiled : DfaModel)
  | automatonOp (deterministic : Bool) (given : DfaModel) (determinized : DfaModel)
  | otherOp (payload : Nat)

/-- The memoised `(p, X, r) ↦ Variable` converter
(`pda/cfg_variable_converter.py`, not in the provided sources).  Modelled
from the spec: a fresh combined variable per triple, here named by the
triple itself. -/
def combinedVarName (p x r : String) : String := p ++ ";" ++ x ++ ";" ++ r

/-- The underlying value of a grammar object (`production.body[0].value`). -/
def valueOf : GObj → String
  | GObj.var v => v
  | GObj.term t => t

/-- Product productions contributed by one CNF production
(`_intersection_when_two_non_terminals` for bodies of length 2,
`_intersection_when_terminal` otherwise; an empty body would raise an
`IndexError` on `production.body[0]`, modelled `none`). -/
def interProdsFor (states : List String) (other : DfaModel) (p : Production) :
    Option (List Production) :=
  if p.body.length = 2 then
    let b0 := p.body.getD 0 (GObj.var "")
    let b1 := p.body.getD 1 (GObj.var "")
    some (states.flatMap (fun sp =>
      states.flatMap (fun sr =>
        states.map (fun sq =>
          Production.mk (combinedVarName sp p.head sr)
            [GObj.var (combinedVarName sp (valueOf b0) sq),
             GObj.var (combinedVarName sq (valueOf b1) sr)]))))
  else
    match p.body with
    | [] => none
    | b0 :: _ =>
      some (states.flatMap (fun sp =>
        match other.delta sp (valueOf b0) with
        | [] => []
        | q :: _ => [Production.mk (combinedVarName sp p.head q) [b0]]))

/-- `_intersection_starting_rules`: `Start -> ⟨q0, S, f⟩` for every final
state; `none` models the `IndexError` on an empty start-state list and the
converter failure on a grammar without a start symbol. -/
def interStartingRules (cfg : Cfg) (other : DfaModel) : Option (List Production) :=
  match other.startStates with
  | [] => none
  | s0 :: _ =>
    match cfg.start with
    | none => none
    | some s =>
      some (other.finalStates.map (fun f =>
        Production.mk "Start" [GObj.var (combinedVarName s0 s f)]))

/-- The body of `intersection` once the operand has been brought to a DFA:
empty automata short-circuit to the default-constructed grammar `CFG()`;
otherwise the CNF of the grammar is intersected by the triple-state
construction. -/
def intersectWithDfa (g : Cfg) (other : DfaModel) (nfFuel : Nat) : Option Cfg :=
  if other.emptyLanguage then some (Cfg.make [] [] none [])
  else
    let generateEmpty := generateEpsilon g && other.acceptsEmptyWord
    match toNormalForm g nfFuel with
    | none => none
    | some cfg =>
      let states := other.states
      match cfg.prods.mapM (interProdsFor states other) with
      | none => none
      | some prodLists =>
        match interStartingRules cfg other with
        | none => none
        | some startRules =>
          let ps := prodLists.flatten ++ startRules
          let ps := if generateEmpty then ps ++ [Production.mk "Start" []] else ps
          some (Cfg.make [] [] (some "Start") ps)

/-- `intersection`: dispatch on the operand; anything that is neither a
regex nor a finite automaton raises `NotImplementedError` (the `.error`
case). -/
def intersection (g : Cfg) (op : IntersectOperand) (nfFuel : Nat) :
    Except Unit (Option Cfg) :=
  match op with
  | IntersectOperand.regexOp compiled => Except.ok (intersectWithDfa g compiled nfFuel)
  | IntersectOperand.automatonOp det given detd =>
    Except.ok (intersectWithDfa g (if det then given else detd) nfFuel)
  | IntersectOperand.otherOp _ => Except.error ()

/-- Whether an operand is neither a regex nor a finite automaton. -/
def IntersectOperand.isOther : IntersectOperand → Bool
  | IntersectOperand.otherOp _ => true
  | _ => false

/-! ## The recursive automaton (`rsa/recursive_automaton.py`)

Labels are `Symbol`s over string values (`to_symbol` is the identity on
symbols).  A box is a minimal DFA labelled by a symbol; its automaton is
opaque here (carried as a numeric tag). -/

/-- A box: a labelled minimal DFA (`rsa/box.py`, payload opaque). -/
structure RsaBox where
  label : String
  dfa : Nat
deriving DecidableEq, Repr

/-- A recursive automaton: the label set, the initial label and the
label ↦ box dict. -/
structure Rsa where
  labels : List String
  initialLabel : String
  boxes : List (String × RsaBox)
deriving DecidableEq, Repr

/-- `RecursiveAutomaton.get_box`. -/
def rsaGetBox (r : Rsa) (l : String) : Option RsaBox := alookup r.boxes l

/-- `RecursiveAutomaton.__init__`: deduplicate the labels, add the initial
label when given (`Symbol("")` is the default initial label and is *not*
added), record the boxes keyed by label while adding their labels, then
require every label to have a box. -/
def rsaDeclared (labels : Option (List String)) (initialLabel : Option String) :
    List String :=
  match initialLabel with
  | some l => setInsert (uniq (labels.getD [])) l
  | none => uniq (labels.getD [])

/-- The box-recording fold of `RecursiveAutomaton.__init__`: key each box by
its label in the box dict and add the label to the label set. -/
def rsaFold (bxs : List RsaBox) (ls1 : List String) :
    List (String × RsaBox) × List String :=
  bxs.foldl (fun bm b => (aset bm.1 b.label b, setInsert bm.2 b.label)) ([], ls1)

def rsaInit (labels : Option (List String)) (initialLabel : Option String)
    (boxes : Option (List RsaBox)) : Except String Rsa :=
  let ls1 := rsaDeclared labels initialLabel
  let initL := match initialLabel with
    | some l => l
    | none => ""
  let bm := rsaFold (boxes.getD []) ls1
  if ∀ l ∈ bm.2, (alookup bm.1 l).isSome then Except.ok ⟨bm.2, initL, bm.1⟩
  else Except.error "RSA must have the same number of labels and DFAs"

/-- `RecursiveAutomaton.change_initial_label`: validate that the new label
is known — and then return with the state unchanged (the method body never
assigns the new initial label). -/
def changeInitialLabel (r : Rsa) (newInitialLabel : String) : Except String Rsa :=
  if newInitialLabel ∉ r.labels then
    Except.error "New initial label not in set of labels for boxes"
  else Except.ok r

/-! ## Well-formedness and concrete inputs -/

/-- Membership of a grammar object in a grammar's symbol sets. -/
def symOk (g : Cfg) : GObj → Prop
  | GObj.var v => v ∈ g.vars
  | GObj.term t => t ∈ g.terms

instance instDecidableSymOk (g : Cfg) (s : GObj) : Decidable (symOk g s) :=
  match s with
  | GObj.var v => inferInstanceAs (Decidable (v ∈ g.vars))
  | GObj.term t => inferInstanceAs (Decidable (t ∈ g.terms))

/-- The invariant `Cfg.__init__` establishes: production symbols are closed
into the variable/terminal sets, the start symbol is a variable, and both
symbol sets are duplicate-free (Python sets). -/
def Cfg.WF (g : Cfg) : Prop :=
  (∀ p ∈ g.prods, p.head ∈ g.vars ∧ ∀ s ∈ p.body, symOk g s) ∧
  (∀ s, g.start = some s → s ∈ g.vars) ∧ g.vars.Nodup ∧ g.terms.Nodup

instance instDecidableWF (g : Cfg) : Decidable g.WF := by
  unfold Cfg.WF; infer_instance

/-- Example grammar `S -> A B; A -> a; B -> b` (language `{ab}`); it is
already in canonical shape. -/
def exG : Cfg := Cfg.make ["S", "A", "B"] ["a", "b"] (some "S")
  [Production.mk "S" [GObj.var "A", GObj.var "B"],
   Production.mk "A" [GObj.term "a"],
   Production.mk "B" [GObj.term "b"]]

/-- Example grammar `S -> A A; A -> A; A -> a`: canonical by the source's
size guards although it contains the self-loop unit production `A -> A`. -/
def cex2 : Cfg := Cfg.make ["S", "A"] ["a"] (some "S")
  [Production.mk "S" [GObj.var "A", GObj.var "A"],
   Production.mk "A" [GObj.var "A"],
   Production.mk "A" [GObj.term "a"]]

/-- A DFA whose language is empty (no final states). -/
def emptyDfa : DfaModel :=
  ⟨["q0"], ["q0"], [], fun _ _ => [], true, false⟩

/-- An example box set and recursive automaton input. -/
def exBoxes : List RsaBox := [⟨"S", 0⟩, ⟨"T", 1⟩]

/-- The CNF production shape as claimed: a body of exactly two variables,
of exactly one terminal, or — only for the start symbol — empty. -/
def cnfShapeStrict (start : Option String) (p : Production) : Prop :=
  (∃ v w, p.body = [GObj.var v, GObj.var w]) ∨
  (∃ t, p.body = [GObj.term t]) ∨
  (p.body = [] ∧ some p.head = start)

/-- The CNF production shape the source actually guarantees: additionally a
body of exactly one *variable* may survive (a reflexive unit production
passes the canonical-shape guard untouched). -/
def cnfShapeAmended (start : Option String) (p : Production) : Prop :=
  (∃ v w, p.body = [GObj.var v, GObj.var w]) ∨
  (∃ t, p.body = [GObj.term t]) ∨
  (∃ v, p.body = [GObj.var v]) ∨
  (p.body = [] ∧ some p.head = start)

/-- Intermediate shape after `_get_productions_with_only_single_terminals`:
a single-symbol body, or a body of length ≥ 2 made of variables only. -/
def prodMidShape (q : Production) : Prop :=
  q.body.length = 1 ∨ (2 ≤ q.body.length ∧ ∀ s ∈ q.body, ∃ v, s = GObj.var v)

/-- Output shape of `_decompose_productions`: a single-symbol body or a
two-variable body. -/
def prodOutShape (r : Production) : Prop :=
  (∃ x, r.body = [x]) ∨ (∃ v w, r.body = [GObj.var v, GObj.var w])

/-- The production slots of a head in the counter tables: its productions
with non-empty bodies, in production-list order; slot `idx` of head `h` is
the `idx`-th element. -/
def headSlots (ps : List Production) (h : String) : List Production :=
  ps.filter (fun p => p.head = h ∧ p.body ≠ [])

/-- The least fixed point the engine computes: seeds, plus heads of
productions whose whole body is already in the set (empty bodies
included). -/
inductive GenSym (ps : List Production) (seeds : List GObj) : GObj → Prop where
  | seed (s : GObj) : s ∈ seeds → GenSym ps seeds s
  | step (p : Production) : p ∈ ps → (∀ s ∈ p.body, GenSym ps seeds s) →
      GenSym ps seeds (GObj.var p.head)

/-- The reachability relation `get_reachable_symbols` computes: the start
element (possibly the `None` placeholder), closed under head → body-element
edges. -/
inductive ReachSym (g : Cfg) : Option GObj → Prop where
  | start : ReachSym g (g.start.map GObj.var)
  | step (h : String) (p : Production) (y : GObj) :
      ReachSym g (some (GObj.var h)) → p ∈ g.prods → p.head = h →
      y ∈ p.body → ReachSym g (some y)

/-- Whether an `Except` computation raised. -/
def isRaise {eps alp : Type} : Except eps alp → Bool
  | Except.error _ => true
  | Except.ok _ => false

/-- A concrete recursive automaton for witnesses. -/
def exRsa : Rsa := ⟨["S", "T"], "S", [("S", ⟨"S", 0⟩), ("T", ⟨"T", 1⟩)]⟩

/-- The body of slot `i` of head `h` in the counter tables. -/
def slotBody (ps : List Production) (h : String) (i : Nat) : List GObj :=
  ((headSlots ps h).getD i (Production.mk "" [])).body

/-- How many positions of a body hold an already-processed symbol. -/
def countProc (proc : List ESym) (body : List GObj) : Nat :=
  (body.filter (fun s => (some s : ESym) ∈ proc)).length

/-- The invariant of the `_get_generating_or_nullable` worklist loop,
relative to the ghost list `proc` of already-popped symbols and the suffix
`entries` of the impact list still to be processed for the symbol being
popped: the working set is duplicate-free and sound for the least fixed
point `GenSym`, the stack and the processed symbols partition it, and every
live counter holds the number of not-yet-processed occurrences in its slot
body (plus the decrements still pending in `entries`) and is positive. -/
def EngInv (ps : List Production) (seeds : List GObj) (st : EngSt)
    (proc : List ESym) (entries : List (String × Nat)) : Prop :=
  st.gSyms.Nodup ∧
  (∀ x ∈ st.stack, x ∈ st.gSyms) ∧
  (∀ x ∈ proc, x ∈ st.gSyms) ∧
  (∀ x ∈ st.gSyms, x ∈ proc ∨ x ∈ st.stack) ∧
  (st.stack ++ proc).Nodup ∧
  (∀ x ∈ st.gSyms, x = none ∨ ∃ s, x = some s ∧ GenSym ps seeds s) ∧
  (∀ h, ((alookup st.rem h).getD []).length = (headSlots ps h).length) ∧
  (∀ h, headSlots ps h ≠ [] → (alookup st.rem h).isSome) ∧
  (∀ h i, i < (headSlots ps h).length → (some (GObj.var h) : ESym) ∉ st.gSyms →
    ((alookup st.rem h).getD []).getD i 0
        = ((slotBody ps h i).length : Int) - countProc proc (slotBody ps h i)
          + List.count (h, i) entries ∧
    (0 : Int) < ((alookup st.rem h).getD []).getD i 0)

/-- One step of the `_decompose_productions` fold over the production
list. -/
def decompStep (vars : List String) (st : DecompSt) (p : Production) :
    DecompSt :=
  if p.body.length ≤ 2 then { st with out := st.out ++ [p] }
  else
    let gen := (List.range (p.body.length - 2)).foldl
      (fun (iv : Nat × List String) _ =>
        let r := getNextFreeVariable vars "C#CNF#" (vars.length + 1) iv.1
        (r.1, iv.2 ++ [r.2])) (st.idx, [])
    decompWalk p.body gen.2 0 p.head { st with idx := gen.1 }

/-- The pointwise terminal replacement performed on bodies of length ≠ 1
by `_get_productions_with_only_single_terminals`. -/
def termReplFun (ts : List String) : GObj → GObj
  | GObj.term t => if t ∈ ts then GObj.var (termToVarName t) else GObj.term t
  | GObj.var v => GObj.var v

/-- Size of the part of a universe not yet in a visited list (the loop
variant of the engine worklist). -/
def notMemFilterLen {α : Type} [DecidableEq α] (U G : List α) : Nat :=
  (U.filter (fun z => z ∉ G)).length

/-! # Theorems -/

section AssocLemmas

variable {α β : Type} [DecidableEq α]

theorem alookup_aset_self (r : List (α × β)) (k : α) (v : β) :
    alookup (aset r k v) k = some v := by
  induction r with
  | nil => simp [aset, alookup]
  | cons kv rest ih =>
    by_cases h : kv.1 = k
    · simp [aset, h, alookup]
    · simpa [aset, h, alookup] using ih

theorem alookup_aset_ne (r : List (α × β)) {k k' : α} (v : β) (h : k' ≠ k) :
    alookup (aset r k v) k' = alookup r k' := by
  induction r with
  | nil => simp [aset, alookup, Ne.symm h]
  | cons kv rest ih =>
    by_cases hk : kv.1 = k
    · simp [aset, hk, alookup, Ne.symm h, h]
    · simp only [aset, hk, if_false, alookup]
      by_cases hk' : kv.1 = k' <;> simp [hk', ih]

theorem aset_aset_self (r : List (α × β)) (k : α) (v w : β) :
    aset (aset r k v) k w = aset r k w := by
  induction r with
  | nil => simp [aset]
  | cons kv rest ih =>
    by_cases h : kv.1 = k
    · simp [aset, h]
    · simp [aset, h, ih]

theorem aset_aset_comm (r : List (α × β)) {k k' : α} (v w : β) (h : k ≠ k')
    (hk : (alookup r k).isSome) :
    aset (aset r k v) k' w = aset (aset r k' w) k v := by
  induction r with
  | nil => simp [alookup] at hk
  | cons kv rest ih =>
    by_cases h1 : kv.1 = k
    · subst h1
      simp [aset, Ne.symm h, h]
    · by_cases h2 : kv.1 = k'
      · subst h2
        simp [aset, h1, Ne.symm h]
      · simp only [alookup, h1, if_false] at hk
        simp [aset, h1, h2, ih hk]

theorem aset_self_of_lookup (r : List (α × β)) {k : α} {v : β}
    (h : alookup r k = some v) : aset r k v = r := by
  induction r with
  | nil => simp [alookup] at h
  | cons kv rest ih =>
    by_cases hk : kv.1 = k
    · simp only [alookup, hk, if_true] at h
      cases h
      simp [aset, hk]
      cases kv
      simp_all
    · simp only [alookup, hk, if_false] at h
      simp [aset, hk, ih h]

end AssocLemmas

theorem set_getD_self {α : Type} (l : List α) (i : Nat) (d : α)
    (h : i < l.length) : l.set i (l.getD i d) = l := by
  induction l generalizing i with
  | nil => simp at h
  | cons a rest ih =>
    cases i with
    | zero => simp [List.set, List.getD]
    | succ n =>
      simp only [List.set, List.getD_cons_succ]
      simp only [List.length_cons, Nat.succ_lt_succ_iff] at h
      rw [ih n h]

theorem bump_bump (l : List Int) (i : Nat) (d d' : Int) :
    bump (bump l i d) i d' = bump l i (d + d') := by
  unfold bump
  by_cases hi : i < l.length
  · rw [List.getD_eq_getElem?_getD (l.set i (l.getD i 0 + d)),
      List.getElem?_set_self (by simpa using hi), Option.getD_some, List.set_set,
      add_assoc]
  · rw [List.set_eq_of_length_le (by simp; omega)]
    rw [List.set_eq_of_length_le (by omega), List.set_eq_of_length_le (by omega)]

theorem bump_zero (l : List Int) (i : Nat) : bump l i 0 = l := by
  unfold bump
  by_cases hi : i < l.length
  · rw [add_zero]
    exact set_getD_self l i 0 hi
  · exact List.set_eq_of_length_le (by omega)

theorem bump_comm (l : List Int) {i i' : Nat} (d d' : Int) (hii : i ≠ i') :
    bump (bump l i' d') i d = bump (bump l i d) i' d' := by
  unfold bump
  rw [List.getD_eq_getElem?_getD (l.set i' _), List.getElem?_set_ne (Ne.symm hii),
    List.getD_eq_getElem?_getD (l.set i _), List.getElem?_set_ne hii,
    List.set_comm _ _ _ (Ne.symm hii), List.getD_eq_getElem?_getD,
    List.getD_eq_getElem?_getD]

theorem adjAt_cancel (r : List (String × List Int)) (h : String) (i : Nat)
    (d : Int) : adjAt (adjAt r h i d) h i (-d) = r := by
  unfold adjAt
  cases hl : alookup r h with
  | none => simp [hl]
  | some l =>
    simp only [hl, alookup_aset_self]
    rw [aset_aset_self, bump_bump]
    simp only [add_neg_cancel, bump_zero]
    exact aset_self_of_lookup r hl

theorem adjAt_comm (r : List (String × List Int)) (h h' : String) (i i' : Nat)
    (d d' : Int) :
    adjAt (adjAt r h' i' d') h i d = adjAt (adjAt r h i d) h' i' d' := by
  by_cases hhh : h = h'
  · subst hhh
    unfold adjAt
    cases hl : alookup r h with
    | none => simp [hl]
    | some l =>
      simp only [hl, alookup_aset_self, aset_aset_self]
      by_cases hii : i = i'
      · subst hii
        rw [bump_bump, bump_bump, add_comm]
      · rw [bump_comm _ _ _ hii]
  · unfold adjAt
    cases hl : alookup r h with
    | none =>
      cases hl' : alookup r h' with
      | none => simp [hl, hl']
      | some l' =>
        simp [hl, hl', alookup_aset_ne r _ hhh]
    | some l =>
      cases hl' : alookup r h' with
      | none =>
        simp [hl, hl', alookup_aset_ne r _ (Ne.symm hhh)]
      | some l' =>
        rw [alookup_aset_ne r _ hhh, alookup_aset_ne r _ (Ne.symm hhh), hl, hl']
        exact aset_aset_comm r _ _ (Ne.symm hhh) (by simp [hl'])

/-- Fold invariance helper: a property preserved by each step is preserved
by the whole fold. -/
theorem foldl_preserves {α σ : Type} (f : σ → α → σ) (P : σ → Prop)
    (h : ∀ s x, P s → P (f s x)) : ∀ (l : List α) (s : σ), P s → P (l.foldl f s)
  | [], _, hs => hs
  | x :: l, s, hs => foldl_preserves f P h l (f s x) (h s x hs)

theorem restoreRem_cons (e : String × Nat) (pm : List (String × Nat))
    (r : List (String × List Int)) :
    restoreRem (e :: pm) r = restoreRem pm (adjAt r e.1 e.2 1) := rfl

theorem restoreRem_append_one (pm : List (String × Nat)) (e : String × Nat)
    (r : List (String × List Int)) :
    restoreRem (pm ++ [e]) r = adjAt (restoreRem pm r) e.1 e.2 1 := by
  unfold restoreRem
  rw [List.foldl_append]
  rfl

theorem restoreRem_adjAt (pm : List (String × Nat))
    (r : List (String × List Int)) (h : String) (i : Nat) (d : Int) :
    restoreRem pm (adjAt r h i d) = adjAt (restoreRem pm r) h i d := by
  induction pm generalizing r with
  | nil => rfl
  | cons e pm ih =>
    rw [restoreRem_cons, restoreRem_cons, adjAt_comm r e.1 h e.2 i 1 d, ih]

theorem adjAt_cancel_dec (r : List (String × List Int)) (h : String)
    (i : Nat) : adjAt (adjAt r h i (-1)) h i 1 = r := by
  have := adjAt_cancel r h i (-1)
  simpa using this

/-- One impact-entry step does not change the value restored from the
decrement log. -/
theorem procImpactOne_restore (st : EngSt) (hi : String × Nat) :
    restoreRem (procImpactOne st hi).procMod (procImpactOne st hi).rem =
    restoreRem st.procMod st.rem := by
  unfold procImpactOne
  by_cases hmem : (some (GObj.var hi.1) : ESym) ∈ st.gSyms
  · simp [hmem]
  · simp only [hmem, if_false]
    by_cases hz : ((alookup (adjAt st.rem hi.1 hi.2 (-1)) hi.1).getD []).getD hi.2 0 = 0
    · simp only [hz, if_true]
      rw [restoreRem_append_one, restoreRem_adjAt, adjAt_cancel_dec]
    · simp only [hz, if_false]
      rw [restoreRem_append_one, restoreRem_adjAt, adjAt_cancel_dec]

/-- `procImpacts` does not change the value restored from the decrement
log. -/
theorem procImpacts_restore (entries : List (String × Nat)) (st : EngSt) :
    restoreRem (procImpacts entries st).procMod (procImpacts entries st).rem =
    restoreRem st.procMod st.rem := by
  induction entries generalizing st with
  | nil => rfl
  | cons hi rest ih =>
    unfold procImpacts at ih ⊢
    rw [List.foldl_cons, ih, procImpactOne_restore]

/-- The engine loop does not change the value restored from the decrement
log. -/
theorem engLoop_restore (imp : List (GObj × List (String × Nat))) (fuel : Nat)
    (st : EngSt) :
    restoreRem (engLoop imp fuel st).procMod (engLoop imp fuel st).rem =
    restoreRem st.procMod st.rem := by
  induction fuel generalizing st with
  | zero => rfl
  | succ fuel ih =>
    unfold engLoop
    cases hs : st.stack with
    | nil => rfl
    | cons c rest => rw [ih, procImpacts_restore]

/-- The seeding folds touch only the working set and the stack. -/
theorem engSeed_rem_procMod (g : Cfg) (tb : ImpactTables)
    (remInit : List (String × List Int)) (nullable : Bool) :
    (engSeed g tb remInit nullable).rem = remInit ∧
    (engSeed g tb remInit nullable).procMod = [] := by
  unfold engSeed
  have h1 : ∀ st : EngSt, st.rem = remInit ∧ st.procMod = [] →
      ∀ l : List String, ((l.foldl (fun st h =>
        if (some (GObj.var h) : ESym) ∈ st.gSyms then st
        else { st with gSyms := st.gSyms ++ [some (GObj.var h)],
                       stack := some (GObj.var h) :: st.stack }) st).rem = remInit ∧
        (l.foldl (fun st h =>
        if (some (GObj.var h) : ESym) ∈ st.gSyms then st
        else { st with gSyms := st.gSyms ++ [some (GObj.var h)],
                       stack := some (GObj.var h) :: st.stack }) st).procMod = []) := by
    intro st hst l
    refine foldl_preserves _ (fun (s : EngSt) => s.rem = remInit ∧ s.procMod = []) ?_ l st hst
    intro s x hs
    by_cases hx : (some (GObj.var x) : ESym) ∈ s.gSyms <;> simp [hx, hs.1, hs.2]
  by_cases hn : nullable
  · simp only [hn, if_true]
    exact h1 ⟨[none], [none], remInit, []⟩ ⟨rfl, rfl⟩ tb.added
  · simp only [hn, if_false]
    refine foldl_preserves _ (fun (s : EngSt) => s.rem = remInit ∧ s.procMod = []) ?_ g.terms _
      (h1 ⟨[none], [none], remInit, []⟩ ⟨rfl, rfl⟩ tb.added)
    intro s x hs
    simp [hs.1, hs.2]

/-- C5: a run of the shared fixed-point engine (`get_generating_symbols`
with `nullable = false`, `get_nullable_symbols` with `nullable = true`)
returns the counter table equal to its value before the call — every
decrement logged during the run is undone by the restoration pass — and
therefore immediately repeating the analysis from the returned table gives
an equal result set. -/
theorem engine_restores_counters (g : Cfg) (remInit : List (String × List Int))
    (nullable : Bool) :
    (runEngine g remInit nullable).2 = remInit ∧
    (runEngine g ((runEngine g remInit nullable).2) nullable).1 =
      (runEngine g remInit nullable).1 := by
  have key : ∀ r : List (String × List Int), (runEngine g r nullable).2 = r := by
    intro r
    unfold runEngine runEngineSt
    have h := engSeed_rem_procMod g (setImpactsAndRemaining g.prods) r nullable
    simp only []
    rw [engLoop_restore]
    rw [h.1, h.2]
    rfl
  exact ⟨key remInit, by rw [key remInit]⟩

/-- C1 (amended): for every grammar and every `max_length ≤ -2`, `get_words`
yields exactly what `get_words(1)` yields (the empty word when the start
symbol is nullable, then the single-symbol words): the main loop's entry
condition `current_length <= max_length or max_length == -1` fails
immediately for both, so only `-1` acts as the "unbounded" sentinel. -/
theorem getWords_neg_eq_getWords_one (g : Cfg) (k : Int)
    (nfFuel loopFuel : Nat) (hk : k ≤ -2) :
    getWords g k nfFuel loopFuel = getWords g 1 nfFuel loopFuel := by
  unfold getWords
  have hk0 : ¬ (k = 0) := by omega
  have h10 : ¬ ((1 : Int) = 0) := by omega
  simp only [hk0, h10, if_false]
  cases toNormalForm g nfFuel with
  | none => rfl
  | some cfg =>
    simp only []
    unfold gwLoop
    have hc1 : ¬ ((2 : Int) ≤ k ∨ k = -1) := by omega
    have hc2 : ¬ ((2 : Int) ≤ 1 ∨ (1 : Int) = -1) := by omega
    rw [if_pos hc1, if_pos hc2]

/-- C1 counterexample: on `S -> A B; A -> a; B -> b` (language `{ab}`),
`get_words(-2)` yields nothing while `get_words(-1)` yields `ab`, so a
negative `max_length` other than `-1` is *not* treated as the unbounded
sentinel. -/
theorem getWords_neg_two_cex :
    getWords exG (-2) 3 10 = some [] ∧
    getWords exG (-1) 3 10 = some [[GObj.term "a", GObj.term "b"]] ∧
    getWords exG (-2) 3 10 ≠ getWords exG (-1) 3 10 := by
  refine ⟨by decide, by decide, by decide⟩

/-- Witness for the amended C1 theorem at `k = -2` on `exG`. -/
theorem getWords_neg_eq_getWords_one_witness :
    (-2 : Int) ≤ -2 ∧ getWords exG (-2) 3 10 = getWords exG 1 3 10 :=
  ⟨by decide, getWords_neg_eq_getWords_one exG (-2) 3 10 (by decide)⟩

theorem mem_setInsert {α : Type} [DecidableEq α] (a b : α) (l : List α) :
    a ∈ setInsert l b ↔ a ∈ l ∨ a = b := by
  unfold setInsert
  by_cases h : b ∈ l
  · simp only [h, if_true]
    constructor
    · exact Or.inl
    · rintro (h1 | rfl) <;> assumption
  · simp [h]

theorem mem_foldl_setInsert {α : Type} [DecidableEq α] (l : List α) :
    ∀ (init : List α) (a : α), a ∈ l.foldl setInsert init ↔ a ∈ init ∨ a ∈ l := by
  induction l with
  | nil => simp
  | cons x l ih =>
    intro init a
    rw [List.foldl_cons, ih, mem_setInsert]
    simp only [List.mem_cons]
    tauto

theorem mem_uniq {α : Type} [DecidableEq α] (l : List α) (a : α) :
    a ∈ uniq l ↔ a ∈ l := by
  unfold uniq
  rw [mem_foldl_setInsert]
  simp

theorem alookup_aset_isSome {α β : Type} [DecidableEq α]
    (r : List (α × β)) (k l : α) (v : β) :
    (alookup (aset r k v) l).isSome ↔ l = k ∨ (alookup r l).isSome := by
  by_cases h : l = k
  · subst h
    simp [alookup_aset_self]
  · rw [alookup_aset_ne r v h]
    simp [h]

theorem rsaBoxesFold_spec (bs : List RsaBox) :
    ∀ (bm : List (String × RsaBox) × List String) (l : String),
      ((alookup (bs.foldl (fun bm b =>
          (aset bm.1 b.label b, setInsert bm.2 b.label)) bm).1 l).isSome ↔
        (alookup bm.1 l).isSome ∨ l ∈ bs.map RsaBox.label) ∧
      (l ∈ (bs.foldl (fun bm b =>
          (aset bm.1 b.label b, setInsert bm.2 b.label)) bm).2 ↔
        l ∈ bm.2 ∨ l ∈ bs.map RsaBox.label) := by
  induction bs with
  | nil => simp
  | cons b bs ih =>
    intro bm l
    rw [List.foldl_cons]
    constructor
    · rw [(ih _ l).1, alookup_aset_isSome]
      simp only [List.map_cons, List.mem_cons]
      tauto
    · rw [(ih _ l).2, mem_setInsert]
      simp only [List.map_cons, List.mem_cons]
      tauto


theorem rsaFold_spec (bs : List RsaBox) (ls1 : List String) (l : String) :
    ((alookup (rsaFold bs ls1).1 l).isSome ↔ l ∈ bs.map RsaBox.label) ∧
    (l ∈ (rsaFold bs ls1).2 ↔ l ∈ ls1 ∨ l ∈ bs.map RsaBox.label) := by
  have key : ∀ (bm : List (String × RsaBox) × List String),
      ((alookup (bs.foldl (fun bm b =>
          (aset bm.1 b.label b, setInsert bm.2 b.label)) bm).1 l).isSome ↔
        (alookup bm.1 l).isSome ∨ l ∈ bs.map RsaBox.label) ∧
      (l ∈ (bs.foldl (fun bm b =>
          (aset bm.1 b.label b, setInsert bm.2 b.label)) bm).2 ↔
        l ∈ bm.2 ∨ l ∈ bs.map RsaBox.label) := by
    induction bs with
    | nil => simp
    | cons b bs ih =>
      intro bm
      rw [List.foldl_cons]
      constructor
      · rw [(ih _).1, alookup_aset_isSome]
        simp only [List.map_cons, List.mem_cons]
        tauto
      · rw [(ih _).2, mem_setInsert]
        simp only [List.map_cons, List.mem_cons]
        tauto
  have h := key ([], ls1)
  unfold rsaFold
  constructor
  · rw [h.1]
    simp [alookup]
  · rw [h.2]

theorem mem_rsaDeclared (labels : Option (List String))
    (initialLabel : Option String) (l : String) :
    l ∈ rsaDeclared labels initialLabel ↔
      l ∈ labels.getD [] ∨ initialLabel = some l := by
  unfold rsaDeclared
  cases initialLabel with
  | none => simp [mem_uniq]
  | some i =>
    rw [mem_setInsert, mem_uniq]
    constructor
    · rintro (h | rfl)
      · exact Or.inl h
      · exact Or.inr rfl
    · rintro (h | h)
      · exact Or.inl h
      · cases h
        exact Or.inr rfl

/-- C7: constructing a `RecursiveAutomaton` raises `ValueError` iff some
label of the declared label set — the given labels, the given initial
label, and the labels of the given boxes — has no box carrying it; on
success every label of the automaton is mapped to a box (exactly one, the
box dict being a mapping). -/
theorem rsaInit_valueError_iff (labels : Option (List String))
    (initialLabel : Option String) (boxes : Option (List RsaBox)) :
    (isRaise (rsaInit labels initialLabel boxes) = true ↔
      ∃ l, (l ∈ labels.getD [] ∨ initialLabel = some l ∨
              l ∈ (boxes.getD []).map RsaBox.label) ∧
           l ∉ (boxes.getD []).map RsaBox.label) ∧
    (∀ r, rsaInit labels initialLabel boxes = Except.ok r →
      ∀ l ∈ r.labels, (rsaGetBox r l).isSome) := by
  unfold rsaInit
  by_cases hall : ∀ l ∈ (rsaFold (boxes.getD [])
      (rsaDeclared labels initialLabel)).2,
      (alookup (rsaFold (boxes.getD []) (rsaDeclared labels initialLabel)).1 l).isSome
  · rw [if_pos hall]
    constructor
    · refine iff_of_false (by simp [isRaise]) ?_
      rintro ⟨l, hdecl, hnobox⟩
      have hmem : l ∈ (rsaFold (boxes.getD []) (rsaDeclared labels initialLabel)).2 := by
        rw [(rsaFold_spec _ _ l).2, mem_rsaDeclared]
        rcases hdecl with h | h | h
        · exact Or.inl (Or.inl h)
        · exact Or.inl (Or.inr h)
        · exact Or.inr h
      have := hall l hmem
      rw [(rsaFold_spec _ _ l).1] at this
      exact hnobox this
    · intro r hr l hl
      cases hr
      have := hall l hl
      exact this
  · rw [if_neg hall]
    constructor
    · refine iff_of_true rfl ?_
      push_neg at hall
      obtain ⟨l, hmem, hnone⟩ := hall
      simp only [ne_eq,
        (rsaFold_spec (boxes.getD []) (rsaDeclared labels initialLabel) l).1] at hnone
      rw [(rsaFold_spec _ _ l).2, mem_rsaDeclared] at hmem
      refine ⟨l, ?_, by simpa using hnone⟩
      rcases hmem with (h | h) | h
      · exact Or.inl h
      · exact Or.inr (Or.inl h)
      · exact Or.inr (Or.inr h)
    · intro r hr
      cases hr

/-- Witness for C7 on a concrete failing and a concrete succeeding input:
declaring label `"U"` with no box raises, and the two-box input constructs
an automaton in which every label has its box. -/
theorem rsaInit_valueError_iff_witness :
    isRaise (rsaInit (some ["S", "U"]) (some "S") (some exBoxes)) = true ∧
    ∀ r, rsaInit (some ["S", "T"]) (some "S") (some exBoxes) = Except.ok r →
      ∀ l ∈ r.labels, (rsaGetBox r l).isSome := by
  constructor
  · exact (rsaInit_valueError_iff (some ["S", "U"]) (some "S") (some exBoxes)).1.mpr
      ⟨"U", by decide, by decide⟩
  · exact (rsaInit_valueError_iff (some ["S", "T"]) (some "S") (some exBoxes)).2

/-- C8: `change_initial_label` with a label already in the label set
returns without raising and leaves the automaton unchanged — the method
validates membership but never assigns the new initial label, so the
post-state equals the pre-state in every field. -/
theorem changeInitialLabel_noop (r : Rsa) (l : String) (h : l ∈ r.labels) :
    changeInitialLabel r l = Except.ok r := by
  unfold changeInitialLabel
  simp [h]

/-- Witness for C8 on a concrete automaton: changing the initial label to
the already-known `"T"` returns the automaton unchanged (initial label
still `"S"`). -/
theorem changeInitialLabel_noop_witness :
    changeInitialLabel exRsa "T" = Except.ok exRsa ∧ exRsa.initialLabel = "S" :=
  ⟨changeInitialLabel_noop exRsa "T" (by decide), rfl⟩

/-- C4 (the code evaluated at the failing input): the union of two
default-constructed grammars — grammars with no start symbol, which the
data model allows — crashes inside `substitute` (`KeyError` on
`new_variables_d_local[cfg.start_symbol]`, modelled by `none`), so the
membership biconditional the spec promises cannot even be evaluated there,
contradicting the spec's guarantee that grammar algebra is total and never
fails. -/
theorem union_default_raises :
    unionCfg Cfg.default0 Cfg.default0 = none ∧
    unionCfg exG Cfg.default0 = none := by
  constructor <;> rfl

theorem mem_body_fold_terms (body : List GObj) :
    ∀ (vt : List String × List String) (t : String),
      t ∈ (body.foldl (fun vt s =>
        match s with
        | GObj.term u => (vt.1, setInsert vt.2 u)
        | GObj.var v => (setInsert vt.1 v, vt.2)) vt).2 ↔
      t ∈ vt.2 ∨ GObj.term t ∈ body := by
  induction body with
  | nil => simp
  | cons s body ih =>
    intro vt t
    rw [List.foldl_cons]
    cases s with
    | term u =>
      rw [ih]
      simp only [List.mem_cons]
      rw [mem_setInsert]
      constructor
      · rintro ((h | rfl) | h)
        · exact Or.inl h
        · exact Or.inr (Or.inl rfl)
        · exact Or.inr (Or.inr h)
      · rintro (h | (h | h))
        · exact Or.inl (Or.inl h)
        · cases h
          exact Or.inl (Or.inr rfl)
        · exact Or.inr h
    | var v =>
      rw [ih]
      simp only [List.mem_cons]
      constructor
      · rintro (h | h)
        · exact Or.inl h
        · exact Or.inr (Or.inr h)
      · rintro (h | (h | h))
        · exact Or.inl h
        · exact absurd h (by simp)
        · exact Or.inr h

theorem mem_prods_fold_terms (ps : List Production) :
    ∀ (vt : List String × List String) (t : String),
      t ∈ (ps.foldl initProductionInCFG vt).2 ↔
      t ∈ vt.2 ∨ ∃ p ∈ ps, GObj.term t ∈ p.body := by
  induction ps with
  | nil => simp
  | cons p ps ih =>
    intro vt t
    rw [List.foldl_cons, ih]
    unfold initProductionInCFG
    rw [mem_body_fold_terms]
    simp only [List.mem_cons]
    constructor
    · rintro ((h | h) | ⟨q, hq, hb⟩)
      · exact Or.inl h
      · exact Or.inr ⟨p, Or.inl rfl, h⟩
      · exact Or.inr ⟨q, Or.inr hq, hb⟩
    · rintro (h | ⟨q, (rfl | hq), hb⟩)
      · exact Or.inl (Or.inl h)
      · exact Or.inl (Or.inr hb)
      · exact Or.inr ⟨q, hq, hb⟩

/-- The constructor's terminal set is the given terminals closed under the
terminals occurring in production bodies. -/
theorem make_terms_iff (vs ts : List String) (start : Option String)
    (ps : List Production) (t : String) :
    t ∈ (Cfg.make vs ts start ps).terms ↔
      t ∈ ts ∨ ∃ p ∈ ps, GObj.term t ∈ p.body := by
  unfold Cfg.make
  cases start with
  | none => rw [mem_prods_fold_terms, mem_uniq]
  | some s => rw [mem_prods_fold_terms, mem_uniq]

/-- C9: the terminal set of `substitute` (and hence of `union`, which is
built on it) consists exactly of the terminals occurring in the bodies of
the result's productions: the accumulated `terminals` union in the source
is discarded — the final constructor receives `None` terminals — so a
declared terminal occurring in no body is absent from the result. -/
theorem substitute_terms_exactly_body_terms (g : Cfg)
    (subst : List (String × Cfg)) (r : Cfg) (h : substitute g subst = some r) :
    ∀ t, t ∈ r.terms ↔ ∃ p ∈ r.prods, GObj.term t ∈ p.body := by
  unfold substitute at h
  cases hc : subsCore g subst with
  | none => rw [hc] at h; exact absurd h (by simp)
  | some x =>
    rw [hc] at h
    simp only [Option.map_some'] at h
    cases h
    intro t
    rw [make_terms_iff]
    simp only [List.not_mem_nil, false_or]
    exact Iff.rfl

/-- Witness for C9: concrete substitution of `exG` into `exG`'s terminal
`a`; the scaffold-level terminal `b` of the host occurs in a body of the
result, the substituted terminals likewise, and the test evaluates. -/
theorem substitute_terms_exactly_body_terms_witness :
    "b" ∈ ((substitute exG [("a", exG)]).getD Cfg.default0).terms ↔
      ∃ p ∈ ((substitute exG [("a", exG)]).getD Cfg.default0).prods,
        GObj.term "b" ∈ p.body :=
  substitute_terms_exactly_body_terms exG [("a", exG)]
    ((substitute exG [("a", exG)]).getD Cfg.default0) (by decide) "b"

/-- C6: `intersection` raises `NotImplementedError` exactly when the
operand is neither a regular expression nor a finite automaton; for regex
and automaton operands it never raises. -/
theorem intersection_raises_iff_other (g : Cfg) (op : IntersectOperand)
    (nfFuel : Nat) :
    isRaise (intersection g op nfFuel) = op.isOther := by
  cases op <;> rfl

/-- C10: intersecting with a finite automaton whose language is empty
returns the default-constructed grammar `CFG()`: no variables, no
terminals, no productions and no start symbol (in particular not the fresh
`Start` variable of the product construction), and that grammar contains no
word. -/
theorem intersection_empty_automaton (g : Cfg) (d : DfaModel) (nfFuel : Nat)
    (h : d.emptyLanguage = true) :
    intersection g (IntersectOperand.automatonOp true d d) nfFuel =
      Except.ok (some Cfg.default0) ∧
    Cfg.default0.vars = [] ∧ Cfg.default0.terms = [] ∧
    Cfg.default0.prods = [] ∧ Cfg.default0.start = none ∧
    (∀ w fuel, containsCfg Cfg.default0 w (fuel + 1) = some false) := by
  refine ⟨?_, rfl, rfl, rfl, rfl, ?_⟩
  · have hstep : intersection g (IntersectOperand.automatonOp true d d) nfFuel =
        Except.ok (intersectWithDfa g d nfFuel) := rfl
    have hd : intersectWithDfa g d nfFuel = some Cfg.default0 := by
      unfold intersectWithDfa
      rw [if_pos h]
      rfl
    rw [hstep, hd]
  · intro w fuel
    unfold containsCfg
    by_cases hw : w = []
    · rw [if_pos hw]
      rfl
    · rw [if_neg hw]
      have hnf : toNormalForm Cfg.default0 (fuel + 1) = some Cfg.default0 := by
        unfold toNormalForm
        rw [if_pos (by decide), if_pos (by decide)]
      rw [hnf]
      rfl

/-- Witness for C10 with the concrete empty DFA. -/
theorem intersection_empty_automaton_witness :
    intersection exG (IntersectOperand.automatonOp true emptyDfa emptyDfa) 3 =
      Except.ok (some Cfg.default0) ∧
    containsCfg Cfg.default0 ["a"] 1 = some false :=
  ⟨(intersection_empty_automaton exG emptyDfa 3 (by decide)).1,
   (intersection_empty_automaton exG emptyDfa 3 (by decide)).2.2.2.2.2 ["a"] 0⟩

/-- Fold invariance with a hypothesis on the folded elements. -/
theorem foldl_preserves_mem {α σ : Type} (f : σ → α → σ) (P : σ → Prop)
    (Q : α → Prop) :
    ∀ (l : List α), (∀ x ∈ l, Q x) → (∀ s x, Q x → P s → P (f s x)) →
      ∀ (s : σ), P s → P (l.foldl f s)
  | [], _, _, _, hs => hs
  | x :: l, hl, h, s, hs =>
    foldl_preserves_mem f P Q l (fun y hy => hl y (List.mem_cons_of_mem x hy)) h
      (f s x) (h s x (hl x (List.mem_cons_self x l)) hs)

theorem setInsert_subset {α : Type} [DecidableEq α] (l : List α) (a b : α)
    (h : a ∈ l) : a ∈ setInsert l b := by
  rw [mem_setInsert]
  exact Or.inl h

theorem setInsert_self {α : Type} [DecidableEq α] (l : List α) (a : α) :
    a ∈ setInsert l a := by
  rw [mem_setInsert]
  exact Or.inr rfl

/-- Heads of empty productions reach `_added_impacts`. -/
theorem mem_added_of_empty_body (ps : List Production) :
    ∀ (tb : ImpactTables) (p : Production), p ∈ ps → p.body = [] →
      p.head ∈ (ps.foldl (fun tb p =>
        if p.body = [] then
          { tb with added := setInsert tb.added p.head }
        else
          let temp := (alookup tb.remaining p.head).getD []
          let temp := temp ++ [(p.body.length : Int)]
          let indexImpact := temp.length - 1
          let rem := aset tb.remaining p.head temp
          let imp := p.body.foldl (fun imp s =>
            aset imp s ((alookup imp s).getD [] ++ [(p.head, indexImpact)])) tb.impacts
          { tb with remaining := rem, impacts := imp }) tb).added := by
  have mono : ∀ (l : List Production) (tb : ImpactTables) (h : String),
      h ∈ tb.added → h ∈ (l.foldl (fun tb p =>
        if p.body = [] then
          { tb with added := setInsert tb.added p.head }
        else
          let temp := (alookup tb.remaining p.head).getD []
          let temp := temp ++ [(p.body.length : Int)]
          let indexImpact := temp.length - 1
          let rem := aset tb.remaining p.head temp
          let imp := p.body.foldl (fun imp s =>
            aset imp s ((alookup imp s).getD [] ++ [(p.head, indexImpact)])) tb.impacts
          { tb with remaining := rem, impacts := imp }) tb).added := by
    intro l tb h hh
    refine foldl_preserves _ (fun tb : ImpactTables => h ∈ tb.added) ?_ l tb hh
    intro tb q hq
    by_cases hb : q.body = []
    · simp only [hb, if_true]
      exact setInsert_subset _ _ _ hq
    · simp only [hb, if_false]
      exact hq
  induction ps with
  | nil => intro _ p hp
           exact absurd hp (by simp)
  | cons q ps ih =>
    intro tb p hp hb
    rcases List.mem_cons.mp hp with rfl | hp'
    · rw [List.foldl_cons]
      simp only [hb, if_true]
      exact mono ps _ p.head (setInsert_self _ _)
    · rw [List.foldl_cons]
      exact ih _ p hp' hb

/-- The seeding pass puts every `_added_impacts` head in the working set. -/
theorem engSeed_gSyms_added (g : Cfg) (tb : ImpactTables)
    (remInit : List (String × List Int)) (nullable : Bool) (h : String)
    (hh : h ∈ tb.added) :
    (some (GObj.var h) : ESym) ∈ (engSeed g tb remInit nullable).gSyms := by
  unfold engSeed
  have step : ∀ (l : List String) (st : EngSt), h ∈ l ∨ (some (GObj.var h) : ESym) ∈ st.gSyms →
      (some (GObj.var h) : ESym) ∈ (l.foldl (fun st h =>
        if (some (GObj.var h) : ESym) ∈ st.gSyms then st
        else { st with gSyms := st.gSyms ++ [some (GObj.var h)],
                       stack := some (GObj.var h) :: st.stack }) st).gSyms := by
    intro l
    induction l with
    | nil => intro st hst
             rcases hst with h1 | h1
             · exact absurd h1 (by simp)
             · exact h1
    | cons x l ih =>
      intro st hst
      rw [List.foldl_cons]
      by_cases hx : (some (GObj.var x) : ESym) ∈ st.gSyms
      · simp only [hx, if_true]
        refine ih st ?_
        rcases hst with h1 | h1
        · rcases List.mem_cons.mp h1 with rfl | h2
          · exact Or.inr hx
          · exact Or.inl h2
        · exact Or.inr h1
      · simp only [hx, if_false]
        refine ih _ ?_
        rcases hst with h1 | h1
        · rcases List.mem_cons.mp h1 with rfl | h2
          · exact Or.inr (by simp)
          · exact Or.inl h2
        · exact Or.inr (by simp [h1])
  by_cases hn : nullable
  · simp only [hn, if_true]
    exact step tb.added _ (Or.inl hh)
  · simp only [hn, if_false]
    refine foldl_preserves _
      (fun st : EngSt => (some (GObj.var h) : ESym) ∈ st.gSyms) ?_ g.terms _
      (step tb.added _ (Or.inl hh))
    intro st t hst
    exact setInsert_subset _ _ _ hst

/-- The working set only grows during impact processing. -/
theorem procImpacts_gSyms_mono (entries : List (String × Nat)) (st : EngSt)
    (x : ESym) (hx : x ∈ st.gSyms) : x ∈ (procImpacts entries st).gSyms := by
  unfold procImpacts
  refine foldl_preserves _ (fun st : EngSt => x ∈ st.gSyms) ?_ entries st hx
  intro s hi hs
  unfold procImpactOne
  split
  · exact hs
  · dsimp only
    split
    · simp [hs]
    · simpa using hs

/-- The working set only grows during the engine loop. -/
theorem engLoop_gSyms_mono (imp : List (GObj × List (String × Nat)))
    (fuel : Nat) (st : EngSt) (x : ESym) (hx : x ∈ st.gSyms) :
    x ∈ (engLoop imp fuel st).gSyms := by
  induction fuel generalizing st with
  | zero => exact hx
  | succ fuel ih =>
    unfold engLoop
    cases hs : st.stack with
    | nil => exact hx
    | cons c rest => exact ih _ (procImpacts_gSyms_mono _ _ _ hx)

/-- An empty-bodied production makes its head nullable (engine
soundness for the seeds). -/
theorem nullable_of_empty_body (g : Cfg) (p : Production) (hp : p ∈ g.prods)
    (hb : p.body = []) : GObj.var p.head ∈ getNullableSymbols g := by
  unfold getNullableSymbols runEngine runEngineSt
  simp only []
  have h1 : p.head ∈ (setImpactsAndRemaining g.prods).added :=
    mem_added_of_empty_body g.prods ⟨[], [], []⟩ p hp hb
  have h2 := engSeed_gSyms_added g (setImpactsAndRemaining g.prods)
    (setImpactsAndRemaining g.prods).remaining true p.head h1
  have h3 := engLoop_gSyms_mono (setImpactsAndRemaining g.prods).impacts
    ((engSeed g (setImpactsAndRemaining g.prods)
        (setImpactsAndRemaining g.prods).remaining true).stack.length +
      (impactHeads (setImpactsAndRemaining g.prods).impacts).length + 1)
    (engSeed g (setImpactsAndRemaining g.prods)
      (setImpactsAndRemaining g.prods).remaining true)
    (some (GObj.var p.head)) h2
  exact List.mem_filterMap.mpr ⟨some (GObj.var p.head), h3, rfl⟩

/-- A grammar that passes the canonical-shape guard has no empty-bodied
production. -/
theorem no_empty_body_of_canonical (g : Cfg) (hc : isCanonical g = true)
    (p : Production) (hp : p ∈ g.prods) : p.body ≠ [] := by
  intro hb
  unfold isCanonical at hc
  simp only [decide_eq_true_eq, Bool.and_eq_true] at hc
  have h0 := hc.1
  have hmem := nullable_of_empty_body g p hp hb
  rw [List.length_eq_zero] at h0
  rw [h0] at hmem
  exact absurd hmem (by simp)

theorem mem_body_fold_vars (body : List GObj) :
    ∀ (vt : List String × List String) (v : String),
      v ∈ (body.foldl (fun vt s =>
        match s with
        | GObj.term u => (vt.1, setInsert vt.2 u)
        | GObj.var w => (setInsert vt.1 w, vt.2)) vt).1 ↔
      v ∈ vt.1 ∨ GObj.var v ∈ body := by
  induction body with
  | nil => simp
  | cons s body ih =>
    intro vt v
    rw [List.foldl_cons]
    cases s with
    | term u =>
      rw [ih]
      simp only [List.mem_cons]
      constructor
      · rintro (h | h)
        · exact Or.inl h
        · exact Or.inr (Or.inr h)
      · rintro (h | (h | h))
        · exact Or.inl h
        · exact absurd h (by simp)
        · exact Or.inr h
    | var w =>
      rw [ih, mem_setInsert]
      simp only [List.mem_cons]
      constructor
      · rintro ((h | rfl) | h)
        · exact Or.inl h
        · exact Or.inr (Or.inl rfl)
        · exact Or.inr (Or.inr h)
      · rintro (h | (h | h))
        · exact Or.inl (Or.inl h)
        · rw [GObj.var.injEq] at h
          exact Or.inl (Or.inr h)
        · exact Or.inr h

theorem mem_prods_fold_vars (ps : List Production) :
    ∀ (vt : List String × List String) (v : String),
      v ∈ (ps.foldl initProductionInCFG vt).1 ↔
      v ∈ vt.1 ∨ ∃ p ∈ ps, p.head = v ∨ GObj.var v ∈ p.body := by
  induction ps with
  | nil => simp
  | cons p ps ih =>
    intro vt v
    rw [List.foldl_cons, ih]
    unfold initProductionInCFG
    rw [mem_body_fold_vars]
    simp only [mem_setInsert, List.mem_cons]
    constructor
    · rintro (((h | rfl) | h) | ⟨q, hq, hb⟩)
      · exact Or.inl h
      · exact Or.inr ⟨p, Or.inl rfl, Or.inl rfl⟩
      · exact Or.inr ⟨p, Or.inl rfl, Or.inr h⟩
      · exact Or.inr ⟨q, Or.inr hq, hb⟩
    · rintro (h | ⟨q, (rfl | hq), (hh | hb)⟩)
      · exact Or.inl (Or.inl (Or.inl h))
      · exact Or.inl (Or.inl (Or.inr hh.symm))
      · exact Or.inl (Or.inr hb)
      · exact Or.inr ⟨q, hq, Or.inl hh⟩
      · exact Or.inr ⟨q, hq, Or.inr hb⟩

/-- The constructor's variable set is the given variables plus the start
symbol, closed under heads and body variables. -/
theorem make_vars_iff (vs ts : List String) (start : Option String)
    (ps : List Production) (v : String) :
    v ∈ (Cfg.make vs ts start ps).vars ↔
      (v ∈ vs ∨ start = some v) ∨ ∃ p ∈ ps, p.head = v ∨ GObj.var v ∈ p.body := by
  unfold Cfg.make
  cases start with
  | none =>
    rw [mem_prods_fold_vars, mem_uniq]
    simp
  | some s =>
    rw [mem_prods_fold_vars, mem_setInsert, mem_uniq]
    constructor
    · rintro (((h | rfl)) | h)
      · exact Or.inl (Or.inl h)
      · exact Or.inl (Or.inr rfl)
      · exact Or.inr h
    · rintro ((h | h) | h)
      · exact Or.inl (Or.inl h)
      · rw [Option.some.injEq] at h
        exact Or.inl (Or.inr h.symm)
      · exact Or.inr h

theorem setInsert_nodup {α : Type} [DecidableEq α] (l : List α) (a : α)
    (h : l.Nodup) : (setInsert l a).Nodup := by
  unfold setInsert
  by_cases hm : a ∈ l
  · simpa [hm]
  · simp [hm, List.nodup_append, h]

theorem uniq_nodup {α : Type} [DecidableEq α] (l : List α) : (uniq l).Nodup := by
  unfold uniq
  refine foldl_preserves setInsert List.Nodup ?_ l [] List.nodup_nil
  exact fun s x hs => setInsert_nodup s x hs

theorem make_nodup (vs ts : List String) (start : Option String)
    (ps : List Production) :
    (Cfg.make vs ts start ps).vars.Nodup ∧ (Cfg.make vs ts start ps).terms.Nodup := by
  unfold Cfg.make
  have base : (match start with
      | some s => setInsert (uniq vs) s
      | none => uniq vs).Nodup := by
    cases start with
    | none => exact uniq_nodup vs
    | some s => exact setInsert_nodup _ _ (uniq_nodup vs)
  have main : ∀ (l : List Production) (vt : List String × List String),
      vt.1.Nodup ∧ vt.2.Nodup →
      (l.foldl initProductionInCFG vt).1.Nodup ∧
      (l.foldl initProductionInCFG vt).2.Nodup := by
    intro l vt hvt
    refine foldl_preserves initProductionInCFG
      (fun vt : List String × List String => vt.1.Nodup ∧ vt.2.Nodup) ?_ l vt hvt
    intro s p hs
    unfold initProductionInCFG
    refine foldl_preserves _
      (fun vt : List String × List String => vt.1.Nodup ∧ vt.2.Nodup) ?_ p.body _
      ⟨setInsert_nodup _ _ hs.1, hs.2⟩
    intro s2 o hs2
    cases o with
    | term u => exact ⟨hs2.1, setInsert_nodup _ _ hs2.2⟩
    | var w => exact ⟨setInsert_nodup _ _ hs2.1, hs2.2⟩
  cases start with
  | none => exact main ps _ ⟨base, uniq_nodup ts⟩
  | some s => exact main ps _ ⟨base, uniq_nodup ts⟩

/-- Every constructed grammar is well-formed: `Cfg.__init__` closes the
symbol sets over the productions. -/
theorem make_WF (vs ts : List String) (start : Option String)
    (ps : List Production) : (Cfg.make vs ts start ps).WF := by
  refine ⟨?_, ?_, (make_nodup vs ts start ps).1, (make_nodup vs ts start ps).2⟩
  · intro p hp
    have hp' : p ∈ ps := hp
    constructor
    · exact (make_vars_iff vs ts start ps p.head).mpr
        (Or.inr ⟨p, hp', Or.inl rfl⟩)
    · intro s hs
      cases s with
      | var v =>
        exact (make_vars_iff vs ts start ps v).mpr (Or.inr ⟨p, hp', Or.inr hs⟩)
      | term t =>
        exact (make_terms_iff vs ts start ps t).mpr (Or.inr ⟨p, hp', hs⟩)
  · intro s hs
    have : (Cfg.make vs ts start ps).start = start := rfl
    rw [this] at hs
    exact (make_vars_iff vs ts start ps s).mpr (Or.inl (Or.inr hs))

theorem bodyRepl_len (g : Cfg) (body : List GObj) :
    ∀ (bu : List GObj × List String),
      (body.foldl (fun (bu : List GObj × List String) s =>
        match s with
        | GObj.term t =>
          if t ∈ g.terms then (bu.1 ++ [GObj.var (termToVarName t)], setInsert bu.2 t)
          else (bu.1 ++ [s], bu.2)
        | GObj.var _ => (bu.1 ++ [s], bu.2)) bu).1.length =
      bu.1.length + body.length := by
  induction body with
  | nil => simp
  | cons s body ih =>
    intro bu
    rw [List.foldl_cons]
    cases s with
    | term t =>
      by_cases ht : t ∈ g.terms
      · simp only [ht, if_true]
        rw [ih]
        simp
        omega
      · simp only [ht, if_false]
        rw [ih]
        simp
        omega
    | var w =>
      rw [ih]
      simp
      omega

theorem bodyRepl_vars (g : Cfg) (body : List GObj)
    (hterms : ∀ t, GObj.term t ∈ body → t ∈ g.terms) :
    ∀ (bu : List GObj × List String), (∀ s ∈ bu.1, ∃ v, s = GObj.var v) →
      ∀ s ∈ (body.foldl (fun (bu : List GObj × List String) s =>
        match s with
        | GObj.term t =>
          if t ∈ g.terms then (bu.1 ++ [GObj.var (termToVarName t)], setInsert bu.2 t)
          else (bu.1 ++ [s], bu.2)
        | GObj.var _ => (bu.1 ++ [s], bu.2)) bu).1, ∃ v, s = GObj.var v := by
  induction body with
  | nil => intro bu hbu
           exact hbu
  | cons s body ih =>
    intro bu hbu
    rw [List.foldl_cons]
    cases s with
    | term t =>
      have ht : t ∈ g.terms := hterms t (by simp)
      simp only [ht, if_true]
      refine ih (fun u hu => hterms u (by simp [hu])) _ ?_
      intro x hx
      rcases List.mem_append.mp hx with h | h
      · exact hbu x h
      · simp only [List.mem_singleton] at h
        exact ⟨termToVarName t, h⟩
    | var w =>
      refine ih (fun u hu => hterms u (by simp [hu])) _ ?_
      intro x hx
      rcases List.mem_append.mp hx with h | h
      · exact hbu x h
      · simp only [List.mem_singleton] at h
        exact ⟨w, h⟩

/-- Shape of `_get_productions_with_only_single_terminals` output, given no
empty bodies and body terminals drawn from the grammar's terminal set. -/
theorem singleTerminals_shape (g : Cfg)
    (hne : ∀ p ∈ g.prods, p.body ≠ [])
    (hterms : ∀ p ∈ g.prods, ∀ t, GObj.term t ∈ p.body → t ∈ g.terms) :
    ∀ q ∈ getProductionsWithOnlySingleTerminals g, prodMidShape q := by
  unfold getProductionsWithOnlySingleTerminals
  intro q hq
  rcases List.mem_append.mp hq with hq | hq
  · -- from the main fold
    revert hq
    have main : ∀ (acc : List Production × List String),
        (∀ r ∈ acc.1, prodMidShape r) →
        ∀ r ∈ (g.prods.foldl (fun (acc : List Production × List String) p =>
          if p.body.length = 1 then (acc.1 ++ [p], acc.2)
          else
            let folded := p.body.foldl (fun (bu : List GObj × List String) s =>
              match s with
              | GObj.term t =>
                if t ∈ g.terms then
                  (bu.1 ++ [GObj.var (termToVarName t)], setInsert bu.2 t)
                else (bu.1 ++ [s], bu.2)
              | GObj.var _ => (bu.1 ++ [s], bu.2)) ([], acc.2)
            (acc.1 ++ [Production.mk p.head folded.1], folded.2)) acc).1,
          prodMidShape r := by
      intro acc hacc
      refine foldl_preserves_mem _
        (fun acc : List Production × List String => ∀ r ∈ acc.1, prodMidShape r)
        (fun p => p ∈ g.prods) g.prods (fun x hx => hx) ?_ acc hacc
      intro s p hp hs
      by_cases h1 : p.body.length = 1
      · simp only [h1, if_true]
        intro r hr
        rcases List.mem_append.mp hr with h | h
        · exact hs r h
        · simp only [List.mem_singleton] at h
          subst h
          exact Or.inl h1
      · simp only [h1, if_false]
        intro r hr
        rcases List.mem_append.mp hr with h | h
        · exact hs r h
        · simp only [List.mem_singleton] at h
          subst h
          refine Or.inr ⟨?_, ?_⟩
          · simp only []
            rw [bodyRepl_len g p.body ([], s.2)]
            have h0 : p.body ≠ [] := hne p hp
            have : p.body.length ≠ 0 := by
              intro hc
              exact h0 (List.length_eq_zero.mp hc)
            simp only [List.length_nil, Nat.zero_add]
            omega
          · simp only []
            exact bodyRepl_vars g p.body (hterms p hp) ([], s.2) (by simp)
    exact fun hq => main ([], []) (by simp) q hq
  · -- the added `t#CNF# -> t` productions
    rcases List.mem_map.mp hq with ⟨t, _, rfl⟩
    exact Or.inl rfl

theorem getD_var_of_all_var (body : List GObj)
    (hb : ∀ s ∈ body, ∃ v, s = GObj.var v) (k : Nat) (d : String) :
    ∃ v, body.getD k (GObj.var d) = GObj.var v := by
  rw [List.getD_eq_getElem?_getD]
  cases hk : body[k]? with
  | none => exact ⟨d, rfl⟩
  | some s =>
    rcases hb s (List.getElem?_mem hk) with ⟨v, rfl⟩
    exact ⟨v, rfl⟩

/-- Every production appended by the binarisation walk has a two-variable
body, provided the input body consists of variables. -/
theorem decompWalk_shape (body : List GObj) (newVar : List String)
    (hb : ∀ s ∈ body, ∃ v, s = GObj.var v) :
    ∀ (i : Nat) (head : String) (st : DecompSt),
      (∀ r ∈ st.out, prodOutShape r) →
      ∀ r ∈ (decompWalk body newVar i head st).out, prodOutShape r
  | i, head, st => by
    intro hst r hr
    rw [decompWalk] at hr
    by_cases hi : body.length - 2 ≤ i
    · rw [if_pos hi] at hr
      simp only [] at hr
      rcases List.mem_append.mp hr with h | h
      · exact hst r h
      · simp only [List.mem_singleton] at h
        subst h
        rcases getD_var_of_all_var body hb (body.length - 2) "" with ⟨v, hv⟩
        rcases getD_var_of_all_var body hb (body.length - 1) "" with ⟨w, hw⟩
        exact Or.inr ⟨v, w, by rw [show (Production.mk head
          [body.getD (body.length - 2) (GObj.var ""),
           body.getD (body.length - 1) (GObj.var "")]).body =
          [body.getD (body.length - 2) (GObj.var ""),
           body.getD (body.length - 1) (GObj.var "")] from rfl, hv, hw]⟩
    · rw [if_neg hi] at hr
      simp only [] at hr
      cases hdone : alookup st.done (body.drop (i + 1)) with
      | some v =>
        rw [hdone] at hr
        simp only [] at hr
        rcases List.mem_append.mp hr with h | h
        · exact hst r h
        · simp only [List.mem_singleton] at h
          subst h
          rcases getD_var_of_all_var body hb i "" with ⟨x, hx⟩
          exact Or.inr ⟨x, v, by rw [show (Production.mk head
            [body.getD i (GObj.var ""), GObj.var v]).body =
            [body.getD i (GObj.var ""), GObj.var v] from rfl, hx]⟩
      | none =>
        rw [hdone] at hr
        have := decompWalk_shape body newVar hb (i + 1) (newVar.getD i "")
          { st with
            out := st.out ++ [Production.mk head
              [body.getD i (GObj.var ""), GObj.var (newVar.getD i "")]],
            done := st.done ++ [(body.drop (i + 1), newVar.getD i "")] } ?_ r hr
        · exact this
        · intro q hq
          rcases List.mem_append.mp hq with h | h
          · exact hst q h
          · simp only [List.mem_singleton] at h
            subst h
            rcases getD_var_of_all_var body hb i "" with ⟨x, hx⟩
            exact Or.inr ⟨x, newVar.getD i "", by rw [show (Production.mk head
              [body.getD i (GObj.var ""), GObj.var (newVar.getD i "")]).body =
              [body.getD i (GObj.var ""), GObj.var (newVar.getD i "")] from rfl, hx]⟩
  termination_by i _ _ => body.length - i
  decreasing_by
    simp only [not_le] at hi
    omega

/-- Shape of `_decompose_productions`: single-symbol bodies pass through,
everything else becomes two-variable bodies. -/
theorem decomposeProductions_shape (vars : List String) (ps : List Production)
    (hmid : ∀ q ∈ ps, prodMidShape q) :
    ∀ r ∈ decomposeProductions vars ps, prodOutShape r := by
  unfold decomposeProductions
  have main : ∀ (st : DecompSt), (∀ r ∈ st.out, prodOutShape r) →
      ∀ r ∈ (ps.foldl (fun (st : DecompSt) p =>
        if p.body.length ≤ 2 then { st with out := st.out ++ [p] }
        else
          let gen := (List.range (p.body.length - 2)).foldl
            (fun (iv : Nat × List String) _ =>
              let r := getNextFreeVariable vars "C#CNF#" (vars.length + 1) iv.1
              (r.1, iv.2 ++ [r.2])) (st.idx, [])
          decompWalk p.body gen.2 0 p.head { st with idx := gen.1 }) st).out,
      prodOutShape r := by
    intro st hst
    refine foldl_preserves_mem _ (fun st : DecompSt => ∀ r ∈ st.out, prodOutShape r)
      (fun q => prodMidShape q) ps hmid ?_ st hst
    intro s p hp hs
    by_cases h2 : p.body.length ≤ 2
    · simp only [h2, if_true]
      intro r hr
      rcases List.mem_append.mp hr with h | h
      · exact hs r h
      · simp only [List.mem_singleton] at h
        subst h
        rcases hp with h1 | ⟨hge, hvars⟩
        · rcases List.length_eq_one.mp h1 with ⟨x, hx⟩
          exact Or.inl ⟨x, hx⟩
        · have hlen : r.body.length = 2 := by omega
          rcases List.length_eq_two.mp hlen with ⟨a, b, hab⟩
          rcases hvars a (by simp [hab]) with ⟨v, rfl⟩
          rcases hvars b (by simp [hab]) with ⟨w, rfl⟩
          exact Or.inr ⟨v, w, hab⟩
    · simp only [h2, if_false]
      have hvars : ∀ s ∈ p.body, ∃ v, s = GObj.var v := by
        rcases hp with h1 | ⟨_, hvars⟩
        · omega
        · exact hvars
      exact decompWalk_shape p.body _ hvars 0 p.head _ hs
  exact main ⟨0, [], []⟩ (by simp)

theorem removeUseless_WF (g : Cfg) : (removeUselessSymbols g).WF := by
  unfold removeUselessSymbols
  exact make_WF _ _ _ _

theorem normalFormPass_WF (g : Cfg) : (normalFormPass g).WF := by
  unfold normalFormPass
  exact removeUseless_WF _

/-- C2 (amended): every production of `to_normal_form` has a body that is
two variables, one terminal, one *variable* (a reflexive unit production
survives the guard), or — only for the start symbol — empty (this last
case in fact never arises). -/
theorem toNormalForm_production_shape (fuel : Nat) :
    ∀ (g g' : Cfg), g.WF → toNormalForm g fuel = some g' →
      ∀ p ∈ g'.prods, cnfShapeAmended g'.start p := by
  induction fuel with
  | zero =>
    intro g g' _ h
    exact absurd h (by simp [toNormalForm])
  | succ fuel ih =>
    intro g g' hwf h
    unfold toNormalForm at h
    by_cases hcan : isCanonical g = true
    · rw [if_neg (by simp [hcan])] at h
      cases h
      intro p hp
      rw [show (normalFormFinal g).prods =
        uniq (decomposeProductions g.vars
          (getProductionsWithOnlySingleTerminals g)) from rfl] at hp
      have hne := no_empty_body_of_canonical g hcan
      have hterms : ∀ p ∈ g.prods, ∀ t, GObj.term t ∈ p.body → t ∈ g.terms := by
        intro q hq t ht
        exact (hwf.1 q hq).2 (GObj.term t) ht
      have hout := decomposeProductions_shape g.vars
        (getProductionsWithOnlySingleTerminals g)
        (singleTerminals_shape g hne hterms) p ((mem_uniq _ _).mp hp)
      rcases hout with ⟨x, hx⟩ | ⟨v, w, hvw⟩
      · cases x with
        | var v => exact Or.inr (Or.inr (Or.inl ⟨v, hx⟩))
        | term t => exact Or.inr (Or.inl ⟨t, hx⟩)
      · exact Or.inl ⟨v, w, hvw⟩
    · rw [if_pos (by simpa using hcan)] at h
      by_cases hlen : g.prods.length = 0
      · rw [if_pos hlen] at h
        cases h
        intro p hp
        rw [List.length_eq_zero] at hlen
        rw [hlen] at hp
        exact absurd hp (by simp)
      · rw [if_neg hlen] at h
        exact ih (normalFormPass g) g' (normalFormPass_WF g) h

/-- C2 counterexample: on `S -> A A; A -> A; A -> a` the four size guards
all pass (the unit-pair set is exactly the identity pairs even though the
grammar contains `A -> A`), so `to_normal_form` keeps the single-variable
body `A -> A`, which is neither two variables, nor one terminal, nor an
empty start body. -/
theorem toNormalForm_shape_cex :
    toNormalForm cex2 3 = some cex2 ∧
    Production.mk "A" [GObj.var "A"] ∈ cex2.prods ∧
    ¬ cnfShapeStrict cex2.start (Production.mk "A" [GObj.var "A"]) := by
  refine ⟨by decide, by decide, ?_⟩
  rintro (⟨v, w, hvw⟩ | ⟨t, ht⟩ | ⟨hnil, _⟩)
  · simp at hvw
  · simp at ht
  · simp at hnil

/-- Witness for the amended C2 theorem: the well-formed grammar `cex2`
normalises within fuel 3, and its production `A -> A` has the amended
shape. -/
theorem toNormalForm_production_shape_witness :
    cnfShapeAmended ((toNormalForm cex2 3).getD Cfg.default0).start
      (Production.mk "A" [GObj.var "A"]) :=
  toNormalForm_production_shape 3 cex2
    ((toNormalForm cex2 3).getD Cfg.default0) (by decide) (by decide)
    (Production.mk "A" [GObj.var "A"]) (by decide)

/-! ## Generic worklist-closure lemmas (for `get_reachable_symbols` and
`get_unit_pairs`) -/

section Worklist

variable {α : Type} [DecidableEq α]

theorem wlStep_visited_mono (univ succs : List α) (vs : List α × List α)
    (x : α) (hx : x ∈ vs.1) : x ∈ (wlStep univ succs vs).1 := by
  unfold wlStep
  refine foldl_preserves _ (fun vs : List α × List α => x ∈ vs.1) ?_ succs vs hx
  intro s y hs
  by_cases h1 : y ∈ s.1
  · simp [h1, hs]
  · by_cases h2 : y ∈ univ <;> simp [h1, h2, hs]

theorem wlLoop_visited_mono (univ : List α) (step : α → List α) (fuel : Nat)
    (vs : List α × List α) (x : α) (hx : x ∈ vs.1) :
    x ∈ wlLoop univ step fuel vs := by
  induction fuel generalizing vs with
  | zero => exact hx
  | succ fuel ih =>
    unfold wlLoop
    cases hs : vs.2 with
    | nil => exact hx
    | cons c rest => exact ih _ (wlStep_visited_mono _ _ _ _ hx)

/-- Initial elements end up in the closure. -/
theorem wlClosure_init (univ : List α) (step : α → List α) (init : List α)
    (x : α) (hx : x ∈ init) : x ∈ wlClosure univ step init := by
  unfold wlClosure
  exact wlLoop_visited_mono _ _ _ _ _ ((mem_uniq init x).mpr hx)

theorem wlStep_visited_new_mem (univ succs : List α) (vs : List α × List α)
    (y : α) (hy : y ∈ succs) (hu : y ∈ univ) : y ∈ (wlStep univ succs vs).1 := by
  unfold wlStep
  induction succs generalizing vs with
  | nil => exact absurd hy (by simp)
  | cons x succs ih =>
    rw [List.foldl_cons]
    rcases List.mem_cons.mp hy with rfl | hy'
    · by_cases h1 : y ∈ vs.1
      · exact wlStep_visited_mono _ _ _ _ (by simp [h1])
      · simp only [h1, if_false, hu, if_true]
        exact wlStep_visited_mono _ _ _ _ (by simp)
    · exact ih _ hy'

theorem wlStep_visited_bound (univ succs : List α) (vs : List α × List α)
    (y : α) (hy : y ∈ (wlStep univ succs vs).1) :
    y ∈ vs.1 ∨ y ∈ univ := by
  unfold wlStep at hy
  induction succs generalizing vs with
  | nil => exact Or.inl hy
  | cons x succs ih =>
    rw [List.foldl_cons] at hy
    rcases ih _ hy with h | h
    · by_cases h1 : x ∈ vs.1
      · simp only [h1, if_true] at h
        exact Or.inl h
      · by_cases h2 : x ∈ univ
        · simp only [h1, if_false, h2, if_true] at h
          rcases List.mem_append.mp h with h3 | h3
          · exact Or.inl h3
          · simp only [List.mem_singleton] at h3
            subst h3
            exact Or.inr h2
        · simp only [h1, if_false, h2, if_false] at h
          exact Or.inl h
    · exact Or.inr h

theorem wlStep_stack_mono (univ succs : List α) (vs : List α × List α)
    (y : α) (hy : y ∈ vs.2) : y ∈ (wlStep univ succs vs).2 := by
  unfold wlStep
  refine foldl_preserves _ (fun vs : List α × List α => y ∈ vs.2) ?_ succs vs hy
  intro s x hs
  by_cases h1 : x ∈ s.1
  · simp [h1, hs]
  · by_cases h2 : x ∈ univ <;> simp [h1, h2, hs]

theorem wlStep_stack_in_visited (univ succs : List α) (vs : List α × List α)
    (hsv : ∀ x ∈ vs.2, x ∈ vs.1) :
    ∀ x ∈ (wlStep univ succs vs).2, x ∈ (wlStep univ succs vs).1 := by
  unfold wlStep
  have := foldl_preserves
    (fun (vs : List α × List α) x =>
      if x ∈ vs.1 then vs
      else if x ∈ univ then (vs.1 ++ [x], x :: vs.2) else vs)
    (fun vs : List α × List α => ∀ x ∈ vs.2, x ∈ vs.1) ?_ succs vs hsv
  · exact this
  · intro s x hs
    by_cases h1 : x ∈ s.1
    · simpa [h1] using hs
    · by_cases h2 : x ∈ univ
      · simp only [h1, if_false, h2, if_true]
        intro z hz
        rcases List.mem_cons.mp hz with rfl | hz'
        · simp
        · simp [hs z hz']
      · simpa [h1, h2] using hs

theorem wlStep_new_in_stack (univ succs : List α) (vs : List α × List α)
    (y : α) (hy : y ∈ (wlStep univ succs vs).1) (hnot : y ∉ vs.1) :
    y ∈ (wlStep univ succs vs).2 := by
  unfold wlStep at hy ⊢
  induction succs generalizing vs with
  | nil => exact absurd hy hnot
  | cons x succs ih =>
    rw [List.foldl_cons] at hy ⊢
    by_cases h1 : x ∈ vs.1
    · simp only [h1, if_true] at hy ⊢
      exact ih _ hy hnot
    · by_cases h2 : x ∈ univ
      · simp only [h1, if_false, h2, if_true] at hy ⊢
        by_cases hxy : y ∈ vs.1 ++ [x]
        · refine wlStep_stack_mono univ succs _ y ?_
          rcases List.mem_append.mp hxy with h3 | h3
          · exact absurd h3 hnot
          · simp only [List.mem_singleton] at h3
            subst h3
            simp
        · exact ih _ hy hxy
      · simp only [h1, if_false, h2, if_false] at hy ⊢
        exact ih _ hy hnot

theorem wlStep_nodup (univ succs : List α) (vs : List α × List α)
    (h : vs.1.Nodup) : (wlStep univ succs vs).1.Nodup := by
  unfold wlStep
  refine foldl_preserves _ (fun vs : List α × List α => vs.1.Nodup) ?_ succs vs h
  intro s x hs
  by_cases h1 : x ∈ s.1
  · simpa [h1] using hs
  · by_cases h2 : x ∈ univ
    · simp only [h1, if_false, h2, if_true]
      simp [List.nodup_append, hs, h1]
    · simpa [h1, h2] using hs

theorem filter_length_drop_one (univ v : List α) (y : α) (hyu : y ∈ univ)
    (hyv : y ∉ v) :
    (univ.filter (fun z => z ∉ v ++ [y])).length + 1 ≤
    (univ.filter (fun z => z ∉ v)).length := by
  have h1 := List.length_eq_length_filter_add (l := univ.filter (fun z => z ∉ v))
    (fun z => z = y)
  have h2 : univ.filter (fun z => z ∉ v ++ [y]) =
      (univ.filter (fun z => z ∉ v)).filter (fun z => ¬ z = y) := by
    rw [List.filter_filter]
    refine List.filter_congr ?_
    intro z _
    by_cases hz1 : z = y <;> by_cases hz2 : z ∈ v <;>
      simp [hz1, hz2, List.mem_append]
  have h3 : 1 ≤ ((univ.filter (fun z => z ∉ v)).filter (fun z => z = y)).length := by
    have hy : y ∈ (univ.filter (fun z => z ∉ v)).filter (fun z => z = y) := by
      rw [List.mem_filter, List.mem_filter]
      exact ⟨⟨hyu, by simpa using hyv⟩, by simp⟩
    exact List.length_pos.mpr (List.ne_nil_of_mem hy)
  have h4 : ((univ.filter (fun z => z ∉ v)).filter (fun z => ¬ z = y)).length =
      ((univ.filter (fun z => z ∉ v)).filter (fun x => ! decide (x = y))).length := by
    congr 1
    refine List.filter_congr ?_
    intro z _
    by_cases hz : z = y <;> simp [hz]
  rw [h2, h4]
  omega

theorem wlStep_visited_src (univ succs : List α) (vs : List α × List α)
    (y : α) (hy : y ∈ (wlStep univ succs vs).1) :
    y ∈ vs.1 ∨ (y ∈ succs ∧ y ∈ univ) := by
  unfold wlStep at hy
  induction succs generalizing vs with
  | nil => exact Or.inl hy
  | cons x succs ih =>
    rw [List.foldl_cons] at hy
    rcases ih _ hy with h | h
    · by_cases h1 : x ∈ vs.1
      · simp only [h1, if_true] at h
        exact Or.inl h
      · by_cases h2 : x ∈ univ
        · simp only [h1, if_false, h2, if_true] at h
          rcases List.mem_append.mp h with h3 | h3
          · exact Or.inl h3
          · simp only [List.mem_singleton] at h3
            subst h3
            exact Or.inr ⟨by simp, h2⟩
        · simp only [h1, if_false, h2, if_false] at h
          exact Or.inl h
    · exact Or.inr ⟨List.mem_cons_of_mem x h.1, h.2⟩

theorem wlStep_phi (univ : List α) (succs : List α) (vs : List α × List α) :
    (wlStep univ succs vs).2.length +
      (univ.filter (fun z => z ∉ (wlStep univ succs vs).1)).length ≤
    vs.2.length + (univ.filter (fun z => z ∉ vs.1)).length := by
  unfold wlStep
  induction succs generalizing vs with
  | nil => exact le_refl _
  | cons x succs ih =>
    rw [List.foldl_cons]
    by_cases h1 : x ∈ vs.1
    · simp only [h1, if_true]
      exact ih vs
    · by_cases h2 : x ∈ univ
      · simp only [h1, if_false, h2, if_true]
        refine le_trans (ih _) ?_
        simp only [List.length_cons]
        have := filter_length_drop_one univ vs.1 x h2 h1
        omega
      · simp only [h1, if_false, h2, if_false]
        exact ih vs

/-- With sufficient fuel (one more than the stack size plus the unvisited
part of the universe) the worklist reaches the empty stack and its result
is closed under in-universe successors. -/
theorem wlLoop_closed (univ : List α) (step : α → List α) :
    ∀ (fuel : Nat) (vs : List α × List α),
      vs.2.length + (univ.filter (fun z => z ∉ vs.1)).length < fuel →
      (∀ x ∈ vs.2, x ∈ vs.1) →
      (∀ x ∈ vs.1, x ∈ vs.2 ∨ ∀ y ∈ step x, y ∈ univ → y ∈ vs.1) →
      ∀ x ∈ wlLoop univ step fuel vs, ∀ y ∈ step x, y ∈ univ →
        y ∈ wlLoop univ step fuel vs := by
  intro fuel
  induction fuel with
  | zero => intro vs hphi
            omega
  | succ fuel ih =>
    intro vs hphi hsv hcl
    unfold wlLoop
    cases hs : vs.2 with
    | nil =>
      intro x hx y hy hu
      rcases hcl x hx with h | h
      · rw [hs] at h
        exact absurd h (by simp)
      · exact h y hy hu
    | cons c rest =>
      have hc1 : c ∈ vs.1 := hsv c (by rw [hs]; simp)
      refine ih (wlStep univ (step c) (vs.1, rest)) ?_ ?_ ?_
      · have h1 := wlStep_phi univ (step c) (vs.1, rest)
        have h2 : rest.length + 1 = vs.2.length := by rw [hs]; simp
        simp only [] at h1
        omega
      · exact wlStep_stack_in_visited univ (step c) (vs.1, rest)
          (fun x hx => hsv x (by rw [hs]; simp [hx]))
      · intro x hx
        by_cases hxv : x ∈ vs.1
        · rcases hcl x hxv with h | h
          · rw [hs] at h
            rcases List.mem_cons.mp h with rfl | h2
            · exact Or.inr (fun y hy hu =>
                wlStep_visited_new_mem univ (step x) (vs.1, rest) y hy hu)
            · exact Or.inl (wlStep_stack_mono univ (step c) (vs.1, rest) x h2)
          · exact Or.inr (fun y hy hu =>
              wlStep_visited_mono univ (step c) (vs.1, rest) y (h y hy hu))
        · exact Or.inl (wlStep_new_in_stack univ (step c) (vs.1, rest) x hx hxv)

/-- The closure is closed under in-universe successors. -/
theorem wlClosure_closed (univ : List α) (step : α → List α) (init : List α)
    (x : α) (hx : x ∈ wlClosure univ step init) (y : α) (hy : y ∈ step x)
    (hu : y ∈ univ) : y ∈ wlClosure univ step init := by
  unfold wlClosure at hx ⊢
  refine wlLoop_closed univ step _ _ ?_ ?_ ?_ x hx y hy hu
  · dsimp only
    have h1 : (uniq init).reverse.length = (uniq init).length := by simp
    have h2 : (univ.filter (fun z => z ∉ uniq init)).length ≤ univ.length :=
      List.length_filter_le _ _
    omega
  · intro z hz
    simpa using List.mem_reverse.mp hz
  · intro z hz
    exact Or.inl (List.mem_reverse.mpr hz)

theorem wlLoop_nodup (univ : List α) (step : α → List α) (fuel : Nat)
    (vs : List α × List α) (h : vs.1.Nodup) : (wlLoop univ step fuel vs).Nodup := by
  induction fuel generalizing vs with
  | zero => exact h
  | succ fuel ih =>
    unfold wlLoop
    cases hs : vs.2 with
    | nil => exact h
    | cons c rest => exact ih _ (wlStep_nodup _ _ _ h)

theorem wlClosure_nodup (univ : List α) (step : α → List α) (init : List α) :
    (wlClosure univ step init).Nodup :=
  wlLoop_nodup univ step _ _ (uniq_nodup init)

theorem wlLoop_bound (univ : List α) (step : α → List α) (fuel : Nat)
    (vs : List α × List α) (P : α → Prop) (h : ∀ x ∈ vs.1, P x)
    (hstep : ∀ y ∈ univ, P y) :
    ∀ x ∈ wlLoop univ step fuel vs, P x := by
  induction fuel generalizing vs with
  | zero => exact h
  | succ fuel ih =>
    unfold wlLoop
    cases hs : vs.2 with
    | nil => exact h
    | cons c rest =>
      refine ih _ ?_
      intro x hx
      rcases wlStep_visited_src univ (step c) (vs.1, rest) x hx with h1 | h1
      · exact h x h1
      · exact hstep x h1.2

/-- Elements of the closure come from the initial set or the universe. -/
theorem wlClosure_bound (univ : List α) (step : α → List α) (init : List α) :
    ∀ x ∈ wlClosure univ step init, x ∈ init ∨ x ∈ univ := by
  unfold wlClosure
  refine wlLoop_bound univ step _ _ _ ?_ ?_
  · intro x hx
    exact Or.inl ((mem_uniq init x).mp hx)
  · intro y hy
    exact Or.inr hy

/-- The closure is the least set containing the initial elements and closed
under in-universe successors. -/
theorem wlClosure_minimal (univ : List α) (step : α → List α) (init : List α)
    (S : α → Prop) (hinit : ∀ x ∈ init, S x)
    (hclosed : ∀ x, S x → ∀ y ∈ step x, y ∈ univ → S y) :
    ∀ x ∈ wlClosure univ step init, S x := by
  unfold wlClosure
  have main : ∀ (fuel : Nat) (vs : List α × List α), (∀ x ∈ vs.1, S x) →
      (∀ x ∈ vs.2, x ∈ vs.1) → ∀ x ∈ wlLoop univ step fuel vs, S x := by
    intro fuel
    induction fuel with
    | zero => intro vs h _
              exact h
    | succ fuel ih =>
      intro vs h hsv
      unfold wlLoop
      cases hs : vs.2 with
      | nil => exact h
      | cons c rest =>
        refine ih _ ?_ ?_
        · intro x hx
          rcases wlStep_visited_src univ (step c) (vs.1, rest) x hx with h1 | h1
          · exact h x h1
          · exact hclosed c (h c (hsv c (by rw [hs]; simp))) x h1.1 h1.2
        · exact wlStep_stack_in_visited univ (step c) (vs.1, rest)
            (fun x hx => hsv x (by rw [hs]; simp [hx]))
  refine main _ _ ?_ ?_
  · intro x hx
    exact hinit x ((mem_uniq init x).mp hx)
  · intro x hx
    exact List.mem_reverse.mp hx

end Worklist

/-! ## Characterisations of the derived dictionaries -/

theorem getProductionsD_lookup (l : List Production) :
    ∀ (d0 : List (String × List Production)) (h : String),
      (alookup (l.foldl (fun d p =>
        aset d p.head ((alookup d p.head).getD [] ++ [p])) d0) h).getD [] =
      (alookup d0 h).getD [] ++ l.filter (fun p => p.head = h) := by
  induction l with
  | nil => simp
  | cons p l ih =>
    intro d0 h
    rw [List.foldl_cons, ih]
    by_cases hh : p.head = h
    · subst hh
      rw [alookup_aset_self]
      simp
    · rw [alookup_aset_ne d0 _ (Ne.symm hh)]
      simp [hh]

theorem mem_getProductionsD (l : List Production) (h : String) (p : Production) :
    p ∈ (alookup (getProductionsD l) h).getD [] ↔ p ∈ l ∧ p.head = h := by
  unfold getProductionsD
  rw [getProductionsD_lookup l [] h]
  simp only [alookup, Option.getD_none, List.nil_append]
  rw [List.mem_filter]
  simp

theorem reachableTransitionD_lookup (l : List Production) :
    ∀ (d0 : List (String × List GObj)) (h : String),
      (alookup (l.foldl (fun d p =>
        aset d p.head ((alookup d p.head).getD [] ++ p.body)) d0) h).getD [] =
      (alookup d0 h).getD [] ++ (l.filter (fun p => p.head = h)).flatMap Production.body := by
  induction l with
  | nil => simp
  | cons p l ih =>
    intro d0 h
    rw [List.foldl_cons, ih]
    by_cases hh : p.head = h
    · subst hh
      rw [alookup_aset_self]
      simp
    · rw [alookup_aset_ne d0 _ (Ne.symm hh)]
      simp [hh]

theorem mem_reachableTransitionD (ps : List Production) (h : String) (y : GObj) :
    y ∈ (alookup (reachableTransitionD ps) h).getD [] ↔
      ∃ p ∈ ps, p.head = h ∧ y ∈ p.body := by
  unfold reachableTransitionD
  rw [reachableTransitionD_lookup ps [] h]
  simp only [alookup, Option.getD_none, List.nil_append]
  rw [List.mem_flatMap]
  constructor
  · rintro ⟨p, hp, hy⟩
    rw [List.mem_filter] at hp
    exact ⟨p, hp.1, by simpa using hp.2, hy⟩
  · rintro ⟨p, hp, hh, hy⟩
    exact ⟨p, List.mem_filter.mpr ⟨hp, by simpa using hh⟩, hy⟩

theorem mem_added_iff (ps : List Production) :
    ∀ (tb : ImpactTables) (h : String),
      h ∈ (ps.foldl (fun tb p =>
        if p.body = [] then
          { tb with added := setInsert tb.added p.head }
        else
          let temp := (alookup tb.remaining p.head).getD []
          let temp := temp ++ [(p.body.length : Int)]
          let indexImpact := temp.length - 1
          let rem := aset tb.remaining p.head temp
          let imp := p.body.foldl (fun imp s =>
            aset imp s ((alookup imp s).getD [] ++ [(p.head, indexImpact)])) tb.impacts
          { tb with remaining := rem, impacts := imp }) tb).added ↔
      h ∈ tb.added ∨ ∃ p ∈ ps, p.head = h ∧ p.body = [] := by
  induction ps with
  | nil => simp
  | cons p ps ih =>
    intro tb h
    rw [List.foldl_cons]
    by_cases hb : p.body = []
    · simp only [hb, if_true]
      rw [ih]
      simp only [mem_setInsert, List.mem_cons]
      constructor
      · rintro ((h1 | rfl) | ⟨q, hq, hh, hqb⟩)
        · exact Or.inl h1
        · exact Or.inr ⟨p, Or.inl rfl, rfl, hb⟩
        · exact Or.inr ⟨q, Or.inr hq, hh, hqb⟩
      · rintro (h1 | ⟨q, (rfl | hq), hh, hqb⟩)
        · exact Or.inl (Or.inl h1)
        · exact Or.inl (Or.inr hh.symm)
        · exact Or.inr ⟨q, hq, hh, hqb⟩
    · simp only [hb, if_false]
      rw [ih]
      simp only [List.mem_cons]
      constructor
      · rintro (h1 | ⟨q, hq, hh, hqb⟩)
        · exact Or.inl h1
        · exact Or.inr ⟨q, Or.inr hq, hh, hqb⟩
      · rintro (h1 | ⟨q, (rfl | hq), hh, hqb⟩)
        · exact Or.inl h1
        · exact absurd hqb hb
        · exact Or.inr ⟨q, hq, hh, hqb⟩

theorem added_spec (ps : List Production) (h : String) :
    h ∈ (setImpactsAndRemaining ps).added ↔
      ∃ p ∈ ps, p.head = h ∧ p.body = [] := by
  unfold setImpactsAndRemaining
  rw [mem_added_iff ps ⟨[], [], []⟩ h]
  simp

/-! ## Unit pairs of a canonical grammar -/

theorem mem_unitPairs_univ (g : Cfg) (targets : List String) (a b : String) :
    (a, b) ∈ (g.vars.map (fun a =>
      (uniq (g.vars ++ targets)).map (fun b => (a, b)))).flatten ↔
    a ∈ g.vars ∧ b ∈ uniq (g.vars ++ targets) := by
  rw [List.mem_flatten]
  constructor
  · rintro ⟨l, hl, hab⟩
    rcases List.mem_map.mp hl with ⟨a', ha', rfl⟩
    rcases List.mem_map.mp hab with ⟨b', hb', heq⟩
    cases heq
    exact ⟨ha', hb'⟩
  · rintro ⟨ha, hb⟩
    exact ⟨(uniq (g.vars ++ targets)).map (fun b => (a, b)),
      List.mem_map.mpr ⟨a, ha, rfl⟩, List.mem_map.mpr ⟨b, hb, rfl⟩⟩

/-- One-step soundness of `get_unit_pairs`: a unit production contributes
its pair. -/
theorem unitPairs_one_step (g : Cfg) (p : Production) (hp : p ∈ g.prods)
    (w : String) (hb : p.body = [GObj.var w]) (hhead : p.head ∈ g.vars) :
    (p.head, w) ∈ getUnitPairs g := by
  unfold getUnitPairs
  dsimp only
  have hunit : isUnitProduction p = true := by
    unfold isUnitProduction
    rw [hb]
  refine wlClosure_closed
    ((g.vars.map (fun a =>
      (uniq (g.vars ++ (g.prods.filter isUnitProduction).map unitTarget)).map
        (fun b => (a, b)))).flatten)
    (fun ab => ((alookup (getProductionsD (g.prods.filter isUnitProduction))
        ab.2).getD []).map (fun p => (ab.1, unitTarget p)))
    (g.vars.map (fun v => (v, v)))
    (p.head, p.head) ?_ (p.head, w) ?_ ?_
  · exact wlClosure_init _ _ _ _ (List.mem_map.mpr ⟨p.head, hhead, rfl⟩)
  · simp only []
    refine List.mem_map.mpr ⟨p, ?_, ?_⟩
    · rw [mem_getProductionsD]
      exact ⟨List.mem_filter.mpr ⟨hp, hunit⟩, rfl⟩
    · unfold unitTarget
      rw [hb]
  · rw [mem_unitPairs_univ]
    refine ⟨hhead, ?_⟩
    rw [mem_uniq, List.mem_append]
    refine Or.inr ?_
    refine List.mem_map.mpr ⟨p, List.mem_filter.mpr ⟨hp, hunit⟩, ?_⟩
    unfold unitTarget
    rw [hb]

theorem getUnitPairs_nodup (g : Cfg) : (getUnitPairs g).Nodup := by
  unfold getUnitPairs
  exact wlClosure_nodup _ _ _

/-- When the unit-pair count equals the variable count (the canonical-shape
guard), the unit pairs are exactly the reflexive ones. -/
theorem unitPairs_identity_of_canonical (g : Cfg)
    (hlen : (getUnitPairs g).length = g.vars.length)
    (hvnd : g.vars.Nodup) :
    ∀ ab ∈ getUnitPairs g, ab.2 = ab.1 := by
  intro ab hab
  have hIsub : ∀ x ∈ g.vars.map (fun v => (v, v)), x ∈ getUnitPairs g := by
    intro x hx
    unfold getUnitPairs
    dsimp only
    exact wlClosure_init _ _ _ x hx
  have hInd : (g.vars.map (fun v => (v, v))).Nodup :=
    hvnd.map (fun a b hab2 => congrArg Prod.fst hab2)
  have hUnd := getUnitPairs_nodup g
  have hsub : (g.vars.map (fun v => (v, v))).toFinset ⊆ (getUnitPairs g).toFinset := by
    intro x hx
    rw [List.mem_toFinset] at hx ⊢
    exact hIsub x hx
  have hcard : (getUnitPairs g).toFinset.card ≤
      (g.vars.map (fun v => (v, v))).toFinset.card := by
    rw [List.toFinset_card_of_nodup hUnd, List.toFinset_card_of_nodup hInd]
    simp [hlen]
  have heq := Finset.eq_of_subset_of_card_le hsub hcard
  have : ab ∈ (g.vars.map (fun v => (v, v))).toFinset := by
    rw [heq, List.mem_toFinset]
    exact hab
  rw [List.mem_toFinset] at this
  rcases List.mem_map.mp this with ⟨v, _, rfl⟩
  rfl

/-- In a grammar passing the unit-pair guard, every single-variable body is
a self-loop. -/
theorem unit_selfloop_of_guard (g : Cfg) (hwf : g.WF)
    (hlen : (getUnitPairs g).length = g.vars.length)
    (p : Production) (hp : p ∈ g.prods) (w : String)
    (hb : p.body = [GObj.var w]) : w = p.head := by
  have h1 := unitPairs_one_step g p hp w hb ((hwf.1 p hp).1)
  have h2 := unitPairs_identity_of_canonical g hlen hwf.2.2.1 (p.head, w) h1
  exact h2

/-! ## Reachability characterisation -/

theorem alookup_mem_pairs {α β : Type} [DecidableEq α] (l : List (α × β))
    (k : α) (v : β) (h : alookup l k = some v) : (k, v) ∈ l := by
  induction l with
  | nil => simp [alookup] at h
  | cons kv rest ih =>
    by_cases hk : kv.1 = k
    · simp only [alookup, hk, if_true] at h
      cases h
      subst hk
      simp
    · simp only [alookup, hk, if_false] at h
      exact List.mem_cons_of_mem _ (ih h)

theorem mem_aset {α β : Type} [DecidableEq α] (l : List (α × β)) (k : α)
    (v : β) (kv : α × β) (h : kv ∈ aset l k v) : kv ∈ l ∨ kv = (k, v) := by
  induction l with
  | nil => simpa [aset] using h
  | cons e rest ih =>
    by_cases hk : e.1 = k
    · simp only [aset, hk, if_true] at h
      rcases List.mem_cons.mp h with rfl | h2
      · exact Or.inr rfl
      · exact Or.inl (List.mem_cons_of_mem _ h2)
    · simp only [aset, hk, if_false] at h
      rcases List.mem_cons.mp h with rfl | h2
      · exact Or.inl (by simp)
      · rcases ih h2 with h3 | h3
        · exact Or.inl (List.mem_cons_of_mem _ h3)
        · exact Or.inr h3

theorem foldl_reach_values (Q : GObj → Prop) :
    ∀ (l : List Production) (d0 : List (String × List GObj)),
      (∀ e ∈ d0, ∀ b ∈ e.2, Q b) →
      (∀ p ∈ l, ∀ b ∈ p.body, Q b) →
      ∀ e ∈ l.foldl (fun d p =>
          aset d p.head ((alookup d p.head).getD [] ++ p.body)) d0,
        ∀ b ∈ e.2, Q b := by
  intro l
  induction l with
  | nil => intro d0 h0 _; simpa using h0
  | cons p l ih =>
    intro d0 h0 hl
    rw [List.foldl_cons]
    refine ih _ ?_ (fun q hq => hl q (List.mem_cons_of_mem _ hq))
    intro e he b hb
    rcases mem_aset _ _ _ _ he with h | h
    · exact h0 e h b hb
    · subst h
      simp only at hb
      rcases List.mem_append.mp hb with h2 | h2
      · cases hlv : alookup d0 p.head with
        | none => rw [hlv] at h2; simp at h2
        | some v =>
          rw [hlv] at h2
          simp only [Option.getD_some] at h2
          exact h0 _ (alookup_mem_pairs _ _ _ hlv) b h2
      · exact hl p (List.mem_cons_self _ _) b h2

/-- Every value stored in `reachable_transition_d` is a body element. -/
theorem reachableTransitionD_values (ps : List Production) (h : String)
    (l : List GObj) (hl : alookup (reachableTransitionD ps) h = some l) :
    ∀ b ∈ l, ∃ p ∈ ps, b ∈ p.body := by
  intro b hb
  have h1 : l = (alookup (reachableTransitionD ps) h).getD [] := by rw [hl]; rfl
  rw [h1] at hb
  unfold reachableTransitionD at hb
  rw [reachableTransitionD_lookup ps [] h] at hb
  simp only [alookup, Option.getD_none, List.nil_append] at hb
  rcases List.mem_flatMap.mp hb with ⟨p, hp, hbp⟩
  exact ⟨p, (List.mem_filter.mp hp).1, hbp⟩

/-- Soundness: every element of `get_reachable_symbols` is derivable. -/
theorem getReachableSymbols_sound (g : Cfg) :
    ∀ x ∈ getReachableSymbols g, ReachSym g x := by
  unfold getReachableSymbols
  dsimp only
  refine wlClosure_minimal _ _ _ (ReachSym g) ?_ ?_
  · intro x hx
    simp only [List.mem_singleton] at hx
    subst hx
    exact ReachSym.start
  · intro x hx y hy _
    unfold reachStep at hy
    match x, hy with
    | some (GObj.var v), hy =>
      rcases List.mem_map.mp hy with ⟨b, hb, rfl⟩
      rcases (mem_reachableTransitionD g.prods v b).mp hb with ⟨p, hp, hh, hbp⟩
      exact ReachSym.step v p b hx hp hh hbp

/-- Completeness: every derivably reachable element is in
`get_reachable_symbols`. -/
theorem getReachableSymbols_complete (g : Cfg) :
    ∀ x, ReachSym g x → x ∈ getReachableSymbols g := by
  intro x hx
  induction hx with
  | start =>
    unfold getReachableSymbols
    dsimp only
    exact wlClosure_init _ _ _ _ (by simp)
  | step h p y hreach hp hh hbp ih =>
    unfold getReachableSymbols at ih ⊢
    dsimp only at ih ⊢
    refine wlClosure_closed _ _ _ _ ih (some y) ?_ ?_
    · unfold reachStep
      refine List.mem_map.mpr ⟨y, ?_, rfl⟩
      exact (mem_reachableTransitionD g.prods h y).mpr ⟨p, hp, hh, hbp⟩
    · rw [mem_uniq, List.mem_cons]
      refine Or.inr ?_
      refine List.mem_map.mpr ⟨y, ?_, rfl⟩
      rw [List.mem_flatten]
      have hlk : ∃ l, alookup (reachableTransitionD g.prods) h = some l ∧ y ∈ l := by
        have hmem : y ∈ (alookup (reachableTransitionD g.prods) h).getD [] :=
          (mem_reachableTransitionD g.prods h y).mpr ⟨p, hp, hh, hbp⟩
        cases hl : alookup (reachableTransitionD g.prods) h with
        | none => rw [hl] at hmem
                  exact absurd hmem (by simp)
        | some l => rw [hl] at hmem
                    exact ⟨l, rfl, hmem⟩
      rcases hlk with ⟨l, hl, hyl⟩
      exact ⟨l, List.mem_map.mpr ⟨(h, l), alookup_mem_pairs _ _ _ hl, rfl⟩, hyl⟩

/-- Every reachable element is the start element or a body element. -/
theorem getReachableSymbols_bound (g : Cfg) :
    ∀ x ∈ getReachableSymbols g, x = g.start.map GObj.var ∨
      ∃ p ∈ g.prods, ∃ b ∈ p.body, x = some b := by
  unfold getReachableSymbols
  dsimp only
  intro x hx
  rcases wlClosure_bound _ _ _ x hx with h | h
  · simp only [List.mem_singleton] at h
    exact Or.inl h
  · rw [mem_uniq, List.mem_cons] at h
    rcases h with h | h
    · exact Or.inl h
    · rcases List.mem_map.mp h with ⟨b, hb, rfl⟩
      rcases List.mem_flatten.mp hb with ⟨l, hl, hbl⟩
      rcases List.mem_map.mp hl with ⟨kv, hkv, rfl⟩
      refine Or.inr ?_
      have h2 : ∀ e ∈ reachableTransitionD g.prods, ∀ b2 ∈ e.2,
          ∃ p ∈ g.prods, b2 ∈ p.body := by
        unfold reachableTransitionD
        refine foldl_reach_values _ g.prods [] (by simp) ?_
        intro p hp b3 hb3
        exact ⟨p, hp, hb3⟩
      rcases h2 kv hkv b hbl with ⟨p, hp, hbp⟩
      exact ⟨p, hp, b, hbp, rfl⟩

/-! ## Specification of `_set_impacts_and_remaining_lists` -/

theorem headSlots_append_empty (l : List Production) (p : Production)
    (hb : p.body = []) (h : String) :
    headSlots (l ++ [p]) h = headSlots l h := by
  unfold headSlots
  rw [List.filter_append]
  simp [hb]

theorem headSlots_append_ne (l : List Production) (p : Production)
    (h : String) (hh : p.head ≠ h) :
    headSlots (l ++ [p]) h = headSlots l h := by
  unfold headSlots
  rw [List.filter_append]
  simp [hh]

theorem headSlots_append_self (l : List Production) (p : Production)
    (hb : p.body ≠ []) :
    headSlots (l ++ [p]) p.head = headSlots l p.head ++ [p] := by
  unfold headSlots
  rw [List.filter_append]
  simp [hb]

theorem slotBody_append_lt (l : List Production) (p : Production)
    (hb : p.body ≠ []) (i : Nat) (hi : i < (headSlots l p.head).length) :
    slotBody (l ++ [p]) p.head i = slotBody l p.head i := by
  unfold slotBody
  rw [headSlots_append_self l p hb, List.getD_append _ _ _ _ hi]

theorem slotBody_append_last (l : List Production) (p : Production)
    (hb : p.body ≠ []) :
    slotBody (l ++ [p]) p.head (headSlots l p.head).length = p.body := by
  unfold slotBody
  rw [headSlots_append_self l p hb, List.getD_append_right _ _ _ _ (Nat.le_refl _)]
  simp

theorem impFold_count (e0 : String × Nat) :
    ∀ (body : List GObj) (imp0 : List (GObj × List (String × Nat)))
      (s : GObj) (hi : String × Nat),
      List.count hi ((alookup (body.foldl (fun imp s2 =>
        aset imp s2 ((alookup imp s2).getD [] ++ [e0])) imp0) s).getD [])
      = List.count hi ((alookup imp0 s).getD [])
        + (if hi = e0 then List.count s body else 0) := by
  intro body
  induction body with
  | nil => intro imp0 s hi
           simp
  | cons b body ih =>
    intro imp0 s hi
    rw [List.foldl_cons, ih]
    by_cases hsb : s = b
    · subst hsb
      rw [alookup_aset_self]
      simp only [Option.getD_some, List.count_append]
      by_cases he : hi = e0
      · subst he
        simp [List.count_cons]
        omega
      · have h2 : (e0 == hi) = false := by
          simp only [beq_eq_false_iff_ne, ne_eq]
          exact fun hc => he hc.symm
        simp [List.count_cons, h2, he]
    · rw [alookup_aset_ne imp0 _ hsb]
      have hbs : (b == s) = false := by
        simp only [beq_eq_false_iff_ne, ne_eq]
        exact fun hc => hsb hc.symm
      rw [List.count_cons, hbs]
      simp

/-- The counter lists and impact-entry multiplicities produced by
`_set_impacts_and_remaining_lists`: head `h`'s counter list holds the body
lengths of its non-empty productions in order, and the impact list of a
symbol counts, for each slot, the occurrences of the symbol in that slot's
body. -/
theorem setImpacts_spec (ps : List Production) :
    (∀ h, (alookup (setImpactsAndRemaining ps).remaining h).getD []
        = (headSlots ps h).map (fun q => (q.body.length : Int))) ∧
    (∀ (s : GObj) (hi : String × Nat),
      List.count hi ((alookup (setImpactsAndRemaining ps).impacts s).getD [])
        = if hi.2 < (headSlots ps hi.1).length
          then List.count s (slotBody ps hi.1 hi.2) else 0) := by
  induction ps using List.reverseRecOn with
  | nil =>
    constructor
    · intro h
      simp [setImpactsAndRemaining, headSlots, alookup]
    · intro s hi
      simp [setImpactsAndRemaining, headSlots, alookup]
  | append_singleton l p ih =>
    have hstep : setImpactsAndRemaining (l ++ [p]) =
        (if p.body = [] then
          { setImpactsAndRemaining l with
              added := setInsert (setImpactsAndRemaining l).added p.head }
        else
          let temp := (alookup (setImpactsAndRemaining l).remaining p.head).getD []
          let temp := temp ++ [(p.body.length : Int)]
          let indexImpact := temp.length - 1
          let rem := aset (setImpactsAndRemaining l).remaining p.head temp
          let imp := p.body.foldl (fun imp s =>
            aset imp s ((alookup imp s).getD [] ++ [(p.head, indexImpact)]))
            (setImpactsAndRemaining l).impacts
          { setImpactsAndRemaining l with remaining := rem, impacts := imp }) := by
      unfold setImpactsAndRemaining
      rw [List.foldl_append]
      rfl
    by_cases hb : p.body = []
    · rw [hstep, if_pos hb]
      constructor
      · intro h
        rw [headSlots_append_empty l p hb]
        exact ih.1 h
      · intro s hi
        have h1 : headSlots (l ++ [p]) hi.1 = headSlots l hi.1 :=
          headSlots_append_empty l p hb hi.1
        have h2 : slotBody (l ++ [p]) hi.1 hi.2 = slotBody l hi.1 hi.2 := by
          unfold slotBody
          rw [h1]
        rw [h1, h2]
        exact ih.2 s hi
    · rw [hstep, if_neg hb]
      dsimp only
      have hidx : ((alookup (setImpactsAndRemaining l).remaining p.head).getD []
          ++ [(p.body.length : Int)]).length - 1 = (headSlots l p.head).length := by
        rw [ih.1 p.head]
        simp
      rw [hidx]
      constructor
      · intro h
        by_cases hh : p.head = h
        · subst hh
          rw [alookup_aset_self, headSlots_append_self l p hb]
          simp only [Option.getD_some, List.map_append, List.map_cons,
            List.map_nil]
          rw [ih.1 p.head]
        · rw [alookup_aset_ne _ _ (fun hc => hh hc.symm),
            headSlots_append_ne l p h hh]
          exact ih.1 h
      · intro s hi
        rw [impFold_count (p.head, (headSlots l p.head).length) p.body
          (setImpactsAndRemaining l).impacts s hi, ih.2 s hi]
        by_cases hh : hi.1 = p.head
        · have hslots : headSlots (l ++ [p]) hi.1
              = headSlots l hi.1 ++ [p] := by
            rw [hh]
            exact headSlots_append_self l p hb
          rcases Nat.lt_trichotomy hi.2 (headSlots l hi.1).length with hlt | heq | hgt
          · have hne : hi ≠ (p.head, (headSlots l p.head).length) := by
              intro hc
              rw [hc] at hlt
              simp only [hh] at hlt
              omega
            rw [if_neg hne, if_pos hlt]
            have hlt2 : hi.2 < (headSlots (l ++ [p]) hi.1).length := by
              rw [hslots]
              simp
              omega
            rw [if_pos hlt2]
            have hsb : slotBody (l ++ [p]) hi.1 hi.2 = slotBody l hi.1 hi.2 := by
              rw [hh] at hlt ⊢
              exact slotBody_append_lt l p hb hi.2 hlt
            rw [hsb]
            omega
          · have heq2 : hi = (p.head, (headSlots l p.head).length) := by
              rw [← hh, ← heq]
            rw [if_pos heq2, if_neg (by omega)]
            have hlt2 : hi.2 < (headSlots (l ++ [p]) hi.1).length := by
              rw [hslots]
              simp
              omega
            rw [if_pos hlt2]
            have hsb : slotBody (l ++ [p]) hi.1 hi.2 = p.body := by
              rw [hh, heq, hh]
              exact slotBody_append_last l p hb
            rw [hsb]
            omega
          · have hne : hi ≠ (p.head, (headSlots l p.head).length) := by
              intro hc
              rw [hc] at hgt
              simp only [hh] at hgt
              omega
            rw [if_neg hne, if_neg (by omega)]
            have hge2 : ¬ hi.2 < (headSlots (l ++ [p]) hi.1).length := by
              rw [hslots]
              simp
              omega
            rw [if_neg hge2]
        · have hslots : headSlots (l ++ [p]) hi.1 = headSlots l hi.1 :=
            headSlots_append_ne l p hi.1 (fun hc => hh hc.symm)
          have hne : hi ≠ (p.head, (headSlots l p.head).length) := by
            intro hc
            exact hh (by rw [hc])
          rw [if_neg hne, hslots]
          have hsb : slotBody (l ++ [p]) hi.1 hi.2 = slotBody l hi.1 hi.2 := by
            unfold slotBody
            rw [hslots]
          rw [hsb]
          omega

theorem setImpacts_impacts_mem (ps : List Production) (s : GObj)
    (hi : String × Nat) :
    hi ∈ (alookup (setImpactsAndRemaining ps).impacts s).getD [] ↔
      hi.2 < (headSlots ps hi.1).length ∧ s ∈ slotBody ps hi.1 hi.2 := by
  rw [← List.count_pos_iff, (setImpacts_spec ps).2 s hi]
  by_cases hlt : hi.2 < (headSlots ps hi.1).length
  · rw [if_pos hlt, List.count_pos_iff]
    simp [hlt]
  · rw [if_neg hlt]
    simp [hlt]

theorem setImpacts_rem_isSome (ps : List Production) (h : String)
    (hne : headSlots ps h ≠ []) :
    (alookup (setImpactsAndRemaining ps).remaining h).isSome := by
  cases hl : alookup (setImpactsAndRemaining ps).remaining h with
  | none =>
    have h1 := (setImpacts_spec ps).1 h
    rw [hl] at h1
    simp only [Option.getD_none] at h1
    exact absurd (List.map_eq_nil_iff.mp h1.symm) hne
  | some l => rfl

theorem slot_mem (ps : List Production) (h : String) (i : Nat)
    (hi : i < (headSlots ps h).length) :
    ∃ q ∈ ps, q.head = h ∧ q.body = slotBody ps h i ∧ q.body ≠ [] := by
  have hg : (headSlots ps h).getD i (Production.mk "" [])
      = (headSlots ps h).get ⟨i, hi⟩ := List.getD_eq_getElem _ _ hi
  have hmem : (headSlots ps h).get ⟨i, hi⟩ ∈ headSlots ps h :=
    List.get_mem _ _ _
  unfold headSlots at hmem
  rcases List.mem_filter.mp hmem with ⟨hmem2, hpred⟩
  have hpred2 : ((headSlots ps h).get ⟨i, hi⟩).head = h ∧
      ((headSlots ps h).get ⟨i, hi⟩).body ≠ [] := of_decide_eq_true hpred
  refine ⟨(headSlots ps h).get ⟨i, hi⟩, hmem2, hpred2.1, ?_, hpred2.2⟩
  unfold slotBody
  rw [hg]

theorem slotBody_ne_nil (ps : List Production) (h : String) (i : Nat)
    (hi : i < (headSlots ps h).length) : slotBody ps h i ≠ [] := by
  rcases slot_mem ps h i hi with ⟨q, _, _, hb, hne⟩
  rw [← hb]
  exact hne

theorem countProc_le (proc : List ESym) (body : List GObj) :
    countProc proc body ≤ body.length := List.length_filter_le _ _

theorem countProc_append_none (proc : List ESym) (body : List GObj) :
    countProc (proc ++ [(none : ESym)]) body = countProc proc body := by
  unfold countProc
  congr 1
  refine List.filter_congr ?_
  intro s _
  simp

theorem countProc_append_some (proc : List ESym) (s0 : GObj)
    (body : List GObj) (hc : (some s0 : ESym) ∉ proc) :
    countProc (proc ++ [(some s0 : ESym)]) body
      = countProc proc body + List.count s0 body := by
  induction body with
  | nil => simp [countProc]
  | cons b body ih =>
    unfold countProc at ih ⊢
    by_cases hb : b = s0
    · subst hb
      have h1 : ((some b : ESym) ∈ proc ++ [(some b : ESym)]) := by simp
      have h2 : ¬ ((some b : ESym) ∈ proc) := hc
      simp only [List.filter_cons, decide_eq_true_eq]
      rw [if_pos h1, if_neg h2]
      simp only [List.length_cons, List.count_cons]
      rw [ih]
      simp
      omega
    · have h1 : ((some b : ESym) ∈ proc ++ [(some s0 : ESym)]) ↔
          ((some b : ESym) ∈ proc) := by
        simp [hb]
      simp only [List.filter_cons, decide_eq_true_eq]
      by_cases h2 : (some b : ESym) ∈ proc
      · rw [if_pos (h1.mpr h2), if_pos h2]
        simp only [List.length_cons, List.count_cons]
        rw [ih]
        have : (b == s0) = false := by
          simp only [beq_eq_false_iff_ne, ne_eq]
          exact hb
        rw [this]
        simp
        omega
      · rw [if_neg (fun hx => h2 (h1.mp hx)), if_neg h2]
        rw [ih]
        have : (b == s0) = false := by
          simp only [beq_eq_false_iff_ne, ne_eq]
          exact hb
        rw [List.count_cons, this]
        simp

theorem countProc_full (proc : List ESym) (body : List GObj)
    (h : ∀ s ∈ body, (some s : ESym) ∈ proc) :
    countProc proc body = body.length := by
  unfold countProc
  rw [List.filter_eq_self.mpr]
  intro s hs
  simp [h s hs]

theorem mem_impactHeads (imp : List (GObj × List (String × Nat))) (s : GObj)
    (e : String × Nat) (he : e ∈ (alookup imp s).getD []) :
    GObj.var e.1 ∈ impactHeads imp := by
  unfold impactHeads
  rw [mem_uniq]
  refine List.mem_map.mpr ⟨e, ?_, rfl⟩
  rw [List.mem_flatten]
  cases hl : alookup imp s with
  | none => rw [hl] at he
            exact absurd he (by simp)
  | some l =>
    rw [hl] at he
    exact ⟨l, List.mem_map.mpr ⟨(s, l), alookup_mem_pairs _ _ _ hl, rfl⟩, he⟩

/-! ## Engine loop invariant -/

theorem bump_length (l : List Int) (i : Nat) (d : Int) :
    (bump l i d).length = l.length := by
  unfold bump
  simp

theorem bump_getD_ne (l : List Int) (i j : Nat) (d : Int) (h : i ≠ j) :
    (bump l j d).getD i 0 = l.getD i 0 := by
  unfold bump
  rw [List.getD_eq_getElem?_getD,
    List.getElem?_set_ne (fun hc => h hc.symm)]
  exact (List.getD_eq_getElem?_getD l i 0).symm

theorem bump_getD_self (l : List Int) (i : Nat) (d : Int)
    (h : i < l.length) : (bump l i d).getD i 0 = l.getD i 0 + d := by
  unfold bump
  rw [List.getD_eq_getElem?_getD, List.getD_eq_getElem?_getD,
    List.getElem?_set_self, List.getElem?_eq_getElem h]
  · simp
  · exact h

theorem procImpactOne_inv (ps : List Production) (seeds : List GObj)
    (st : EngSt) (proc : List ESym) (e : String × Nat)
    (entries : List (String × Nat))
    (hinv : EngInv ps seeds st proc (e :: entries))
    (he : e.2 < (headSlots ps e.1).length) :
    EngInv ps seeds (procImpactOne st e) proc entries := by
  obtain ⟨h1, h2, h3, h4, h5, h6, h7, h8, h9⟩ := hinv
  unfold procImpactOne
  by_cases hA : (some (GObj.var e.1) : ESym) ∈ st.gSyms
  · rw [if_pos hA]
    refine ⟨h1, h2, h3, h4, h5, h6, h7, h8, ?_⟩
    intro h i hvalid hnot
    have hne : (h, i) ≠ e := by
      intro hc
      have hh : h = e.1 := congrArg Prod.fst hc
      rw [hh] at hnot
      exact hnot hA
    have hcnt : List.count (h, i) (e :: entries) = List.count (h, i) entries := by
      rw [List.count_cons]
      have : (e == (h, i)) = false := by
        simp only [beq_eq_false_iff_ne, ne_eq]
        exact fun hc => hne hc.symm
      rw [this]
      simp
    have h9' := h9 h i hvalid hnot
    rw [hcnt] at h9'
    exact h9'
  · rw [if_neg hA]
    have hslots_ne : headSlots ps e.1 ≠ [] := by
      intro hc
      rw [hc] at he
      simp at he
    have hsome := h8 e.1 hslots_ne
    rcases Option.isSome_iff_exists.mp hsome with ⟨l, hl⟩
    have hadj : adjAt st.rem e.1 e.2 (-1) = aset st.rem e.1 (bump l e.2 (-1)) := by
      unfold adjAt
      rw [hl]
    have hlen_l : l.length = (headSlots ps e.1).length := by
      have := h7 e.1
      rw [hl] at this
      simpa using this
    have hIlt : e.2 < l.length := by rw [hlen_l]; exact he
    have h9e := h9 e.1 e.2 he hA
    have hval_old : l.getD e.2 0
        = ((slotBody ps e.1 e.2).length : Int)
          - countProc proc (slotBody ps e.1 e.2)
          + List.count e (e :: entries) := by
      have := h9e.1
      rw [hl] at this
      simpa using this
    have hcount_cons : List.count e (e :: entries) = List.count e entries + 1 := by
      rw [List.count_cons]
      simp
    have hnewval : ((alookup (aset st.rem e.1 (bump l e.2 (-1))) e.1).getD []).getD e.2 0
        = l.getD e.2 0 + (-1) := by
      rw [alookup_aset_self]
      simp only [Option.getD_some]
      exact bump_getD_self l e.2 (-1) hIlt
    -- common facts for the remaining-table components
    have hREM7 : ∀ h, ((alookup (aset st.rem e.1 (bump l e.2 (-1))) h).getD []).length
        = (headSlots ps h).length := by
      intro h
      by_cases hh : h = e.1
      · subst hh
        rw [alookup_aset_self]
        simp only [Option.getD_some]
        rw [bump_length, hlen_l]
      · rw [alookup_aset_ne _ _ hh]
        exact h7 h
    have hREM8 : ∀ h, headSlots ps h ≠ [] →
        (alookup (aset st.rem e.1 (bump l e.2 (-1))) h).isSome := by
      intro h hne
      by_cases hh : h = e.1
      · subst hh
        rw [alookup_aset_self]
        rfl
      · rw [alookup_aset_ne _ _ hh]
        exact h8 h hne
    have hCNTne : ∀ h i, (h, i) ≠ e →
        ((alookup (aset st.rem e.1 (bump l e.2 (-1))) h).getD []).getD i 0
          = ((alookup st.rem h).getD []).getD i 0 := by
      intro h i hne
      by_cases hh : h = e.1
      · subst hh
        rw [alookup_aset_self, hl]
        simp only [Option.getD_some]
        refine bump_getD_ne l i e.2 (-1) ?_
        intro hc
        exact hne (by rw [hc])
      · rw [alookup_aset_ne _ _ hh]
    have hcnt_ne : ∀ (h : String) (i : Nat), (h, i) ≠ e →
        List.count (h, i) (e :: entries) = List.count (h, i) entries := by
      intro h i hne
      rw [List.count_cons]
      have : (e == (h, i)) = false := by
        simp only [beq_eq_false_iff_ne, ne_eq]
        exact fun hc => hne hc.symm
      rw [this]
      simp
    rw [hadj]
    dsimp only
    by_cases hz : ((alookup (aset st.rem e.1 (bump l e.2 (-1))) e.1).getD []).getD e.2 0 = 0
    · rw [if_pos hz]
      -- the counter hit zero: the head joins the working set and the stack
      have hzero : ((slotBody ps e.1 e.2).length : Int)
            - countProc proc (slotBody ps e.1 e.2) = 0 ∧
          List.count e entries = 0 := by
        rw [hnewval, hval_old, hcount_cons] at hz
        have hle := countProc_le proc (slotBody ps e.1 e.2)
        constructor <;> omega
      have hfull : ∀ s ∈ slotBody ps e.1 e.2, (some s : ESym) ∈ proc := by
        have hcp : countProc proc (slotBody ps e.1 e.2)
            = (slotBody ps e.1 e.2).length := by
          have := hzero.1
          omega
        unfold countProc at hcp
        have hfe : (slotBody ps e.1 e.2).filter
            (fun s => decide ((some s : ESym) ∈ proc)) = slotBody ps e.1 e.2 :=
          (List.filter_sublist _).eq_of_length hcp
        intro s hs
        have := List.filter_eq_self.mp hfe s hs
        exact of_decide_eq_true this
      have hgen : GenSym ps seeds (GObj.var e.1) := by
        rcases slot_mem ps e.1 e.2 he with ⟨q, hq, hqh, hqb, _⟩
        have hstep : ∀ s ∈ q.body, GenSym ps seeds s := by
          intro s hs
          rw [hqb] at hs
          have hsG : (some s : ESym) ∈ st.gSyms := h3 _ (hfull s hs)
          rcases h6 _ hsG with hnone | ⟨s', hs', hgen'⟩
          · exact absurd hnone (by simp)
          · cases hs'
            exact hgen'
        have := GenSym.step q hq hstep
        rw [hqh] at this
        exact this
      have hxnew : (some (GObj.var e.1) : ESym) ∉ st.stack ++ proc := by
        intro hc
        rcases List.mem_append.mp hc with hc | hc
        · exact hA (h2 _ hc)
        · exact hA (h3 _ hc)
      refine ⟨?_, ?_, ?_, ?_, ?_, ?_, hREM7, hREM8, ?_⟩
      · rw [List.nodup_append]
        exact ⟨h1, List.nodup_singleton _, by
          intro a ha hb
          simp only [List.mem_singleton] at hb
          subst hb
          exact hA ha⟩
      · intro x hx
        rcases List.mem_cons.mp hx with rfl | hx
        · simp
        · exact List.mem_append.mpr (Or.inl (h2 x hx))
      · intro x hx
        exact List.mem_append.mpr (Or.inl (h3 x hx))
      · intro x hx
        rcases List.mem_append.mp hx with hx | hx
        · rcases h4 x hx with h | h
          · exact Or.inl h
          · exact Or.inr (List.mem_cons_of_mem _ h)
        · simp only [List.mem_singleton] at hx
          subst hx
          exact Or.inr (List.mem_cons_self _ _)
      · rw [List.cons_append, List.nodup_cons]
        exact ⟨hxnew, h5⟩
      · intro x hx
        rcases List.mem_append.mp hx with hx | hx
        · exact h6 x hx
        · simp only [List.mem_singleton] at hx
          subst hx
          exact Or.inr ⟨GObj.var e.1, rfl, hgen⟩
      · intro h i hvalid hnot
        have hhne : h ≠ e.1 := by
          intro hc
          subst hc
          exact hnot (List.mem_append.mpr (Or.inr (by simp)))
        have hne : (h, i) ≠ e := fun hc => hhne (congrArg Prod.fst hc)
        have hnotold : (some (GObj.var h) : ESym) ∉ st.gSyms := by
          intro hc
          exact hnot (List.mem_append.mpr (Or.inl hc))
        have h9' := h9 h i hvalid hnotold
        rw [hcnt_ne h i hne] at h9'
        rw [hCNTne h i hne]
        exact h9'
    · rw [if_neg hz]
      refine ⟨h1, h2, h3, h4, h5, h6, hREM7, hREM8, ?_⟩
      intro h i hvalid hnot
      by_cases hcase : (h, i) = e
      · have hh : h = e.1 := congrArg Prod.fst hcase
        have hi2 : i = e.2 := congrArg Prod.snd hcase
        subst hh
        subst hi2
        constructor
        · show ((alookup (aset st.rem e.1 (bump l e.2 (-1))) e.1).getD []).getD e.2 0
            = ((slotBody ps e.1 e.2).length : Int)
              - countProc proc (slotBody ps e.1 e.2) + List.count e entries
          rw [hnewval, hval_old, hcount_cons]
          omega
        · have hge : (0 : Int) ≤ ((slotBody ps e.1 e.2).length : Int)
              - countProc proc (slotBody ps e.1 e.2)
              + List.count e entries := by
            have hle := countProc_le proc (slotBody ps e.1 e.2)
            have hnn : (0 : Int) ≤ (List.count e entries : Int) :=
              Int.natCast_nonneg _
            omega
          rw [hnewval, hval_old, hcount_cons]
          rw [hnewval, hval_old, hcount_cons] at hz
          omega
      · have h9' := h9 h i hvalid hnot
        rw [hcnt_ne h i hcase] at h9'
        rw [hCNTne h i hcase]
        exact h9'

theorem procImpacts_inv (ps : List Production) (seeds : List GObj) :
    ∀ (entries : List (String × Nat)) (st : EngSt) (proc : List ESym),
      EngInv ps seeds st proc entries →
      (∀ e ∈ entries, e.2 < (headSlots ps e.1).length) →
      EngInv ps seeds (procImpacts entries st) proc [] := by
  intro entries
  induction entries with
  | nil => intro st proc hinv _
           exact hinv
  | cons e entries ih =>
    intro st proc hinv hok
    have h1 : procImpacts (e :: entries) st
        = procImpacts entries (procImpactOne st e) := rfl
    rw [h1]
    refine ih _ _ ?_ (fun x hx => hok x (List.mem_cons_of_mem _ hx))
    exact procImpactOne_inv ps seeds st proc e entries hinv
      (hok e (List.mem_cons_self _ _))

theorem procImpactOne_push (st : EngSt) (e : String × Nat) :
    ∃ nl : List ESym, (procImpactOne st e).gSyms = st.gSyms ++ nl ∧
      (procImpactOne st e).stack = nl.reverse ++ st.stack ∧
      ∀ x ∈ nl, x ∉ st.gSyms ∧ x = some (GObj.var e.1) := by
  unfold procImpactOne
  by_cases hA : (some (GObj.var e.1) : ESym) ∈ st.gSyms
  · rw [if_pos hA]
    exact ⟨[], by simp, by simp, by simp⟩
  · rw [if_neg hA]
    dsimp only
    by_cases hz : ((alookup (adjAt st.rem e.1 e.2 (-1)) e.1).getD []).getD e.2 0 = 0
    · rw [if_pos hz]
      refine ⟨[some (GObj.var e.1)], rfl, by simp, ?_⟩
      intro x hx
      simp only [List.mem_singleton] at hx
      subst hx
      exact ⟨hA, rfl⟩
    · rw [if_neg hz]
      exact ⟨[], by simp, by simp, by simp⟩

theorem procImpacts_push (entries : List (String × Nat)) :
    ∀ (st : EngSt),
      ∃ nl : List ESym, (procImpacts entries st).gSyms = st.gSyms ++ nl ∧
        (procImpacts entries st).stack = nl.reverse ++ st.stack ∧
        ∀ x ∈ nl, x ∉ st.gSyms ∧ ∃ e ∈ entries, x = some (GObj.var e.1) := by
  induction entries with
  | nil => intro st
           exact ⟨[], by simp [procImpacts], by simp [procImpacts], by simp⟩
  | cons e entries ih =>
    intro st
    have hstep : procImpacts (e :: entries) st
        = procImpacts entries (procImpactOne st e) := rfl
    rcases procImpactOne_push st e with ⟨nl1, hg1, hs1, hm1⟩
    rcases ih (procImpactOne st e) with ⟨nl2, hg2, hs2, hm2⟩
    refine ⟨nl1 ++ nl2, ?_, ?_, ?_⟩
    · rw [hstep, hg2, hg1, List.append_assoc]
    · rw [hstep, hs2, hs1, List.reverse_append, List.append_assoc]
    · intro x hx
      rcases List.mem_append.mp hx with hx | hx
      · rcases hm1 x hx with ⟨hn, he⟩
        exact ⟨hn, e, List.mem_cons_self _ _, he⟩
      · rcases hm2 x hx with ⟨hn, e2, he2, hee⟩
        rw [hg1] at hn
        exact ⟨fun hc => hn (List.mem_append.mpr (Or.inl hc)),
          e2, List.mem_cons_of_mem _ he2, hee⟩

theorem engSeed_st0_inv (ps : List Production) (seeds : List GObj) :
    EngInv ps seeds ⟨[none], [none], (setImpactsAndRemaining ps).remaining, []⟩
      [] [] := by
  refine ⟨?_, ?_, ?_, ?_, ?_, ?_, ?_, ?_, ?_⟩
  · simp
  · intro x hx
    exact hx
  · intro x hx
    simp at hx
  · intro x hx
    exact Or.inr hx
  · simp
  · intro x hx
    simp only [List.mem_singleton] at hx
    exact Or.inl hx
  · intro h
    rw [(setImpacts_spec ps).1 h]
    simp
  · intro h hne
    exact setImpacts_rem_isSome ps h hne
  · intro h i hvalid _
    have hmap : ((alookup (setImpactsAndRemaining ps).remaining h).getD []).getD i 0
        = ((slotBody ps h i).length : Int) := by
      rw [(setImpacts_spec ps).1 h]
      rw [List.getD_eq_getElem _ _ (by simpa using hvalid), List.getElem_map]
      unfold slotBody
      rw [List.getD_eq_getElem _ _ hvalid]
    have hz : countProc [] (slotBody ps h i) = 0 := by simp [countProc]
    have hpos : (slotBody ps h i).length ≠ 0 := by
      intro hc
      exact slotBody_ne_nil ps h i hvalid (List.length_eq_zero.mp hc)
    constructor
    · rw [hmap, hz]
      simp
    · rw [hmap]
      omega

/-- Adding a fresh, provably generating symbol to the working set and the
stack preserves the loop invariant (with empty ghost lists). -/
theorem engInv_add_fresh (ps : List Production) (seeds : List GObj)
    (st : EngSt) (x : ESym) (hinv : EngInv ps seeds st [] [])
    (hx : x ∉ st.gSyms)
    (hsound : x = none ∨ ∃ s, x = some s ∧ GenSym ps seeds s) :
    EngInv ps seeds
      { st with gSyms := st.gSyms ++ [x], stack := x :: st.stack } [] [] := by
  obtain ⟨h1, h2, h3, h4, h5, h6, h7, h8, h9⟩ := hinv
  refine ⟨?_, ?_, ?_, ?_, ?_, ?_, h7, h8, ?_⟩
  · rw [List.nodup_append]
    exact ⟨h1, List.nodup_singleton _, by
      intro a ha hb
      simp only [List.mem_singleton] at hb
      subst hb
      exact hx ha⟩
  · intro y hy
    rcases List.mem_cons.mp hy with rfl | hy
    · simp
    · exact List.mem_append.mpr (Or.inl (h2 y hy))
  · intro y hy
    simp at hy
  · intro y hy
    rcases List.mem_append.mp hy with hy | hy
    · rcases h4 y hy with h | h
      · simp at h
      · exact Or.inr (List.mem_cons_of_mem _ h)
    · simp only [List.mem_singleton] at hy
      subst hy
      exact Or.inr (List.mem_cons_self _ _)
  · simp only [List.append_nil] at h5 ⊢
    rw [List.nodup_cons]
    exact ⟨fun hc => hx (h2 x hc), h5⟩
  · intro y hy
    rcases List.mem_append.mp hy with hy | hy
    · exact h6 y hy
    · simp only [List.mem_singleton] at hy
      subst hy
      exact hsound
  · intro h i hvalid hnot
    have hnot2 : (some (GObj.var h) : ESym) ∉ st.gSyms := by
      intro hc
      exact hnot (List.mem_append.mpr (Or.inl hc))
    exact h9 h i hvalid hnot2

theorem engSeed_added_fold (ps : List Production) (seeds : List GObj)
    (added : List String)
    (hadd : ∀ h ∈ added, ∃ p ∈ ps, p.head = h ∧ p.body = []) :
    ∀ st : EngSt, EngInv ps seeds st [] [] →
      (∀ x ∈ st.gSyms, x = none ∨ ∃ v, x = some (GObj.var v)) →
      EngInv ps seeds (added.foldl (fun st h =>
        if (some (GObj.var h) : ESym) ∈ st.gSyms then st
        else { st with gSyms := st.gSyms ++ [some (GObj.var h)],
                       stack := some (GObj.var h) :: st.stack }) st) [] [] ∧
      (∀ x ∈ (added.foldl (fun st h =>
        if (some (GObj.var h) : ESym) ∈ st.gSyms then st
        else { st with gSyms := st.gSyms ++ [some (GObj.var h)],
                       stack := some (GObj.var h) :: st.stack }) st).gSyms,
        x = none ∨ ∃ v, x = some (GObj.var v)) ∧
      (∀ h ∈ added, (some (GObj.var h) : ESym) ∈ (added.foldl (fun st h =>
        if (some (GObj.var h) : ESym) ∈ st.gSyms then st
        else { st with gSyms := st.gSyms ++ [some (GObj.var h)],
                       stack := some (GObj.var h) :: st.stack }) st).gSyms) ∧
      (∀ x ∈ st.gSyms, x ∈ (added.foldl (fun st h =>
        if (some (GObj.var h) : ESym) ∈ st.gSyms then st
        else { st with gSyms := st.gSyms ++ [some (GObj.var h)],
                       stack := some (GObj.var h) :: st.stack }) st).gSyms) := by
  induction added with
  | nil => intro st hinv hgv
           exact ⟨hinv, hgv, by simp, fun x hx => hx⟩
  | cons a added ih =>
    intro st hinv hgv
    have hgen : GenSym ps seeds (GObj.var a) := by
      rcases hadd a (List.mem_cons_self _ _) with ⟨p, hp, hph, hpb⟩
      have h2 : GenSym ps seeds (GObj.var p.head) :=
        GenSym.step p hp (by intro s hs; rw [hpb] at hs; simp at hs)
      rw [hph] at h2
      exact h2
    rw [List.foldl_cons]
    by_cases hm : (some (GObj.var a) : ESym) ∈ st.gSyms
    · rw [if_pos hm]
      rcases ih (fun h hh => hadd h (List.mem_cons_of_mem _ hh)) st hinv hgv
        with ⟨q1, q2, q3, q4⟩
      exact ⟨q1, q2, fun h hh => by
        rcases List.mem_cons.mp hh with rfl | hh
        · exact q4 _ hm
        · exact q3 h hh, q4⟩
    · rw [if_neg hm]
      have hinv' := engInv_add_fresh ps seeds st (some (GObj.var a)) hinv hm
        (Or.inr ⟨GObj.var a, rfl, hgen⟩)
      have hgv' : ∀ x ∈ st.gSyms ++ [some (GObj.var a)],
          x = none ∨ ∃ v, x = some (GObj.var v) := by
        intro x hx
        rcases List.mem_append.mp hx with hx | hx
        · exact hgv x hx
        · simp only [List.mem_singleton] at hx
          subst hx
          exact Or.inr ⟨a, rfl⟩
      rcases ih (fun h hh => hadd h (List.mem_cons_of_mem _ hh)) _ hinv' hgv'
        with ⟨q1, q2, q3, q4⟩
      refine ⟨q1, q2, ?_, ?_⟩
      · intro h hh
        rcases List.mem_cons.mp hh with rfl | hh
        · exact q4 _ (List.mem_append.mpr (Or.inr (by simp)))
        · exact q3 h hh
      · intro x hx
        exact q4 x (List.mem_append.mpr (Or.inl hx))

theorem engSeed_terms_fold (ps : List Production) (seeds : List GObj) :
    ∀ (ts : List String) (st : EngSt),
      EngInv ps seeds st [] [] →
      ts.Nodup →
      (∀ t ∈ ts, (some (GObj.term t) : ESym) ∉ st.gSyms) →
      (∀ t ∈ ts, GenSym ps seeds (GObj.term t)) →
      EngInv ps seeds (ts.foldl (fun st t =>
        { st with gSyms := setInsert st.gSyms (some (GObj.term t)),
                  stack := some (GObj.term t) :: st.stack }) st) [] [] ∧
      (∀ t ∈ ts, (some (GObj.term t) : ESym) ∈ (ts.foldl (fun st t =>
        { st with gSyms := setInsert st.gSyms (some (GObj.term t)),
                  stack := some (GObj.term t) :: st.stack }) st).gSyms) ∧
      (∀ x ∈ st.gSyms, x ∈ (ts.foldl (fun st t =>
        { st with gSyms := setInsert st.gSyms (some (GObj.term t)),
                  stack := some (GObj.term t) :: st.stack }) st).gSyms) := by
  intro ts
  induction ts with
  | nil => intro st hinv _ _ _
           exact ⟨hinv, by simp, fun x hx => hx⟩
  | cons t ts ih =>
    intro st hinv hnd hfresh hgen
    rw [List.foldl_cons]
    have hm : (some (GObj.term t) : ESym) ∉ st.gSyms :=
      hfresh t (List.mem_cons_self _ _)
    have hset : setInsert st.gSyms (some (GObj.term t))
        = st.gSyms ++ [some (GObj.term t)] := by
      unfold setInsert
      rw [if_neg hm]
    rw [hset]
    have hinv' := engInv_add_fresh ps seeds st (some (GObj.term t)) hinv hm
      (Or.inr ⟨GObj.term t, rfl, hgen t (List.mem_cons_self _ _)⟩)
    have hfresh' : ∀ u ∈ ts,
        (some (GObj.term u) : ESym) ∉ st.gSyms ++ [some (GObj.term t)] := by
      intro u hu hc
      rcases List.mem_append.mp hc with hc | hc
      · exact hfresh u (List.mem_cons_of_mem _ hu) hc
      · simp only [List.mem_singleton, Option.some.injEq, GObj.term.injEq] at hc
        rw [List.nodup_cons] at hnd
        exact hnd.1 (hc ▸ hu)
    rcases ih _ hinv' (List.nodup_cons.mp hnd).2 hfresh'
      (fun u hu => hgen u (List.mem_cons_of_mem _ hu)) with ⟨q1, q2, q3⟩
    refine ⟨q1, ?_, ?_⟩
    · intro u hu
      rcases List.mem_cons.mp hu with rfl | hu
      · exact q3 _ (List.mem_append.mpr (Or.inr (by simp)))
      · exact q2 u hu
    · intro x hx
      exact q3 x (List.mem_append.mpr (Or.inl hx))

/-- After seeding, the invariant holds (empty ghost lists), the empty-body
heads and — for the generating analysis — the terminals are in the working
set. -/
theorem engSeed_inv (g : Cfg) (hwf : g.WF) :
    EngInv g.prods (g.terms.map GObj.term)
      (engSeed g (setImpactsAndRemaining g.prods)
        (setImpactsAndRemaining g.prods).remaining false) [] [] ∧
    (∀ h ∈ (setImpactsAndRemaining g.prods).added,
      (some (GObj.var h) : ESym) ∈ (engSeed g (setImpactsAndRemaining g.prods)
        (setImpactsAndRemaining g.prods).remaining false).gSyms) ∧
    (∀ t ∈ g.terms,
      (some (GObj.term t) : ESym) ∈ (engSeed g (setImpactsAndRemaining g.prods)
        (setImpactsAndRemaining g.prods).remaining false).gSyms) := by
  have hst0 := engSeed_st0_inv g.prods (g.terms.map GObj.term)
  have hadd : ∀ h ∈ (setImpactsAndRemaining g.prods).added,
      ∃ p ∈ g.prods, p.head = h ∧ p.body = [] :=
    fun h hh => (added_spec g.prods h).mp hh
  have hgv0 : ∀ x ∈ ([(none : ESym)] : List ESym),
      x = none ∨ ∃ v, x = some (GObj.var v) := by
    intro x hx
    simp only [List.mem_singleton] at hx
    exact Or.inl hx
  rcases engSeed_added_fold g.prods (g.terms.map GObj.term)
    (setImpactsAndRemaining g.prods).added hadd
    ⟨[none], [none], (setImpactsAndRemaining g.prods).remaining, []⟩ hst0 hgv0
    with ⟨q1, q2, q3, _⟩
  have hfresh : ∀ t ∈ g.terms, (some (GObj.term t) : ESym) ∉
      ((setImpactsAndRemaining g.prods).added.foldl (fun (st : EngSt) (h : String) =>
        if (some (GObj.var h) : ESym) ∈ st.gSyms then st
        else { st with gSyms := st.gSyms ++ [some (GObj.var h)],
                       stack := some (GObj.var h) :: st.stack })
        (⟨[none], [none], (setImpactsAndRemaining g.prods).remaining, []⟩ : EngSt)).gSyms := by
    intro t _ hc
    rcases q2 _ hc with h | ⟨v, hv⟩
    · simp at h
    · simp at hv
  have hgenterms : ∀ t ∈ g.terms,
      GenSym g.prods (g.terms.map GObj.term) (GObj.term t) := by
    intro t ht
    exact GenSym.seed _ (List.mem_map.mpr ⟨t, ht, rfl⟩)
  rcases engSeed_terms_fold g.prods (g.terms.map GObj.term) g.terms _ q1
    hwf.2.2.2 hfresh hgenterms with ⟨r1, r2, r3⟩
  exact ⟨r1, fun h hh => r3 _ (q3 h hh), r2⟩

theorem engLoop_stack_nil (imp : List (GObj × List (String × Nat)))
    (fuel : Nat) (st : EngSt) (h : st.stack = []) :
    engLoop imp fuel st = st := by
  cases fuel with
  | zero => rfl
  | succ fuel =>
    rw [engLoop, h]

theorem filter_drop_many {α : Type} [DecidableEq α] (U : List α) :
    ∀ (nl G : List α), (G ++ nl).Nodup → (∀ x ∈ nl, x ∈ U) →
      (U.filter (fun z => z ∉ G ++ nl)).length + nl.length ≤
      (U.filter (fun z => z ∉ G)).length := by
  intro nl
  induction nl with
  | nil => intro G _ _
           simp
  | cons x nl ih =>
    intro G hnd hm
    have hxG : x ∉ G := by
      rw [List.nodup_append] at hnd
      intro hc
      exact hnd.2.2 hc (List.mem_cons_self _ _)
    have h1 := filter_length_drop_one U G x (hm x (List.mem_cons_self _ _)) hxG
    have hnd2 : ((G ++ [x]) ++ nl).Nodup := by
      rw [List.append_assoc, List.singleton_append]
      exact hnd
    have h2 := ih (G ++ [x]) hnd2 (fun y hy => hm y (List.mem_cons_of_mem _ hy))
    have hre : (U.filter (fun z => z ∉ G ++ x :: nl)).length
        = (U.filter (fun z => z ∉ (G ++ [x]) ++ nl)).length := by
      congr 1
      refine List.filter_congr ?_
      intro z _
      rw [List.append_assoc, List.singleton_append]
    rw [hre]
    simp only [List.length_cons]
    omega

theorem notMemFilterLen_drop {α : Type} [DecidableEq α] (U : List α)
    (nl G : List α) (hnd : (G ++ nl).Nodup) (hm : ∀ x ∈ nl, x ∈ U) :
    notMemFilterLen U (G ++ nl) + nl.length ≤ notMemFilterLen U G := by
  unfold notMemFilterLen
  exact filter_drop_many U nl G hnd hm

theorem notMemFilterLen_le {α : Type} [DecidableEq α] (U G : List α) :
    notMemFilterLen U G ≤ U.length := List.length_filter_le _ _

theorem engLoop_master (ps : List Production) (seeds : List GObj) :
    ∀ (fuel : Nat) (st : EngSt) (proc : List ESym),
      EngInv ps seeds st proc [] →
      st.stack.length
        + notMemFilterLen
            ((impactHeads (setImpactsAndRemaining ps).impacts).map
              (fun v => (some v : ESym))) st.gSyms < fuel →
      ∃ proc2 : List ESym,
        EngInv ps seeds
          (engLoop (setImpactsAndRemaining ps).impacts fuel st) proc2 [] ∧
        (engLoop (setImpactsAndRemaining ps).impacts fuel st).stack = [] ∧
        ∀ x ∈ st.gSyms,
          x ∈ (engLoop (setImpactsAndRemaining ps).impacts fuel st).gSyms := by
  intro fuel
  induction fuel with
  | zero =>
    intro st proc hinv hfuel
    omega
  | succ fuel ih =>
    intro st proc hinv hfuel
    obtain ⟨h1, h2, h3, h4, h5, h6, h7, h8, h9⟩ := hinv
    rw [engLoop]
    cases hstk : st.stack with
    | nil =>
      refine ⟨proc, ?_, hstk, fun x hx => hx⟩
      exact ⟨h1, h2, h3, h4, h5, h6, h7, h8, h9⟩
    | cons c rest =>
      have hcmem : c ∈ st.gSyms := h2 c (by rw [hstk]; simp)
      have hcproc : c ∉ rest ++ proc := by
        have h5' : ((c :: rest) ++ proc).Nodup := by rw [← hstk]; exact h5
        rw [List.cons_append, List.nodup_cons] at h5'
        exact h5'.1
      have hnd_rp : (rest ++ proc).Nodup := by
        have h5' : ((c :: rest) ++ proc).Nodup := by rw [← hstk]; exact h5
        rw [List.cons_append, List.nodup_cons] at h5'
        exact h5'.2
      -- the invariant for the popped state with the pending impact entries
      have hmid : EngInv ps seeds { st with stack := rest } (proc ++ [c])
          (impLookup (setImpactsAndRemaining ps).impacts c) := by
        refine ⟨h1, ?_, ?_, ?_, ?_, h6, h7, h8, ?_⟩
        · intro x hx
          exact h2 x (by rw [hstk]; exact List.mem_cons_of_mem _ hx)
        · intro x hx
          rcases List.mem_append.mp hx with hx | hx
          · exact h3 x hx
          · simp only [List.mem_singleton] at hx
            subst hx
            exact hcmem
        · intro x hx
          rcases h4 x hx with hx2 | hx2
          · exact Or.inl (List.mem_append.mpr (Or.inl hx2))
          · rw [hstk] at hx2
            rcases List.mem_cons.mp hx2 with rfl | hx2
            · exact Or.inl (List.mem_append.mpr (Or.inr (by simp)))
            · exact Or.inr hx2
        · show (rest ++ (proc ++ [c])).Nodup
          have hperm : ((rest ++ proc) ++ [c]).Perm (c :: (rest ++ proc)) :=
            List.perm_append_singleton _ _
          have : ((rest ++ proc) ++ [c]).Nodup := by
            refine (List.Perm.nodup_iff hperm).mpr ?_
            rw [List.nodup_cons]
            exact ⟨hcproc, hnd_rp⟩
          rw [← List.append_assoc]
          exact this
        · intro h i hvalid hnot
          have h9' := h9 h i hvalid hnot
          cases c with
          | none =>
            have hcp : countProc (proc ++ [(none : ESym)]) (slotBody ps h i)
                = countProc proc (slotBody ps h i) := countProc_append_none _ _
            show ((alookup st.rem h).getD []).getD i 0
                = ((slotBody ps h i).length : Int)
                  - countProc (proc ++ [(none : ESym)]) (slotBody ps h i)
                  + List.count (h, i) ([] : List (String × Nat)) ∧
              (0 : Int) < ((alookup st.rem h).getD []).getD i 0
            rw [hcp]
            simpa using h9'
          | some s =>
            have hsnp : (some s : ESym) ∉ proc := by
              intro hc
              exact hcproc (List.mem_append.mpr (Or.inr hc))
            have hcp := countProc_append_some proc s (slotBody ps h i) hsnp
            have hcnt := (setImpacts_spec ps).2 s (h, i)
            rw [if_pos (by simpa using hvalid)] at hcnt
            show ((alookup st.rem h).getD []).getD i 0
                = ((slotBody ps h i).length : Int)
                  - countProc (proc ++ [(some s : ESym)]) (slotBody ps h i)
                  + List.count (h, i)
                      ((alookup (setImpactsAndRemaining ps).impacts s).getD []) ∧
              (0 : Int) < ((alookup st.rem h).getD []).getD i 0
            rw [hcp, hcnt]
            constructor
            · rw [h9'.1]
              simp only [List.count_nil]
              push_cast
              ring
            · exact h9'.2
      have hentok : ∀ e ∈ impLookup (setImpactsAndRemaining ps).impacts c,
          e.2 < (headSlots ps e.1).length := by
        intro e he
        cases c with
        | none => simp [impLookup] at he
        | some s =>
          have := (setImpacts_impacts_mem ps s e).mp he
          exact this.1
      have hinv2 := procImpacts_inv ps seeds _ _ _ hmid hentok
      rcases procImpacts_push (impLookup (setImpactsAndRemaining ps).impacts c)
        { st with stack := rest } with ⟨nl, hg, hs, hmems⟩
      have hnd2 : (st.gSyms ++ nl).Nodup := by
        have := hinv2.1
        rw [hg] at this
        exact this
      have hnlU : ∀ x ∈ nl, x ∈ (impactHeads (setImpactsAndRemaining ps).impacts).map
          (fun v => (some v : ESym)) := by
        intro x hx
        rcases hmems x hx with ⟨_, e, he, rfl⟩
        refine List.mem_map.mpr ⟨GObj.var e.1, ?_, rfl⟩
        cases c with
        | none => simp [impLookup] at he
        | some s => exact mem_impactHeads _ s e he
      have hdrop := notMemFilterLen_drop
        ((impactHeads (setImpactsAndRemaining ps).impacts).map
          (fun v => (some v : ESym))) nl st.gSyms hnd2 hnlU
      have hfuel2 : (procImpacts
            (impLookup (setImpactsAndRemaining ps).impacts c)
            { st with stack := rest }).stack.length
          + notMemFilterLen
              ((impactHeads (setImpactsAndRemaining ps).impacts).map
                (fun v => (some v : ESym)))
              (procImpacts
                (impLookup (setImpactsAndRemaining ps).impacts c)
                { st with stack := rest }).gSyms < fuel := by
        have hss2 : (procImpacts
            (impLookup (setImpactsAndRemaining ps).impacts c)
            { st with stack := rest }).stack = nl.reverse ++ rest := by
          rw [hs]
        have hgs2 : (procImpacts
            (impLookup (setImpactsAndRemaining ps).impacts c)
            { st with stack := rest }).gSyms = st.gSyms ++ nl := by
          rw [hg]
        rw [hss2, hgs2]
        rw [List.length_append, List.length_reverse]
        have hstlen : st.stack.length = rest.length + 1 := by
          rw [hstk]
          simp
        rw [hstlen] at hfuel
        omega
      rcases ih _ _ hinv2 hfuel2 with ⟨proc2, hq1, hq2, hq3⟩
      refine ⟨proc2, hq1, hq2, ?_⟩
      intro x hx
      refine hq3 x ?_
      rw [hg]
      exact List.mem_append.mpr (Or.inl hx)

theorem mem_filterMap_id {α : Type} (l : List (Option α)) (x : α) :
    x ∈ l.filterMap id ↔ some x ∈ l := by
  rw [List.mem_filterMap]
  constructor
  · rintro ⟨a, ha, rfl⟩
    exact ha
  · intro h
    exact ⟨some x, h, rfl⟩

/-- `get_generating_symbols` computes exactly the least fixed point
`GenSym` (seeded by the terminals), without duplicates. -/
theorem getGeneratingSymbols_spec (g : Cfg) (hwf : g.WF) :
    (∀ s, s ∈ getGeneratingSymbols g ↔
      GenSym g.prods (g.terms.map GObj.term) s) ∧
    (getGeneratingSymbols g).Nodup := by
  rcases engSeed_inv g hwf with ⟨hseed, haddedin, hseedin⟩
  have hrun : runEngineSt g (setImpactsAndRemaining g.prods).remaining false
      = engLoop (setImpactsAndRemaining g.prods).impacts
        ((engSeed g (setImpactsAndRemaining g.prods)
          (setImpactsAndRemaining g.prods).remaining false).stack.length
          + (impactHeads (setImpactsAndRemaining g.prods).impacts).length + 1)
        (engSeed g (setImpactsAndRemaining g.prods)
          (setImpactsAndRemaining g.prods).remaining false) := rfl
  have hfuel : (engSeed g (setImpactsAndRemaining g.prods)
        (setImpactsAndRemaining g.prods).remaining false).stack.length
      + notMemFilterLen
          ((impactHeads (setImpactsAndRemaining g.prods).impacts).map
            (fun v => (some v : ESym)))
          (engSeed g (setImpactsAndRemaining g.prods)
            (setImpactsAndRemaining g.prods).remaining false).gSyms
      < (engSeed g (setImpactsAndRemaining g.prods)
          (setImpactsAndRemaining g.prods).remaining false).stack.length
        + (impactHeads (setImpactsAndRemaining g.prods).impacts).length + 1 := by
    have h1 : notMemFilterLen
        ((impactHeads (setImpactsAndRemaining g.prods).impacts).map
          (fun v => (some v : ESym)))
        (engSeed g (setImpactsAndRemaining g.prods)
          (setImpactsAndRemaining g.prods).remaining false).gSyms
        ≤ (impactHeads (setImpactsAndRemaining g.prods).impacts).length := by
      have h2 := notMemFilterLen_le
        ((impactHeads (setImpactsAndRemaining g.prods).impacts).map
          (fun v => (some v : ESym)))
        (engSeed g (setImpactsAndRemaining g.prods)
          (setImpactsAndRemaining g.prods).remaining false).gSyms
      rwa [List.length_map] at h2
    omega
  rcases engLoop_master g.prods (g.terms.map GObj.term) _ _ [] hseed hfuel
    with ⟨proc2, hfin, hstk, hmono⟩
  obtain ⟨f1, f2, f3, f4, f5, f6, f7, f8, f9⟩ := hfin
  have hgs : getGeneratingSymbols g
      = (runEngineSt g (setImpactsAndRemaining g.prods).remaining false).gSyms.filterMap id := rfl
  constructor
  · intro s
    rw [hgs, mem_filterMap_id, hrun]
    constructor
    · intro hmem
      rcases f6 _ hmem with hnone | ⟨s', hs', hgen⟩
      · exact absurd hnone (by simp)
      · cases hs'
        exact hgen
    · intro hgen
      induction hgen with
      | seed s hs =>
        rcases List.mem_map.mp hs with ⟨t, ht, rfl⟩
        rw [← hrun]
        exact hmono _ (hseedin t ht)
      | step p hp hbody ih =>
        by_cases hb : p.body = []
        · rw [← hrun]
          refine hmono _ (haddedin p.head ?_)
          exact (added_spec g.prods p.head).mpr ⟨p, hp, rfl, hb⟩
        · by_contra hnot
          have hpfilter : p ∈ headSlots g.prods p.head := by
            unfold headSlots
            rw [List.mem_filter]
            exact ⟨hp, by simp [hb]⟩
          rcases List.mem_iff_getElem.mp hpfilter with ⟨i, hi, hieq⟩
          have hsb : slotBody g.prods p.head i = p.body := by
            unfold slotBody
            rw [List.getD_eq_getElem _ _ hi, hieq]
          have h9' := f9 p.head i hi hnot
          have hall : ∀ s ∈ slotBody g.prods p.head i, (some s : ESym) ∈ proc2 := by
            intro s hs
            rw [hsb] at hs
            have hsg := ih s hs
            rcases f4 _ hsg with h | h
            · exact h
            · rw [hstk] at h
              simp at h
          have hfull := countProc_full proc2 _ hall
          rw [hfull] at h9'
          have := h9'.1
          rw [this] at h9'
          simp at h9'
  · rw [hgs]
    refine List.Nodup.filterMap ?_ f1
    intro a a' b hb hb'
    simp only [id] at hb hb'
    rw [Option.mem_def] at hb hb'
    rw [hb, hb']

/-! ## Canonical-grammar consequences -/

theorem isCanonical_parts (g : Cfg) (hc : isCanonical g = true) :
    (getNullableSymbols g).length = 0 ∧
    (getUnitPairs g).length = g.vars.length ∧
    (getGeneratingSymbols g).length = g.vars.length + g.terms.length ∧
    (getReachableSymbols g).length = g.vars.length + g.terms.length := by
  unfold isCanonical at hc
  simp only [decide_eq_true_eq, Bool.and_eq_true] at hc
  exact hc

theorem wlLoop_steps_nil {α : Type} [DecidableEq α] (univ : List α)
    (step : α → List α) :
    ∀ (fuel : Nat) (v s : List α), (∀ x ∈ s, step x = []) →
      wlLoop univ step fuel (v, s) = v := by
  intro fuel
  induction fuel with
  | zero => intro v s _
            rfl
  | succ fuel ih =>
    intro v s h
    cases s with
    | nil => rfl
    | cons c rest =>
      show wlLoop univ step fuel (wlStep univ (step c) (v, rest)) = v
      rw [h c (List.mem_cons_self _ _)]
      have hw : wlStep univ [] (v, rest) = (v, rest) := rfl
      rw [hw]
      exact ih v rest (fun x hx => h x (List.mem_cons_of_mem _ hx))

theorem wlClosure_steps_nil {α : Type} [DecidableEq α] (univ : List α)
    (step : α → List α) (init : List α)
    (h : ∀ x ∈ uniq init, step x = []) :
    wlClosure univ step init = uniq init := by
  show wlLoop univ step ((uniq init).length + univ.length + 1)
    (uniq init, (uniq init).reverse) = uniq init
  refine wlLoop_steps_nil univ step _ _ _ ?_
  intro x hx
  exact h x (List.mem_reverse.mp hx)

theorem reach_start_none (g : Cfg) (hstart : g.start = none) :
    getReachableSymbols g = [(none : Option GObj)] := by
  unfold getReachableSymbols
  dsimp only
  rw [hstart]
  simp only [Option.map_none']
  rw [wlClosure_steps_nil]
  · rfl
  · intro x hx
    have hu : uniq [(none : Option GObj)] = [none] := rfl
    rw [hu] at hx
    simp only [List.mem_singleton] at hx
    subst hx
    rfl

theorem genSym_empty_seeds (ps : List Production)
    (hne : ∀ p ∈ ps, p.body ≠ []) :
    ∀ s, GenSym ps [] s → False := by
  intro s hgen
  induction hgen with
  | seed s hs => simp at hs
  | step p hp hbody ih =>
    rcases List.exists_mem_of_ne_nil p.body (hne p hp) with ⟨x, hx⟩
    exact ih x hx

theorem varTermObjs_nodup (g : Cfg) (hwf : g.WF) :
    (g.vars.map GObj.var ++ g.terms.map GObj.term).Nodup := by
  rw [List.nodup_append]
  refine ⟨hwf.2.2.1.map (fun a b h => GObj.var.inj h),
    hwf.2.2.2.map (fun a b h => GObj.term.inj h), ?_⟩
  intro a ha hb
  rcases List.mem_map.mp ha with ⟨v, _, rfl⟩
  rcases List.mem_map.mp hb with ⟨t, _, hvt⟩
  exact absurd hvt (by simp)

theorem mem_of_superset_count {α : Type} [DecidableEq α] (l U : List α)
    (hln : l.Nodup) (hUn : U.Nodup) (hsub : ∀ x ∈ l, x ∈ U)
    (hlen : U.length ≤ l.length) : ∀ x ∈ U, x ∈ l := by
  have hsubF : l.toFinset ⊆ U.toFinset := by
    intro x hx
    rw [List.mem_toFinset] at hx ⊢
    exact hsub x hx
  have hcard : U.toFinset.card ≤ l.toFinset.card := by
    rw [List.toFinset_card_of_nodup hUn, List.toFinset_card_of_nodup hln]
    exact hlen
  have heq := Finset.eq_of_subset_of_card_le hsubF hcard
  intro x hx
  have : x ∈ U.toFinset := List.mem_toFinset.mpr hx
  rw [← heq, List.mem_toFinset] at this
  exact this

theorem start_some_of_canonical (g : Cfg) (hwf : g.WF)
    (hcan : isCanonical g = true) (hne : g.prods ≠ []) :
    ∃ s, g.start = some s := by
  cases hst : g.start with
  | some s => exact ⟨s, rfl⟩
  | none =>
    exfalso
    have hparts := isCanonical_parts g hcan
    have hreach := reach_start_none g hst
    have h4 := hparts.2.2.2
    rw [hreach] at h4
    simp only [List.length_singleton] at h4
    rcases List.exists_mem_of_ne_nil g.prods hne with ⟨p, hp⟩
    have hv : p.head ∈ g.vars := (hwf.1 p hp).1
    have hvpos : 1 ≤ g.vars.length := List.length_pos.mpr (List.ne_nil_of_mem hv)
    have hterms0 : g.terms.length = 0 := by omega
    have htermsnil : g.terms = [] := List.length_eq_zero.mp hterms0
    have hnoempty : ∀ q ∈ g.prods, q.body ≠ [] :=
      fun q hq => no_empty_body_of_canonical g hcan q hq
    have hgenspec := getGeneratingSymbols_spec g hwf
    have hgennil : getGeneratingSymbols g = [] := by
      cases hgl : getGeneratingSymbols g with
      | nil => rfl
      | cons x xs =>
        exfalso
        have hx : x ∈ getGeneratingSymbols g := by rw [hgl]; simp
        have hgen := (hgenspec.1 x).mp hx
        rw [htermsnil] at hgen
        exact genSym_empty_seeds g.prods hnoempty x hgen
    have h3 := hparts.2.2.1
    rw [hgennil] at h3
    simp only [List.length_nil] at h3
    omega

/-- In a canonical well-formed grammar, every variable is generating (in
the `GenSym` sense) and every variable and terminal is reachable. -/
theorem all_generating_of_canonical (g : Cfg) (hwf : g.WF)
    (hcan : isCanonical g = true) :
    ∀ v ∈ g.vars, GenSym g.prods (g.terms.map GObj.term) (GObj.var v) := by
  have hspec := getGeneratingSymbols_spec g hwf
  have hsub : ∀ x ∈ getGeneratingSymbols g,
      x ∈ g.vars.map GObj.var ++ g.terms.map GObj.term := by
    intro x hx
    have hgen := (hspec.1 x).mp hx
    cases hgen with
    | seed s hs => exact List.mem_append.mpr (Or.inr hs)
    | step p hp _ =>
      exact List.mem_append.mpr
        (Or.inl (List.mem_map.mpr ⟨p.head, (hwf.1 p hp).1, rfl⟩))
  have hlen : (g.vars.map GObj.var ++ g.terms.map GObj.term).length
      ≤ (getGeneratingSymbols g).length := by
    rw [List.length_append, List.length_map, List.length_map,
      (isCanonical_parts g hcan).2.2.1]
  have hmem := mem_of_superset_count _ _ hspec.2 (varTermObjs_nodup g hwf)
    hsub hlen
  intro v hv
  have : GObj.var v ∈ getGeneratingSymbols g :=
    hmem _ (List.mem_append.mpr (Or.inl (List.mem_map.mpr ⟨v, hv, rfl⟩)))
  exact (hspec.1 _).mp this

theorem getReachableSymbols_nodup (g : Cfg) :
    (getReachableSymbols g).Nodup := by
  unfold getReachableSymbols
  exact wlClosure_nodup _ _ _

theorem all_reachable_of_canonical (g : Cfg) (hwf : g.WF)
    (hcan : isCanonical g = true) (hne : g.prods ≠ []) :
    (∀ v ∈ g.vars, some (GObj.var v) ∈ getReachableSymbols g) ∧
    (∀ t ∈ g.terms, some (GObj.term t) ∈ getReachableSymbols g) := by
  rcases start_some_of_canonical g hwf hcan hne with ⟨s0, hs0⟩
  have hs0v : s0 ∈ g.vars := hwf.2.1 s0 hs0
  have hsub : ∀ x ∈ getReachableSymbols g,
      x ∈ (g.vars.map GObj.var ++ g.terms.map GObj.term).map some := by
    intro x hx
    rcases getReachableSymbols_bound g x hx with h | ⟨p, hp, b, hb, rfl⟩
    · rw [hs0] at h
      subst h
      refine List.mem_map.mpr ⟨GObj.var s0, ?_, rfl⟩
      exact List.mem_append.mpr (Or.inl (List.mem_map.mpr ⟨s0, hs0v, rfl⟩))
    · refine List.mem_map.mpr ⟨b, ?_, rfl⟩
      have hok := (hwf.1 p hp).2 b hb
      cases b with
      | var v =>
        exact List.mem_append.mpr (Or.inl (List.mem_map.mpr ⟨v, hok, rfl⟩))
      | term t =>
        exact List.mem_append.mpr (Or.inr (List.mem_map.mpr ⟨t, hok, rfl⟩))
  have hUnd : ((g.vars.map GObj.var ++ g.terms.map GObj.term).map some).Nodup :=
    (varTermObjs_nodup g hwf).map (fun a b h => Option.some.inj h)
  have hlen : ((g.vars.map GObj.var ++ g.terms.map GObj.term).map some).length
      ≤ (getReachableSymbols g).length := by
    rw [List.length_map, List.length_append, List.length_map, List.length_map,
      (isCanonical_parts g hcan).2.2.2]
  have hmem := mem_of_superset_count _ _ (getReachableSymbols_nodup g) hUnd
    hsub hlen
  constructor
  · intro v hv
    refine hmem _ (List.mem_map.mpr ⟨GObj.var v, ?_, rfl⟩)
    exact List.mem_append.mpr (Or.inl (List.mem_map.mpr ⟨v, hv, rfl⟩))
  · intro t ht
    refine hmem _ (List.mem_map.mpr ⟨GObj.term t, ?_, rfl⟩)
    exact List.mem_append.mpr (Or.inr (List.mem_map.mpr ⟨t, ht, rfl⟩))

/-! ## `get_nullable_symbols` on grammars without empty bodies -/

theorem engLoop_none_start (imp : List (GObj × List (String × Nat)))
    (rem : List (String × List Int)) (fuel : Nat) :
    engLoop imp (fuel + 1) ⟨[none], [none], rem, []⟩ = ⟨[none], [], rem, []⟩ := by
  show engLoop imp fuel (procImpacts (impLookup imp none) ⟨[none], [], rem, []⟩)
    = (⟨[none], [], rem, []⟩ : EngSt)
  exact engLoop_stack_nil imp fuel _ rfl

theorem nullable_empty_of_no_empty (g : Cfg)
    (hne : ∀ p ∈ g.prods, p.body ≠ []) : getNullableSymbols g = [] := by
  have hadded : (setImpactsAndRemaining g.prods).added = [] := by
    rw [List.eq_nil_iff_forall_not_mem]
    intro h hc
    rcases (added_spec g.prods h).mp hc with ⟨p, hp, _, hb⟩
    exact hne p hp hb
  have hseed : engSeed g (setImpactsAndRemaining g.prods)
      (setImpactsAndRemaining g.prods).remaining true
      = ⟨[none], [none], (setImpactsAndRemaining g.prods).remaining, []⟩ := by
    unfold engSeed
    rw [hadded]
    rfl
  unfold getNullableSymbols runEngine runEngineSt
  dsimp only
  rw [hseed, engLoop_none_start]
  rfl

/-! ## Structure of `_get_productions_with_only_single_terminals` -/

theorem bodyRepl_map (ts : List String) :
    ∀ (body : List GObj) (bu : List GObj × List String),
      (body.foldl (fun (bu : List GObj × List String) s =>
        match s with
        | GObj.term t =>
          if t ∈ ts then (bu.1 ++ [GObj.var (termToVarName t)], setInsert bu.2 t)
          else (bu.1 ++ [s], bu.2)
        | GObj.var _ => (bu.1 ++ [s], bu.2)) bu).1
      = bu.1 ++ body.map (termReplFun ts) := by
  intro body
  induction body with
  | nil => intro bu
           simp
  | cons s body ih =>
    intro bu
    rw [List.foldl_cons, List.map_cons]
    cases s with
    | term t =>
      by_cases ht : t ∈ ts
      · simp only [ht, if_true]
        rw [ih]
        simp [termReplFun, ht]
      · simp only [ht, if_false]
        rw [ih]
        simp [termReplFun, ht]
    | var v =>
      rw [ih]
      simp [termReplFun]

theorem bodyRepl_used (ts : List String) :
    ∀ (body : List GObj) (bu : List GObj × List String) (t : String),
      (t ∈ (body.foldl (fun (bu : List GObj × List String) s =>
        match s with
        | GObj.term t =>
          if t ∈ ts then (bu.1 ++ [GObj.var (termToVarName t)], setInsert bu.2 t)
          else (bu.1 ++ [s], bu.2)
        | GObj.var _ => (bu.1 ++ [s], bu.2)) bu).2
      ↔ t ∈ bu.2 ∨ (GObj.term t ∈ body ∧ t ∈ ts)) := by
  intro body
  induction body with
  | nil => intro bu t
           simp
  | cons s body ih =>
    intro bu t
    rw [List.foldl_cons]
    cases s with
    | term u =>
      by_cases hu : u ∈ ts
      · simp only [hu, if_true]
        rw [ih]
        simp only [mem_setInsert]
        constructor
        · rintro ((h | rfl) | ⟨h1, h2⟩)
          · exact Or.inl h
          · exact Or.inr ⟨by simp, hu⟩
          · exact Or.inr ⟨List.mem_cons_of_mem _ h1, h2⟩
        · rintro (h | ⟨h1, h2⟩)
          · exact Or.inl (Or.inl h)
          · rcases List.mem_cons.mp h1 with heq | h1
            · rw [GObj.term.inj heq] at h2 ⊢
              exact Or.inl (Or.inr rfl)
            · exact Or.inr ⟨h1, h2⟩
      · simp only [hu, if_false]
        rw [ih]
        constructor
        · rintro (h | ⟨h1, h2⟩)
          · exact Or.inl h
          · exact Or.inr ⟨List.mem_cons_of_mem _ h1, h2⟩
        · rintro (h | ⟨h1, h2⟩)
          · exact Or.inl h
          · rcases List.mem_cons.mp h1 with heq | h1
            · rw [GObj.term.inj heq] at h2
              exact absurd h2 hu
            · exact Or.inr ⟨h1, h2⟩
    | var v =>
      rw [ih]
      constructor
      · rintro (h | ⟨h1, h2⟩)
        · exact Or.inl h
        · exact Or.inr ⟨List.mem_cons_of_mem _ h1, h2⟩
      · rintro (h | ⟨h1, h2⟩)
        · exact Or.inl h
        · rcases List.mem_cons.mp h1 with heq | h1
          · exact absurd heq (by simp)
          · exact Or.inr ⟨h1, h2⟩

theorem stFold_char (g : Cfg) :
    ∀ (l : List Production) (acc : List Production × List String),
      ((l.foldl (fun (acc : List Production × List String) p =>
        if p.body.length = 1 then (acc.1 ++ [p], acc.2)
        else
          let folded := p.body.foldl (fun (bu : List GObj × List String) s =>
            match s with
            | GObj.term t =>
              if t ∈ g.terms then
                (bu.1 ++ [GObj.var (termToVarName t)], setInsert bu.2 t)
              else (bu.1 ++ [s], bu.2)
            | GObj.var _ => (bu.1 ++ [s], bu.2)) ([], acc.2)
          (acc.1 ++ [Production.mk p.head folded.1], folded.2)) acc).1
      = acc.1 ++ l.map (fun p => if p.body.length = 1 then p
          else Production.mk p.head (p.body.map (termReplFun g.terms)))) ∧
      (∀ t, t ∈ (l.foldl (fun (acc : List Production × List String) p =>
        if p.body.length = 1 then (acc.1 ++ [p], acc.2)
        else
          let folded := p.body.foldl (fun (bu : List GObj × List String) s =>
            match s with
            | GObj.term t =>
              if t ∈ g.terms then
                (bu.1 ++ [GObj.var (termToVarName t)], setInsert bu.2 t)
              else (bu.1 ++ [s], bu.2)
            | GObj.var _ => (bu.1 ++ [s], bu.2)) ([], acc.2)
          (acc.1 ++ [Production.mk p.head folded.1], folded.2)) acc).2 ↔
        t ∈ acc.2 ∨
          ∃ p ∈ l, p.body.length ≠ 1 ∧ GObj.term t ∈ p.body ∧ t ∈ g.terms) := by
  intro l
  induction l with
  | nil => intro acc
           constructor
           · simp
           · intro t
             simp
  | cons p l ih =>
    intro acc
    by_cases hp1 : p.body.length = 1
    · constructor
      · rw [List.foldl_cons]
        simp only [hp1, if_true]
        rw [(ih _).1]
        simp only [List.map_cons, hp1, if_true]
        rw [List.append_assoc, List.singleton_append]
      · intro t
        rw [List.foldl_cons]
        simp only [hp1, if_true]
        rw [(ih _).2 t]
        constructor
        · rintro (h | ⟨q, hq, hrest⟩)
          · exact Or.inl h
          · exact Or.inr ⟨q, List.mem_cons_of_mem _ hq, hrest⟩
        · rintro (h | ⟨q, hq, hrest⟩)
          · exact Or.inl h
          · rcases List.mem_cons.mp hq with rfl | hq
            · exact absurd hp1 hrest.1
            · exact Or.inr ⟨q, hq, hrest⟩
    · have hfold1 : (p.body.foldl (fun (bu : List GObj × List String) s =>
          match s with
          | GObj.term t =>
            if t ∈ g.terms then
              (bu.1 ++ [GObj.var (termToVarName t)], setInsert bu.2 t)
            else (bu.1 ++ [s], bu.2)
          | GObj.var _ => (bu.1 ++ [s], bu.2)) ([], acc.2)).1
          = p.body.map (termReplFun g.terms) := by
        rw [bodyRepl_map g.terms p.body ([], acc.2)]
        rfl
      constructor
      · rw [List.foldl_cons]
        simp only [hp1, if_false]
        rw [(ih _).1]
        simp only [List.map_cons, hp1, if_false]
        rw [hfold1, List.append_assoc, List.singleton_append]
      · intro t
        rw [List.foldl_cons]
        simp only [hp1, if_false]
        rw [(ih _).2 t]
        have hused := bodyRepl_used g.terms p.body ([], acc.2) t
        constructor
        · rintro (h | ⟨q, hq, hrest⟩)
          · rcases hused.mp h with h2 | ⟨h2, h3⟩
            · exact Or.inl h2
            · exact Or.inr ⟨p, List.mem_cons_self _ _, hp1, h2, h3⟩
          · exact Or.inr ⟨q, List.mem_cons_of_mem _ hq, hrest⟩
        · rintro (h | ⟨q, hq, hrest⟩)
          · exact Or.inl (hused.mpr (Or.inl h))
          · rcases List.mem_cons.mp hq with rfl | hq
            · exact Or.inl (hused.mpr (Or.inr ⟨hrest.2.1, hrest.2.2⟩))
            · exact Or.inr ⟨q, hq, hrest⟩

theorem singleTerminals_char (g : Cfg) (q : Production) :
    q ∈ getProductionsWithOnlySingleTerminals g ↔
      (∃ p ∈ g.prods, p.body.length = 1 ∧ q = p) ∨
      (∃ p ∈ g.prods, p.body.length ≠ 1 ∧
        q = Production.mk p.head (p.body.map (termReplFun g.terms))) ∨
      (∃ t, (∃ p ∈ g.prods, p.body.length ≠ 1 ∧ GObj.term t ∈ p.body ∧
          t ∈ g.terms) ∧
        q = Production.mk (termToVarName t) [GObj.term t]) := by
  unfold getProductionsWithOnlySingleTerminals
  dsimp only
  rw [List.mem_append]
  have hch := stFold_char g g.prods ([], [])
  constructor
  · rintro (h | h)
    · rw [hch.1] at h
      simp only [List.nil_append] at h
      rcases List.mem_map.mp h with ⟨p, hp, heq⟩
      by_cases hp1 : p.body.length = 1
      · rw [if_pos hp1] at heq
        exact Or.inl ⟨p, hp, hp1, heq.symm⟩
      · rw [if_neg hp1] at heq
        exact Or.inr (Or.inl ⟨p, hp, hp1, heq.symm⟩)
    · rcases List.mem_map.mp h with ⟨t, ht, heq⟩
      rw [hch.2 t] at ht
      simp only [List.not_mem_nil, false_or] at ht
      exact Or.inr (Or.inr ⟨t, ht, heq.symm⟩)
  · rintro (⟨p, hp, hp1, hq⟩ | ⟨p, hp, hp1, hq⟩ | ⟨t, ht, hq⟩)
    · refine Or.inl ?_
      rw [hch.1]
      simp only [List.nil_append]
      refine List.mem_map.mpr ⟨p, hp, ?_⟩
      dsimp only
      rw [if_pos hp1, hq]
    · refine Or.inl ?_
      rw [hch.1]
      simp only [List.nil_append]
      refine List.mem_map.mpr ⟨p, hp, ?_⟩
      dsimp only
      rw [if_neg hp1, hq]
    · refine Or.inr ?_
      refine List.mem_map.mpr ⟨t, ?_, hq.symm⟩
      rw [hch.2 t]
      simp only [List.not_mem_nil, false_or]
      exact ht

/-! ## Structure of the binarisation walk -/

theorem getD_mem_drop (body : List GObj) (i j : Nat) (d : GObj)
    (hij : i ≤ j) (hj : j < body.length) : body.getD j d ∈ body.drop i := by
  rw [List.getD_eq_getElem _ _ hj]
  have h2 : j - i < (body.drop i).length := by
    rw [List.length_drop]
    omega
  rw [List.mem_iff_getElem]
  refine ⟨j - i, h2, ?_⟩
  rw [List.getElem_drop]
  congr 1
  omega

theorem decompWalk_mono (body : List GObj) (newVar : List String) :
    ∀ (i : Nat) (head : String) (st : DecompSt),
      (∀ q ∈ st.out, q ∈ (decompWalk body newVar i head st).out) ∧
      (∀ e ∈ st.done, e ∈ (decompWalk body newVar i head st).done)
  | i, head, st => by
    rw [decompWalk]
    by_cases hi : body.length - 2 ≤ i
    · rw [if_pos hi]
      exact ⟨fun q hq => List.mem_append.mpr (Or.inl hq), fun e he => he⟩
    · rw [if_neg hi]
      dsimp only
      cases hdone : alookup st.done (body.drop (i + 1)) with
      | some v =>
        exact ⟨fun q hq => List.mem_append.mpr (Or.inl hq), fun e he => he⟩
      | none =>
        have hrec := decompWalk_mono body newVar (i + 1) (newVar.getD i "")
          { st with
            out := st.out ++ [Production.mk head
              [body.getD i (GObj.var ""), GObj.var (newVar.getD i "")]],
            done := st.done ++ [(body.drop (i + 1), newVar.getD i "")] }
        exact ⟨fun q hq => hrec.1 q (List.mem_append.mpr (Or.inl hq)),
          fun e he => hrec.2 e (List.mem_append.mpr (Or.inl he))⟩
  termination_by i _ _ => body.length - i
  decreasing_by
    simp only [not_le] at hi
    omega

theorem decompWalk_gen (body : List GObj) (newVar : List String)
    (P : GObj → Prop) (OUT : List Production)
    (Hcl : ∀ q ∈ OUT, (∀ s ∈ q.body, P s) → P (GObj.var q.head))
    (hlen : 3 ≤ body.length) :
    ∀ (i : Nat) (head : String) (st : DecompSt),
      i ≤ body.length - 2 →
      (∀ q ∈ (decompWalk body newVar i head st).out, q ∈ OUT) →
      (∀ e ∈ st.done, e.1.length ≤ body.length - i - 1 →
        (∀ s ∈ e.1, P s) → P (GObj.var e.2)) →
      ((∀ s ∈ body.drop i, P s) → P (GObj.var head)) ∧
      (∀ e ∈ (decompWalk body newVar i head st).done, e ∉ st.done →
        (∀ s ∈ e.1, P s) → P (GObj.var e.2))
  | i, head, st => by
    intro hile Hout Hdone
    rw [decompWalk] at Hout ⊢
    by_cases hi : body.length - 2 ≤ i
    · rw [if_pos hi] at Hout ⊢
      have hq0 : Production.mk head
          [body.getD (body.length - 2) (GObj.var ""),
           body.getD (body.length - 1) (GObj.var "")] ∈ OUT := by
        refine Hout _ ?_
        exact List.mem_append.mpr (Or.inr (by simp))
      constructor
      · intro hP
        refine Hcl _ hq0 ?_
        intro s hs
        rcases List.mem_cons.mp hs with rfl | hs
        · exact hP _ (getD_mem_drop body i (body.length - 2) _ (by omega)
            (by omega))
        · rcases List.mem_cons.mp hs with rfl | hs
          · exact hP _ (getD_mem_drop body i (body.length - 1) _ (by omega)
              (by omega))
          · simp at hs
      · intro e he hne
        exact absurd he hne
    · rw [if_neg hi] at Hout ⊢
      dsimp only at Hout ⊢
      cases hdone : alookup st.done (body.drop (i + 1)) with
      | some v =>
        rw [hdone] at Hout
        have hentry : (body.drop (i + 1), v) ∈ st.done :=
          alookup_mem_pairs _ _ _ hdone
        have hvp : (∀ s ∈ body.drop (i + 1), P s) → P (GObj.var v) := by
          refine Hdone _ hentry ?_
          simp only [List.length_drop]
          omega
        have hq0 : Production.mk head [body.getD i (GObj.var ""), GObj.var v]
            ∈ OUT := by
          refine Hout _ ?_
          exact List.mem_append.mpr (Or.inr (by simp))
        constructor
        · intro hP
          have hsub : ∀ s ∈ body.drop (i + 1), P s := by
            intro s hs
            refine hP s ?_
            have h1 : body.drop (i + 1) = (body.drop i).drop 1 := by
              rw [List.drop_drop]
            rw [h1] at hs
            exact List.drop_subset _ _ hs
          refine Hcl _ hq0 ?_
          intro s hs
          rcases List.mem_cons.mp hs with rfl | hs
          · exact hP _ (getD_mem_drop body i i _ (Nat.le_refl _) (by omega))
          · rcases List.mem_cons.mp hs with rfl | hs
            · exact hvp hsub
            · simp at hs
        · intro e he hne
          exact absurd he hne
      | none =>
        rw [hdone] at Hout
        have hrec := decompWalk_gen body newVar P OUT Hcl hlen (i + 1)
          (newVar.getD i "")
          { st with
            out := st.out ++ [Production.mk head
              [body.getD i (GObj.var ""), GObj.var (newVar.getD i "")]],
            done := st.done ++ [(body.drop (i + 1), newVar.getD i "")] }
          (by omega) Hout ?_
        · have hnv : (∀ s ∈ body.drop (i + 1), P s) →
              P (GObj.var (newVar.getD i "")) := hrec.1
          have hq0mem : Production.mk head
              [body.getD i (GObj.var ""), GObj.var (newVar.getD i "")] ∈ OUT := by
            refine Hout _ ?_
            refine (decompWalk_mono body newVar (i + 1) (newVar.getD i "") _).1 _ ?_
            exact List.mem_append.mpr (Or.inr (by simp))
          constructor
          · intro hP
            have hsub : ∀ s ∈ body.drop (i + 1), P s := by
              intro s hs
              refine hP s ?_
              have h1 : body.drop (i + 1) = (body.drop i).drop 1 := by
                rw [List.drop_drop]
              rw [h1] at hs
              exact List.drop_subset _ _ hs
            refine Hcl _ hq0mem ?_
            intro s hs
            rcases List.mem_cons.mp hs with rfl | hs
            · exact hP _ (getD_mem_drop body i i _ (Nat.le_refl _) (by omega))
            · rcases List.mem_cons.mp hs with rfl | hs
              · exact hnv hsub
              · simp at hs
          · intro e he hne
            by_cases heq : e = (body.drop (i + 1), newVar.getD i "")
            · subst heq
              exact hrec.1
            · refine hrec.2 e he ?_
              intro hc
              rcases List.mem_append.mp hc with hc | hc
              · exact hne hc
              · simp only [List.mem_singleton] at hc
                exact heq hc
        · intro e he helen
          rcases List.mem_append.mp he with he | he
          · refine Hdone e he ?_
            omega
          · simp only [List.mem_singleton] at he
            subst he
            simp only [List.length_drop] at helen
            omega
  termination_by i _ _ => body.length - i
  decreasing_by
    simp only [not_le] at hi
    omega

theorem mem_drop_split (body : List GObj) (i : Nat) (hi : i < body.length)
    (s : GObj) (hs : s ∈ body.drop i) :
    s = body.getD i (GObj.var "") ∨ s ∈ body.drop (i + 1) := by
  rw [List.drop_eq_getElem_cons hi] at hs
  rcases List.mem_cons.mp hs with rfl | hs
  · refine Or.inl ?_
    rw [List.getD_eq_getElem _ _ hi]
  · exact Or.inr hs

theorem decompWalk_reach (body : List GObj) (newVar : List String)
    (R : GObj → Prop) (OUT : List Production)
    (Rcl : ∀ q ∈ OUT, R (GObj.var q.head) → ∀ s ∈ q.body, R s)
    (hlen : 3 ≤ body.length) :
    ∀ (i : Nat) (head : String) (st : DecompSt),
      i ≤ body.length - 2 →
      (∀ q ∈ (decompWalk body newVar i head st).out, q ∈ OUT) →
      (∀ e ∈ st.done, e.1.length ≤ body.length - i - 1 →
        R (GObj.var e.2) → ∀ s ∈ e.1, R s) →
      (R (GObj.var head) → ∀ s ∈ body.drop i, R s) ∧
      (∀ e ∈ (decompWalk body newVar i head st).done, e ∉ st.done →
        (R (GObj.var e.2) → ∀ s ∈ e.1, R s) ∧
        (R (GObj.var head) → R (GObj.var e.2)))
  | i, head, st => by
    intro hile Hout Hdone
    rw [decompWalk] at Hout ⊢
    by_cases hi : body.length - 2 ≤ i
    · rw [if_pos hi] at Hout ⊢
      have hq0 : Production.mk head
          [body.getD (body.length - 2) (GObj.var ""),
           body.getD (body.length - 1) (GObj.var "")] ∈ OUT := by
        refine Hout _ ?_
        exact List.mem_append.mpr (Or.inr (by simp))
      constructor
      · intro hR s hs
        have hieq : i = body.length - 2 := by omega
        subst hieq
        have hball := Rcl _ hq0 hR
        rcases mem_drop_split body _ (by omega) s hs with rfl | hs2
        · exact hball _ (by simp)
        · have h1 : body.length - 2 + 1 = body.length - 1 := by omega
          rw [h1] at hs2
          rcases mem_drop_split body _ (by omega) s hs2 with rfl | hs3
          · exact hball _ (by simp)
          · have h2 : body.length - 1 + 1 = body.length := by omega
            rw [h2, List.drop_length] at hs3
            simp at hs3
      · intro e he hne
        exact absurd he hne
    · rw [if_neg hi] at Hout ⊢
      dsimp only at Hout ⊢
      cases hdone : alookup st.done (body.drop (i + 1)) with
      | some v =>
        rw [hdone] at Hout
        have hentry : (body.drop (i + 1), v) ∈ st.done :=
          alookup_mem_pairs _ _ _ hdone
        have hvp : R (GObj.var v) → ∀ s ∈ body.drop (i + 1), R s := by
          refine Hdone _ hentry ?_
          simp only [List.length_drop]
          omega
        have hq0 : Production.mk head [body.getD i (GObj.var ""), GObj.var v]
            ∈ OUT := by
          refine Hout _ ?_
          exact List.mem_append.mpr (Or.inr (by simp))
        constructor
        · intro hR s hs
          have hball := Rcl _ hq0 hR
          rcases mem_drop_split body i (by omega) s hs with rfl | hs2
          · exact hball _ (by simp)
          · exact hvp (hball (GObj.var v) (by simp)) s hs2
        · intro e he hne
          exact absurd he hne
      | none =>
        rw [hdone] at Hout
        have hrec := decompWalk_reach body newVar R OUT Rcl hlen (i + 1)
          (newVar.getD i "")
          { st with
            out := st.out ++ [Production.mk head
              [body.getD i (GObj.var ""), GObj.var (newVar.getD i "")]],
            done := st.done ++ [(body.drop (i + 1), newVar.getD i "")] }
          (by omega) Hout ?_
        · have hq0mem : Production.mk head
              [body.getD i (GObj.var ""), GObj.var (newVar.getD i "")] ∈ OUT := by
            refine Hout _ ?_
            refine (decompWalk_mono body newVar (i + 1) (newVar.getD i "") _).1 _ ?_
            exact List.mem_append.mpr (Or.inr (by simp))
          have hnv : R (GObj.var head) → R (GObj.var (newVar.getD i "")) := by
            intro hR
            exact Rcl _ hq0mem hR (GObj.var (newVar.getD i "")) (by simp)
          constructor
          · intro hR s hs
            rcases mem_drop_split body i (by omega) s hs with rfl | hs2
            · exact Rcl _ hq0mem hR _ (by simp)
            · exact hrec.1 (hnv hR) s hs2
          · intro e he hne
            by_cases heq : e = (body.drop (i + 1), newVar.getD i "")
            · subst heq
              exact ⟨fun hR => hrec.1 hR, hnv⟩
            · have hnotin : e ∉ st.done ++ [(body.drop (i + 1), newVar.getD i "")] := by
                intro hc
                rcases List.mem_append.mp hc with hc | hc
                · exact hne hc
                · simp only [List.mem_singleton] at hc
                  exact heq hc
              refine ⟨(hrec.2 e he hnotin).1, ?_⟩
              intro hR
              exact (hrec.2 e he hnotin).2 (hnv hR)
        · intro e he helen
          rcases List.mem_append.mp he with he | he
          · refine Hdone e he ?_
            omega
          · simp only [List.mem_singleton] at he
            subst he
            simp only [List.length_drop] at helen
            omega
  termination_by i _ _ => body.length - i
  decreasing_by
    simp only [not_le] at hi
    omega

theorem decomposeProductions_eq_fold (vars : List String)
    (ps : List Production) :
    decomposeProductions vars ps
      = (ps.foldl (decompStep vars) ⟨0, [], []⟩).out := rfl

theorem decompWalk_new (body : List GObj) (newVar : List String)
    (hlen : 3 ≤ body.length) :
    ∀ (i : Nat) (head : String) (st : DecompSt),
      (∀ q ∈ (decompWalk body newVar i head st).out, q ∉ st.out →
        (q.head = head ∨
          ∃ e ∈ (decompWalk body newVar i head st).done, q.head = e.2) ∧
        (∀ s ∈ q.body, s ∈ body ∨
          ∃ e ∈ (decompWalk body newVar i head st).done, s = GObj.var e.2) ∧
        (∃ x y, q.body = [x, y])) ∧
      (∀ e ∈ (decompWalk body newVar i head st).done, e ∉ st.done →
        ∀ s ∈ e.1, s ∈ body)
  | i, head, st => by
    rw [decompWalk]
    by_cases hi : body.length - 2 ≤ i
    · rw [if_pos hi]
      constructor
      · intro q hq hqn
        rcases List.mem_append.mp hq with h | h
        · exact absurd h hqn
        · simp only [List.mem_singleton] at h
          subst h
          refine ⟨Or.inl rfl, ?_, ?_⟩
          · intro s hs
            rcases List.mem_cons.mp hs with rfl | hs
            · refine Or.inl ?_
              have h1 := getD_mem_drop body 0 (body.length - 2)
                (GObj.var "") (by omega) (by omega)
              rw [List.drop_zero] at h1
              exact h1
            · rcases List.mem_cons.mp hs with rfl | hs
              · refine Or.inl ?_
                have := getD_mem_drop body 0 (body.length - 1)
                  (GObj.var "") (by omega) (by omega)
                rw [List.drop_zero] at this
                exact this
              · simp at hs
          · exact ⟨_, _, rfl⟩
      · intro e he hne
        exact absurd he hne
    · rw [if_neg hi]
      dsimp only
      cases hdone : alookup st.done (body.drop (i + 1)) with
      | some v =>
        constructor
        · intro q hq hqn
          rcases List.mem_append.mp hq with h | h
          · exact absurd h hqn
          · simp only [List.mem_singleton] at h
            subst h
            refine ⟨Or.inl rfl, ?_, ⟨_, _, rfl⟩⟩
            intro s hs
            rcases List.mem_cons.mp hs with rfl | hs
            · refine Or.inl ?_
              have := getD_mem_drop body 0 i (GObj.var "") (by omega) (by omega)
              rw [List.drop_zero] at this
              exact this
            · rcases List.mem_cons.mp hs with rfl | hs
              · exact Or.inr ⟨(body.drop (i + 1), v),
                  alookup_mem_pairs _ _ _ hdone, rfl⟩
              · simp at hs
        · intro e he hne
          exact absurd he hne
      | none =>
        have hrec := decompWalk_new body newVar hlen (i + 1) (newVar.getD i "")
          { st with
            out := st.out ++ [Production.mk head
              [body.getD i (GObj.var ""), GObj.var (newVar.getD i "")]],
            done := st.done ++ [(body.drop (i + 1), newVar.getD i "")] }
        have hmono := decompWalk_mono body newVar (i + 1) (newVar.getD i "")
          { st with
            out := st.out ++ [Production.mk head
              [body.getD i (GObj.var ""), GObj.var (newVar.getD i "")]],
            done := st.done ++ [(body.drop (i + 1), newVar.getD i "")] }
        have hnewdone : (body.drop (i + 1), newVar.getD i "") ∈
            (decompWalk body newVar (i + 1) (newVar.getD i "")
              { st with
                out := st.out ++ [Production.mk head
                  [body.getD i (GObj.var ""), GObj.var (newVar.getD i "")]],
                done := st.done ++ [(body.drop (i + 1), newVar.getD i "")] }).done :=
          hmono.2 _ (List.mem_append.mpr (Or.inr (by simp)))
        constructor
        · intro q hq hqn
          by_cases hq1 : q ∈ st.out ++ [Production.mk head
              [body.getD i (GObj.var ""), GObj.var (newVar.getD i "")]]
          · rcases List.mem_append.mp hq1 with h | h
            · exact absurd h hqn
            · simp only [List.mem_singleton] at h
              subst h
              refine ⟨Or.inl rfl, ?_, ⟨_, _, rfl⟩⟩
              intro s hs
              rcases List.mem_cons.mp hs with rfl | hs
              · refine Or.inl ?_
                have := getD_mem_drop body 0 i (GObj.var "") (by omega) (by omega)
                rw [List.drop_zero] at this
                exact this
              · rcases List.mem_cons.mp hs with rfl | hs
                · exact Or.inr ⟨(body.drop (i + 1), newVar.getD i ""),
                    hnewdone, rfl⟩
                · simp at hs
          · rcases hrec.1 q hq hq1 with ⟨hh, hb, hshape⟩
            refine ⟨?_, hb, hshape⟩
            rcases hh with hh | hh
            · exact Or.inr ⟨(body.drop (i + 1), newVar.getD i ""), hnewdone, hh⟩
            · exact Or.inr hh
        · intro e he hne
          by_cases he1 : e ∈ st.done ++ [(body.drop (i + 1), newVar.getD i "")]
          · rcases List.mem_append.mp he1 with h | h
            · exact absurd h hne
            · simp only [List.mem_singleton] at h
              subst h
              intro s hs
              exact List.drop_subset _ _ hs
          · exact hrec.2 e he he1
  termination_by i _ _ => body.length - i
  decreasing_by
    simp only [not_le] at hi
    omega

theorem decompFold_mono (vars : List String) :
    ∀ (l : List Production) (st : DecompSt),
      (∀ q ∈ st.out, q ∈ (l.foldl (decompStep vars) st).out) ∧
      (∀ e ∈ st.done, e ∈ (l.foldl (decompStep vars) st).done) := by
  intro l
  induction l with
  | nil => intro st
           exact ⟨fun q hq => hq, fun e he => he⟩
  | cons p l ih =>
    intro st
    rw [List.foldl_cons]
    have hstep : (∀ q ∈ st.out, q ∈ (decompStep vars st p).out) ∧
        (∀ e ∈ st.done, e ∈ (decompStep vars st p).done) := by
      by_cases h2 : p.body.length ≤ 2
      · have hstep1 : decompStep vars st p = { st with out := st.out ++ [p] } := by
          unfold decompStep
          rw [if_pos h2]
        rw [hstep1]
        exact ⟨fun q hq => List.mem_append.mpr (Or.inl hq), fun e he => he⟩
      · have hstep2 : ∃ nv k, decompStep vars st p
            = decompWalk p.body nv 0 p.head { st with idx := k } := by
          unfold decompStep
          rw [if_neg h2]
          exact ⟨_, _, rfl⟩
        rcases hstep2 with ⟨nv, k, hstep2⟩
        rw [hstep2]
        exact decompWalk_mono p.body nv 0 p.head { st with idx := k }
    exact ⟨fun q hq => (ih _).1 q (hstep.1 q hq),
      fun e he => (ih _).2 e (hstep.2 e he)⟩

theorem decompFold_gen (vars : List String) (P : GObj → Prop)
    (OUT : List Production)
    (Hcl : ∀ q ∈ OUT, (∀ s ∈ q.body, P s) → P (GObj.var q.head)) :
    ∀ (l : List Production) (st : DecompSt),
      (∀ q ∈ (l.foldl (decompStep vars) st).out, q ∈ OUT) →
      (∀ e ∈ st.done, (∀ s ∈ e.1, P s) → P (GObj.var e.2)) →
      (∀ p ∈ l, (∀ s ∈ p.body, P s) → P (GObj.var p.head)) ∧
      (∀ e ∈ (l.foldl (decompStep vars) st).done,
        (∀ s ∈ e.1, P s) → P (GObj.var e.2)) := by
  intro l
  induction l with
  | nil => intro st hout hdone
           exact ⟨by simp, hdone⟩
  | cons p l ih =>
    intro st hout hdone
    rw [List.foldl_cons] at hout ⊢
    by_cases h2 : p.body.length ≤ 2
    · have hstep : decompStep vars st p = { st with out := st.out ++ [p] } := by
        unfold decompStep
        rw [if_pos h2]
      rw [hstep] at hout ⊢
      rcases ih _ hout hdone with ⟨hl, hfin⟩
      refine ⟨?_, hfin⟩
      intro q hq
      rcases List.mem_cons.mp hq with rfl | hq
      · intro hP
        refine Hcl _ ?_ hP
        refine hout _ ?_
        refine (decompFold_mono vars l _).1 _ ?_
        exact List.mem_append.mpr (Or.inr (by simp))
      · exact hl q hq
    · have h3 : 3 ≤ p.body.length := by omega
      have hstep : ∃ nv k, decompStep vars st p
          = decompWalk p.body nv 0 p.head { st with idx := k } := by
        unfold decompStep
        rw [if_neg h2]
        exact ⟨_, _, rfl⟩
      rcases hstep with ⟨nv, k, hstep⟩
      rw [hstep] at hout ⊢
      have hwalk := decompWalk_gen p.body nv P OUT Hcl h3 0 p.head
        { st with idx := k } (by omega)
        (fun q hq => hout q ((decompFold_mono vars l _).1 q hq))
        (fun e he _ => hdone e he)
      have hdone1 : ∀ e ∈ (decompWalk p.body nv 0 p.head
          { st with idx := k }).done, (∀ s ∈ e.1, P s) → P (GObj.var e.2) := by
        intro e he
        by_cases hein : e ∈ st.done
        · exact hdone e hein
        · exact hwalk.2 e he hein
      rcases ih _ hout hdone1 with ⟨hl, hfin⟩
      refine ⟨?_, hfin⟩
      intro q hq
      rcases List.mem_cons.mp hq with rfl | hq
      · intro hP
        refine hwalk.1 ?_
        intro s hs
        rw [List.drop_zero] at hs
        exact hP s hs
      · exact hl q hq

theorem decompFold_reach (vars : List String) (R : GObj → Prop)
    (OUT : List Production)
    (Rcl : ∀ q ∈ OUT, R (GObj.var q.head) → ∀ s ∈ q.body, R s) :
    ∀ (l : List Production) (st : DecompSt),
      (∀ q ∈ (l.foldl (decompStep vars) st).out, q ∈ OUT) →
      (∀ e ∈ st.done, R (GObj.var e.2) → ∀ s ∈ e.1, R s) →
      (∀ e ∈ st.done, R (GObj.var e.2)) →
      (∀ p ∈ l, 3 ≤ p.body.length → R (GObj.var p.head)) →
      (∀ p ∈ l, R (GObj.var p.head) → ∀ s ∈ p.body, R s) ∧
      (∀ e ∈ (l.foldl (decompStep vars) st).done, R (GObj.var e.2)) := by
  intro l
  induction l with
  | nil => intro st hout hdrev hdu hheads
           exact ⟨by simp, hdu⟩
  | cons p l ih =>
    intro st hout hdrev hdu hheads
    rw [List.foldl_cons] at hout ⊢
    by_cases h2 : p.body.length ≤ 2
    · have hstep : decompStep vars st p = { st with out := st.out ++ [p] } := by
        unfold decompStep
        rw [if_pos h2]
      rw [hstep] at hout ⊢
      rcases ih _ hout hdrev hdu
        (fun q hq h3 => hheads q (List.mem_cons_of_mem _ hq) h3)
        with ⟨hl, hfin⟩
      refine ⟨?_, hfin⟩
      intro q hq
      rcases List.mem_cons.mp hq with rfl | hq
      · intro hR
        refine Rcl _ ?_ hR
        refine hout _ ?_
        refine (decompFold_mono vars l _).1 _ ?_
        exact List.mem_append.mpr (Or.inr (by simp))
      · exact hl q hq
    · have h3 : 3 ≤ p.body.length := by omega
      have hstep : ∃ nv k, decompStep vars st p
          = decompWalk p.body nv 0 p.head { st with idx := k } := by
        unfold decompStep
        rw [if_neg h2]
        exact ⟨_, _, rfl⟩
      rcases hstep with ⟨nv, k, hstep⟩
      rw [hstep] at hout ⊢
      have hwalk := decompWalk_reach p.body nv R OUT Rcl h3 0 p.head
        { st with idx := k } (by omega)
        (fun q hq => hout q ((decompFold_mono vars l _).1 q hq))
        (fun e he _ => hdrev e he)
      have hphead : R (GObj.var p.head) :=
        hheads p (List.mem_cons_self _ _) h3
      have hdrev1 : ∀ e ∈ (decompWalk p.body nv 0 p.head
          { st with idx := k }).done, R (GObj.var e.2) → ∀ s ∈ e.1, R s := by
        intro e he
        by_cases hein : e ∈ st.done
        · exact hdrev e hein
        · exact (hwalk.2 e he hein).1
      have hdu1 : ∀ e ∈ (decompWalk p.body nv 0 p.head
          { st with idx := k }).done, R (GObj.var e.2) := by
        intro e he
        by_cases hein : e ∈ st.done
        · exact hdu e hein
        · exact (hwalk.2 e he hein).2 hphead
      rcases ih _ hout hdrev1 hdu1
        (fun q hq h3q => hheads q (List.mem_cons_of_mem _ hq) h3q)
        with ⟨hl, hfin⟩
      refine ⟨?_, hfin⟩
      intro q hq
      rcases List.mem_cons.mp hq with rfl | hq
      · intro hR s hs
        refine hwalk.1 hR s ?_
        rw [List.drop_zero]
        exact hs
      · exact hl q hq

theorem decompFold_out_char (vars : List String) :
    ∀ (l : List Production) (st : DecompSt),
      ∀ q ∈ (l.foldl (decompStep vars) st).out,
        q ∈ st.out ∨ (∃ p ∈ l, p.body.length ≤ 2 ∧ q = p) ∨
        (∃ p ∈ l, 3 ≤ p.body.length ∧
          (q.head = p.head ∨
            ∃ e ∈ (l.foldl (decompStep vars) st).done, q.head = e.2) ∧
          (∀ s ∈ q.body, s ∈ p.body ∨
            ∃ e ∈ (l.foldl (decompStep vars) st).done, s = GObj.var e.2) ∧
          (∃ x y, q.body = [x, y])) := by
  intro l
  induction l with
  | nil => intro st q hq
           exact Or.inl hq
  | cons p l ih =>
    intro st q hq
    rw [List.foldl_cons] at hq ⊢
    by_cases h2 : p.body.length ≤ 2
    · have hstep : decompStep vars st p = { st with out := st.out ++ [p] } := by
        unfold decompStep
        rw [if_pos h2]
      rw [hstep] at hq ⊢
      rcases ih _ q hq with h | ⟨r, hr, hrest⟩ | ⟨r, hr, hrest⟩
      · rcases List.mem_append.mp h with h | h
        · exact Or.inl h
        · simp only [List.mem_singleton] at h
          exact Or.inr (Or.inl ⟨p, List.mem_cons_self _ _, h2, h⟩)
      · exact Or.inr (Or.inl ⟨r, List.mem_cons_of_mem _ hr, hrest⟩)
      · exact Or.inr (Or.inr ⟨r, List.mem_cons_of_mem _ hr, hrest⟩)
    · have h3 : 3 ≤ p.body.length := by omega
      have hstep : ∃ nv k, decompStep vars st p
          = decompWalk p.body nv 0 p.head { st with idx := k } := by
        unfold decompStep
        rw [if_neg h2]
        exact ⟨_, _, rfl⟩
      rcases hstep with ⟨nv, k, hstep⟩
      rw [hstep] at hq ⊢
      rcases ih _ q hq with h | ⟨r, hr, hrest⟩ | ⟨r, hr, hrest⟩
      · by_cases hin : q ∈ st.out
        · exact Or.inl hin
        · rcases (decompWalk_new p.body nv h3 0 p.head
            { st with idx := k }).1 q h hin with ⟨hh, hb, hshape⟩
          refine Or.inr (Or.inr ⟨p, List.mem_cons_self _ _, h3, ?_, ?_, hshape⟩)
          · rcases hh with hh | ⟨e, he, hh⟩
            · exact Or.inl hh
            · refine Or.inr ⟨e, ?_, hh⟩
              exact (decompFold_mono vars l _).2 e he
          · intro s hs
            rcases hb s hs with hb2 | ⟨e, he, hb2⟩
            · exact Or.inl hb2
            · refine Or.inr ⟨e, ?_, hb2⟩
              exact (decompFold_mono vars l _).2 e he
      · exact Or.inr (Or.inl ⟨r, List.mem_cons_of_mem _ hr, hrest⟩)
      · exact Or.inr (Or.inr ⟨r, List.mem_cons_of_mem _ hr, hrest⟩)

theorem decompFold_done_char (vars : List String) :
    ∀ (l : List Production) (st : DecompSt),
      ∀ e ∈ (l.foldl (decompStep vars) st).done,
        e ∈ st.done ∨ ∃ p ∈ l, 3 ≤ p.body.length ∧ ∀ s ∈ e.1, s ∈ p.body := by
  intro l
  induction l with
  | nil => intro st e he
           exact Or.inl he
  | cons p l ih =>
    intro st e he
    rw [List.foldl_cons] at he
    by_cases h2 : p.body.length ≤ 2
    · have hstep : decompStep vars st p = { st with out := st.out ++ [p] } := by
        unfold decompStep
        rw [if_pos h2]
      rw [hstep] at he
      rcases ih _ e he with h | ⟨r, hr, hrest⟩
      · exact Or.inl h
      · exact Or.inr ⟨r, List.mem_cons_of_mem _ hr, hrest⟩
    · have h3 : 3 ≤ p.body.length := by omega
      have hstep : ∃ nv k, decompStep vars st p
          = decompWalk p.body nv 0 p.head { st with idx := k } := by
        unfold decompStep
        rw [if_neg h2]
        exact ⟨_, _, rfl⟩
      rcases hstep with ⟨nv, k, hstep⟩
      rw [hstep] at he
      rcases ih _ e he with h | ⟨r, hr, hrest⟩
      · by_cases hin : e ∈ st.done
        · exact Or.inl hin
        · refine Or.inr ⟨p, List.mem_cons_self _ _, h3, ?_⟩
          exact (decompWalk_new p.body nv h3 0 p.head
            { st with idx := k }).2 e h hin
      · exact Or.inr ⟨r, List.mem_cons_of_mem _ hr, hrest⟩

theorem decompFold_pass (vars : List String) :
    ∀ (l : List Production) (st : DecompSt) (p : Production),
      p ∈ l → p.body.length ≤ 2 → p ∈ (l.foldl (decompStep vars) st).out := by
  intro l
  induction l with
  | nil => intro st p hp _
           simp at hp
  | cons q l ih =>
    intro st p hp h2
    rw [List.foldl_cons]
    rcases List.mem_cons.mp hp with rfl | hp
    · have hstep : decompStep vars st p = { st with out := st.out ++ [p] } := by
        unfold decompStep
        rw [if_pos h2]
      rw [hstep]
      refine (decompFold_mono vars l _).1 _ ?_
      exact List.mem_append.mpr (Or.inr (by simp))
    · exact ih _ p hp h2

theorem decompFold_reach1 (vars : List String) (R : GObj → Prop)
    (OUT : List Production)
    (Rcl : ∀ q ∈ OUT, R (GObj.var q.head) → ∀ s ∈ q.body, R s) :
    ∀ (l : List Production) (st : DecompSt),
      (∀ q ∈ (l.foldl (decompStep vars) st).out, q ∈ OUT) →
      (∀ e ∈ st.done, R (GObj.var e.2) → ∀ s ∈ e.1, R s) →
      (∀ p ∈ l, R (GObj.var p.head) → ∀ s ∈ p.body, R s) ∧
      (∀ e ∈ (l.foldl (decompStep vars) st).done,
        R (GObj.var e.2) → ∀ s ∈ e.1, R s) := by
  intro l
  induction l with
  | nil => intro st hout hdrev
           exact ⟨by simp, hdrev⟩
  | cons p l ih =>
    intro st hout hdrev
    rw [List.foldl_cons] at hout ⊢
    by_cases h2 : p.body.length ≤ 2
    · have hstep : decompStep vars st p = { st with out := st.out ++ [p] } := by
        unfold decompStep
        rw [if_pos h2]
      rw [hstep] at hout ⊢
      rcases ih _ hout hdrev with ⟨hl, hfin⟩
      refine ⟨?_, hfin⟩
      intro q hq
      rcases List.mem_cons.mp hq with rfl | hq
      · intro hR
        refine Rcl _ ?_ hR
        refine hout _ ?_
        refine (decompFold_mono vars l _).1 _ ?_
        exact List.mem_append.mpr (Or.inr (by simp))
      · exact hl q hq
    · have h3 : 3 ≤ p.body.length := by omega
      have hstep : ∃ nv k, decompStep vars st p
          = decompWalk p.body nv 0 p.head { st with idx := k } := by
        unfold decompStep
        rw [if_neg h2]
        exact ⟨_, _, rfl⟩
      rcases hstep with ⟨nv, k, hstep⟩
      rw [hstep] at hout ⊢
      have hwalk := decompWalk_reach p.body nv R OUT Rcl h3 0 p.head
        { st with idx := k } (by omega)
        (fun q hq => hout q ((decompFold_mono vars l _).1 q hq))
        (fun e he _ => hdrev e he)
      have hdrev1 : ∀ e ∈ (decompWalk p.body nv 0 p.head
          { st with idx := k }).done, R (GObj.var e.2) → ∀ s ∈ e.1, R s := by
        intro e he
        by_cases hein : e ∈ st.done
        · exact hdrev e hein
        · exact (hwalk.2 e he hein).1
      rcases ih _ hout hdrev1 with ⟨hl, hfin⟩
      refine ⟨?_, hfin⟩
      intro q hq
      rcases List.mem_cons.mp hq with rfl | hq
      · intro hR s hs
        refine hwalk.1 hR s ?_
        rw [List.drop_zero]
        exact hs
      · exact hl q hq

theorem make_prods (vs ts : List String) (start : Option String)
    (ps : List Production) : (Cfg.make vs ts start ps).prods = ps := rfl

theorem make_start (vs ts : List String) (start : Option String)
    (ps : List Production) : (Cfg.make vs ts start ps).start = start := rfl

theorem length_eq_of_nodup_subsets {α : Type} [DecidableEq α]
    (l1 l2 : List α) (h1 : l1.Nodup) (h2 : l2.Nodup)
    (s12 : ∀ x ∈ l1, x ∈ l2) (s21 : ∀ x ∈ l2, x ∈ l1) :
    l1.length = l2.length :=
  Nat.le_antisymm (h1.subperm s12).length_le (h2.subperm s21).length_le

theorem foldl_setInsert_fresh {α : Type} [DecidableEq α] :
    ∀ (l acc : List α), l.Nodup → (∀ x ∈ l, x ∉ acc) →
      l.foldl setInsert acc = acc ++ l := by
  intro l
  induction l with
  | nil => intro acc _ _
           simp
  | cons x l ih =>
    intro acc hnd hfresh
    rw [List.foldl_cons]
    have hset : setInsert acc x = acc ++ [x] := by
      unfold setInsert
      rw [if_neg (hfresh x (List.mem_cons_self _ _))]
    rw [hset, ih (acc ++ [x]) (List.nodup_cons.mp hnd).2]
    · rw [List.append_assoc, List.singleton_append]
    · intro y hy hc
      rcases List.mem_append.mp hc with hc | hc
      · exact hfresh y (List.mem_cons_of_mem _ hy) hc
      · simp only [List.mem_singleton] at hc
        subst hc
        exact (List.nodup_cons.mp hnd).1 hy

theorem uniq_eq_self_of_nodup {α : Type} [DecidableEq α] (l : List α)
    (h : l.Nodup) : uniq l = l := by
  unfold uniq
  rw [foldl_setInsert_fresh l [] h (by simp)]
  simp

theorem singleTerminals_id (g : Cfg)
    (hshape : ∀ p ∈ g.prods,
      p.body.length = 1 ∨ ∀ s ∈ p.body, ∃ v, s = GObj.var v) :
    getProductionsWithOnlySingleTerminals g = g.prods := by
  unfold getProductionsWithOnlySingleTerminals
  dsimp only
  have hch := stFold_char g g.prods ([], [])
  have hused : (g.prods.foldl (fun (acc : List Production × List String) p =>
      if p.body.length = 1 then (acc.1 ++ [p], acc.2)
      else
        let folded := p.body.foldl (fun (bu : List GObj × List String) s =>
          match s with
          | GObj.term t =>
            if t ∈ g.terms then
              (bu.1 ++ [GObj.var (termToVarName t)], setInsert bu.2 t)
            else (bu.1 ++ [s], bu.2)
          | GObj.var _ => (bu.1 ++ [s], bu.2)) ([], acc.2)
        (acc.1 ++ [Production.mk p.head folded.1], folded.2)) ([], [])).2
      = [] := by
    rw [List.eq_nil_iff_forall_not_mem]
    intro t ht
    rw [hch.2 t] at ht
    rcases ht with h | ⟨p, hp, hlen, hterm, _⟩
    · simp at h
    · rcases hshape p hp with h1 | h1
      · exact hlen h1
      · rcases h1 _ hterm with ⟨v, hv⟩
        exact absurd hv (by simp)
  rw [hused, hch.1]
  simp only [List.nil_append, List.map_nil, List.append_nil]
  have hid : ∀ p ∈ g.prods, (if p.body.length = 1 then p
      else Production.mk p.head (p.body.map (termReplFun g.terms))) = p := by
    intro p hp
    by_cases h2 : p.body.length = 1
    · rw [if_pos h2]
    · rw [if_neg h2]
      rcases hshape p hp with h1 | h1
      · exact absurd h1 h2
      · have hbody : p.body.map (termReplFun g.terms) = p.body := by
          have hpt : ∀ s ∈ p.body, termReplFun g.terms s = s := by
            intro s hs
            rcases h1 s hs with ⟨v, rfl⟩
            rfl
          rw [List.map_congr_left hpt, List.map_id']
        rw [hbody]
  rw [List.map_congr_left hid, List.map_id']

theorem decompFold_id (vars : List String) :
    ∀ (l : List Production) (st : DecompSt), (∀ p ∈ l, p.body.length ≤ 2) →
      (l.foldl (decompStep vars) st).out = st.out ++ l := by
  intro l
  induction l with
  | nil => intro st _
           simp
  | cons p l ih =>
    intro st h2
    rw [List.foldl_cons]
    have hstep : decompStep vars st p = { st with out := st.out ++ [p] } := by
      unfold decompStep
      rw [if_pos (h2 p (List.mem_cons_self _ _))]
    rw [hstep, ih _ (fun q hq => h2 q (List.mem_cons_of_mem _ hq))]
    rw [List.append_assoc, List.singleton_append]

theorem decomposeProductions_id (vars : List String) (ps : List Production)
    (h : ∀ p ∈ ps, p.body.length ≤ 2) :
    decomposeProductions vars ps = ps := by
  rw [decomposeProductions_eq_fold, decompFold_id vars ps _ h]
  simp

theorem normalFormFinal_idem_prods (g : Cfg)
    (hshape : ∀ q ∈ g.prods, prodOutShape q) (hnd : g.prods.Nodup) :
    (normalFormFinal g).prods = g.prods := by
  unfold normalFormFinal
  rw [make_prods]
  have hst : getProductionsWithOnlySingleTerminals g = g.prods := by
    refine singleTerminals_id g ?_
    intro p hp
    rcases hshape p hp with ⟨x, hx⟩ | ⟨v, w, hvw⟩
    · exact Or.inl (by rw [hx]; rfl)
    · refine Or.inr ?_
      intro s hs
      rw [hvw] at hs
      rcases List.mem_cons.mp hs with rfl | hs
      · exact ⟨v, rfl⟩
      · rcases List.mem_cons.mp hs with rfl | hs
        · exact ⟨w, rfl⟩
        · simp at hs
  rw [hst, decomposeProductions_id]
  · exact uniq_eq_self_of_nodup _ hnd
  · intro p hp
    rcases hshape p hp with ⟨x, hx⟩ | ⟨v, w, hvw⟩
    · rw [hx]
      simp
    · rw [hvw]
      simp

/-! ## The grammar produced by the final phase of `to_normal_form` -/

theorem nff_prods (h : Cfg) : (normalFormFinal h).prods
    = uniq (decomposeProductions h.vars
        (getProductionsWithOnlySingleTerminals h)) := rfl

theorem nff_start (h : Cfg) : (normalFormFinal h).start = h.start := rfl

theorem nff_WF (h : Cfg) : (normalFormFinal h).WF := by
  unfold normalFormFinal
  exact make_WF _ _ _ _

theorem mem_nff_prods (h : Cfg) (q : Production) :
    q ∈ (normalFormFinal h).prods ↔
      q ∈ ((getProductionsWithOnlySingleTerminals h).foldl
        (decompStep h.vars) ⟨0, [], []⟩).out := by
  rw [nff_prods, mem_uniq, decomposeProductions_eq_fold]

theorem nff_terms_iff (h : Cfg) (t : String) :
    t ∈ (normalFormFinal h).terms ↔
      ∃ q ∈ (normalFormFinal h).prods, GObj.term t ∈ q.body := by
  unfold normalFormFinal
  rw [make_terms_iff]
  simp only [List.not_mem_nil, false_or]
  exact Iff.rfl

theorem nff_vars_iff (h : Cfg) (v : String) :
    v ∈ (normalFormFinal h).vars ↔
      h.start = some v ∨
        ∃ q ∈ (normalFormFinal h).prods, q.head = v ∨ GObj.var v ∈ q.body := by
  unfold normalFormFinal
  rw [make_vars_iff]
  simp only [List.not_mem_nil, false_or]
  constructor
  · rintro (h1 | h1)
    · exact Or.inl h1
    · exact Or.inr h1
  · rintro (h1 | h1)
    · exact Or.inl h1
    · exact Or.inr h1

theorem g1_shape (h : Cfg) (hwf : h.WF) (hcan : isCanonical h = true) :
    ∀ q ∈ (normalFormFinal h).prods, prodOutShape q := by
  intro q hq
  rw [nff_prods, mem_uniq] at hq
  refine decomposeProductions_shape h.vars _ ?_ q hq
  refine singleTerminals_shape h ?_ ?_
  · exact fun p hp => no_empty_body_of_canonical h hcan p hp
  · intro p hp t ht
    exact (hwf.1 p hp).2 _ ht

theorem term_seed_prod (h : Cfg) (hwf : h.WF) (hcan : isCanonical h = true)
    (hne : h.prods ≠ []) :
    ∀ t ∈ h.terms, ∃ q ∈ (normalFormFinal h).prods, GObj.term t ∈ q.body := by
  intro t ht
  have hreachmem := (all_reachable_of_canonical h hwf hcan hne).2 t ht
  rcases getReachableSymbols_bound h _ hreachmem with hb | ⟨p, hp, b, hbp, hbe⟩
  · rcases start_some_of_canonical h hwf hcan hne with ⟨s0, hs0⟩
    rw [hs0] at hb
    simp at hb
  · have hbt : b = GObj.term t := by
      injection hbe with hbe
      exact hbe.symm
    subst hbt
    by_cases hl1 : p.body.length = 1
    · refine ⟨p, ?_, hbp⟩
      rw [mem_nff_prods]
      refine decompFold_pass h.vars _ _ p ?_ (by omega)
      exact (singleTerminals_char h p).mpr (Or.inl ⟨p, hp, hl1, rfl⟩)
    · have htt : t ∈ h.terms := ht
      refine ⟨Production.mk (termToVarName t) [GObj.term t], ?_, by simp⟩
      rw [mem_nff_prods]
      refine decompFold_pass h.vars _ _ _ ?_ (by simp)
      exact (singleTerminals_char h _).mpr
        (Or.inr (Or.inr ⟨t, ⟨p, hp, hl1, hbp, htt⟩, rfl⟩))

theorem g1_seed_gen (h : Cfg) (hwf : h.WF) (hcan : isCanonical h = true)
    (hne : h.prods ≠ []) :
    ∀ t ∈ h.terms, GenSym (normalFormFinal h).prods
      ((normalFormFinal h).terms.map GObj.term) (GObj.term t) := by
  intro t ht
  refine GenSym.seed _ (List.mem_map.mpr ⟨t, ?_, rfl⟩)
  exact (nff_terms_iff h t).mpr (term_seed_prod h hwf hcan hne t ht)

/-- Every symbol generating in a canonical grammar stays generating in the
grammar built by the final phase of `to_normal_form`. -/
theorem gen_transfer (h : Cfg) (hwf : h.WF) (hcan : isCanonical h = true)
    (hne : h.prods ≠ []) :
    ∀ s, GenSym h.prods (h.terms.map GObj.term) s →
      GenSym (normalFormFinal h).prods
        ((normalFormFinal h).terms.map GObj.term) s := by
  intro s hgen
  induction hgen with
  | seed s hs =>
    rcases List.mem_map.mp hs with ⟨t, ht, rfl⟩
    exact g1_seed_gen h hwf hcan hne t ht
  | step p hp hbody ih =>
    by_cases hl1 : p.body.length = 1
    · have hpmem : p ∈ (normalFormFinal h).prods := by
        rw [mem_nff_prods]
        exact decompFold_pass h.vars _ _ p
          ((singleTerminals_char h p).mpr (Or.inl ⟨p, hp, hl1, rfl⟩)) (by omega)
      exact GenSym.step p hpmem ih
    · have hq : (Production.mk p.head (p.body.map (termReplFun h.terms)))
          ∈ getProductionsWithOnlySingleTerminals h :=
        (singleTerminals_char h _).mpr (Or.inr (Or.inl ⟨p, hp, hl1, rfl⟩))
      have hqbody : ∀ s2 ∈ p.body.map (termReplFun h.terms),
          GenSym (normalFormFinal h).prods
            ((normalFormFinal h).terms.map GObj.term) s2 := by
        intro s2 hs2
        rcases List.mem_map.mp hs2 with ⟨s0, hs0, rfl⟩
        cases s0 with
        | var v => exact ih _ hs0
        | term t =>
          have ht : t ∈ h.terms := (hwf.1 p hp).2 _ hs0
          have hrepl : termReplFun h.terms (GObj.term t)
              = GObj.var (termToVarName t) := by
            show (if t ∈ h.terms then GObj.var (termToVarName t)
              else GObj.term t) = GObj.var (termToVarName t)
            rw [if_pos ht]
          rw [hrepl]
          have hside : (Production.mk (termToVarName t) [GObj.term t])
              ∈ (normalFormFinal h).prods := by
            rw [mem_nff_prods]
            refine decompFold_pass h.vars _ _ _ ?_ (by simp)
            exact (singleTerminals_char h _).mpr
              (Or.inr (Or.inr ⟨t, ⟨p, hp, hl1, hs0, ht⟩, rfl⟩))
          refine GenSym.step _ hside ?_
          intro s3 hs3
          simp only [List.mem_singleton] at hs3
          subst hs3
          exact g1_seed_gen h hwf hcan hne t ht
      have hN1 := decompFold_gen h.vars
        (fun s2 => GenSym (normalFormFinal h).prods
          ((normalFormFinal h).terms.map GObj.term) s2)
        (normalFormFinal h).prods
        (fun r hr hb => GenSym.step r hr hb)
        (getProductionsWithOnlySingleTerminals h) ⟨0, [], []⟩
        (fun r hr => (mem_nff_prods h r).mpr hr)
        (by simp)
      exact hN1.1 (Production.mk p.head (p.body.map (termReplFun h.terms)))
        hq hqbody

theorem allst_gen (h : Cfg) (hwf : h.WF) (hcan : isCanonical h = true)
    (hne : h.prods ≠ []) :
    ∀ p ∈ getProductionsWithOnlySingleTerminals h, 2 ≤ p.body.length →
      ∀ s ∈ p.body, GenSym (normalFormFinal h).prods
        ((normalFormFinal h).terms.map GObj.term) s := by
  intro p hp h2 s hs
  rcases (singleTerminals_char h p).mp hp with ⟨p0, hp0, hl0, heq⟩ |
    ⟨p0, hp0, hl0, heq⟩ | ⟨t, ht, heq⟩
  · rw [heq] at h2
    omega
  · subst heq
    rcases List.mem_map.mp hs with ⟨s0, hs0, rfl⟩
    cases s0 with
    | var v =>
      have hv : v ∈ h.vars := (hwf.1 p0 hp0).2 _ hs0
      exact gen_transfer h hwf hcan hne _
        (all_generating_of_canonical h hwf hcan v hv)
    | term t =>
      have ht2 : t ∈ h.terms := (hwf.1 p0 hp0).2 _ hs0
      have hrepl : termReplFun h.terms (GObj.term t)
          = GObj.var (termToVarName t) := by
        show (if t ∈ h.terms then GObj.var (termToVarName t)
          else GObj.term t) = GObj.var (termToVarName t)
        rw [if_pos ht2]
      rw [hrepl]
      have hside : (Production.mk (termToVarName t) [GObj.term t])
          ∈ (normalFormFinal h).prods := by
        rw [mem_nff_prods]
        refine decompFold_pass h.vars _ _ _ ?_ (by simp)
        exact (singleTerminals_char h _).mpr
          (Or.inr (Or.inr ⟨t, ⟨p0, hp0, hl0, hs0, ht2⟩, rfl⟩))
      refine GenSym.step _ hside ?_
      intro s3 hs3
      simp only [List.mem_singleton] at hs3
      subst hs3
      exact g1_seed_gen h hwf hcan hne t ht2
  · rw [heq] at h2
    simp at h2

theorem done_gen (h : Cfg) (hwf : h.WF) (hcan : isCanonical h = true)
    (hne : h.prods ≠ []) :
    ∀ e ∈ ((getProductionsWithOnlySingleTerminals h).foldl
        (decompStep h.vars) ⟨0, [], []⟩).done,
      GenSym (normalFormFinal h).prods
        ((normalFormFinal h).terms.map GObj.term) (GObj.var e.2) := by
  intro e he
  have hcond := (decompFold_gen h.vars
    (fun s2 => GenSym (normalFormFinal h).prods
      ((normalFormFinal h).terms.map GObj.term) s2)
    (normalFormFinal h).prods
    (fun r hr hb => GenSym.step r hr hb)
    (getProductionsWithOnlySingleTerminals h) ⟨0, [], []⟩
    (fun r hr => (mem_nff_prods h r).mpr hr)
    (by simp)).2 e he
  rcases decompFold_done_char h.vars _ _ e he with h0 | ⟨p, hp, h3, hsub⟩
  · simp at h0
  · refine hcond ?_
    intro s hs
    exact allst_gen h hwf hcan hne p hp (by omega) s (hsub s hs)

theorem stout_heads_gen (h : Cfg) (hwf : h.WF) (hcan : isCanonical h = true)
    (hne : h.prods ≠ []) :
    ∀ p ∈ getProductionsWithOnlySingleTerminals h,
      GenSym (normalFormFinal h).prods
        ((normalFormFinal h).terms.map GObj.term) (GObj.var p.head) := by
  intro p hp
  rcases (singleTerminals_char h p).mp hp with ⟨p0, hp0, _, heq⟩ |
    ⟨p0, hp0, _, heq⟩ | ⟨t, ht, heq⟩
  · rw [heq]
    exact gen_transfer h hwf hcan hne _
      (all_generating_of_canonical h hwf hcan p0.head (hwf.1 p0 hp0).1)
  · rw [heq]
    exact gen_transfer h hwf hcan hne _
      (all_generating_of_canonical h hwf hcan p0.head (hwf.1 p0 hp0).1)
  · rw [heq]
    have hside : (Production.mk (termToVarName t) [GObj.term t])
        ∈ (normalFormFinal h).prods := by
      rw [mem_nff_prods]
      refine decompFold_pass h.vars _ _ _ ?_ (by simp)
      exact (singleTerminals_char h _).mpr (Or.inr (Or.inr ⟨t, ht, rfl⟩))
    refine GenSym.step _ hside ?_
    intro s3 hs3
    simp only [List.mem_singleton] at hs3
    subst hs3
    rcases ht with ⟨p1, hp1, _, _, ht2⟩
    exact g1_seed_gen h hwf hcan hne t ht2

theorem g1_vars_gen (h : Cfg) (hwf : h.WF) (hcan : isCanonical h = true)
    (hne : h.prods ≠ []) :
    ∀ v ∈ (normalFormFinal h).vars,
      GenSym (normalFormFinal h).prods
        ((normalFormFinal h).terms.map GObj.term) (GObj.var v) := by
  intro v hv
  rcases (nff_vars_iff h v).mp hv with hstart | ⟨q, hq, hcase⟩
  · have hv2 : v ∈ h.vars := hwf.2.1 v hstart
    exact gen_transfer h hwf hcan hne _
      (all_generating_of_canonical h hwf hcan v hv2)
  · rw [mem_nff_prods] at hq
    rcases decompFold_out_char h.vars _ _ q hq with h0 |
      ⟨p, hp, hl2, heq⟩ | ⟨p, hp, h3, hhead, hbody, _⟩
    · simp at h0
    · subst heq
      rcases hcase with rfl | hbv
      · exact stout_heads_gen h hwf hcan hne q hp
      · by_cases hl : 2 ≤ q.body.length
        · have := allst_gen h hwf hcan hne q hp hl _ hbv
          exact this
        · rcases (singleTerminals_char h q).mp hp with ⟨p0, hp0, hl0, heq2⟩ |
            ⟨p0, hp0, hl0, heq2⟩ | ⟨t, _, heq2⟩
          · subst heq2
            have hv2 : v ∈ h.vars := (hwf.1 q hp0).2 _ hbv
            exact gen_transfer h hwf hcan hne _
              (all_generating_of_canonical h hwf hcan v hv2)
          · exfalso
            have hlen0 : q.body.length = p0.body.length := by
              rw [heq2]
              simp
            have hp0ne : p0.body ≠ [] := no_empty_body_of_canonical h hcan p0 hp0
            have : 1 ≤ p0.body.length := by
              cases hb0 : p0.body with
              | nil => exact absurd hb0 hp0ne
              | cons a l => simp
            omega
          · rw [heq2] at hbv
            simp only [List.mem_singleton] at hbv
            exact absurd hbv (by simp)
    · rcases hcase with rfl | hbv
      · rcases hhead with hh | ⟨e, he, hh⟩
        · rw [hh]
          exact stout_heads_gen h hwf hcan hne p hp
        · rw [hh]
          exact done_gen h hwf hcan hne e he
      · rcases hbody _ hbv with hb | ⟨e, he, hb⟩
        · exact allst_gen h hwf hcan hne p hp (by omega) _ hb
        · have hv2 : v = e.2 := GObj.var.inj hb
          rw [hv2]
          exact done_gen h hwf hcan hne e he

theorem g1_guard3 (h : Cfg) (hwf : h.WF) (hcan : isCanonical h = true)
    (hne : h.prods ≠ []) :
    (getGeneratingSymbols (normalFormFinal h)).length
      = (normalFormFinal h).vars.length + (normalFormFinal h).terms.length := by
  have hspec := getGeneratingSymbols_spec (normalFormFinal h) (nff_WF h)
  have hsub1 : ∀ x ∈ getGeneratingSymbols (normalFormFinal h),
      x ∈ (normalFormFinal h).vars.map GObj.var
        ++ (normalFormFinal h).terms.map GObj.term := by
    intro x hx
    have hgen := (hspec.1 x).mp hx
    cases hgen with
    | seed s hs => exact List.mem_append.mpr (Or.inr hs)
    | step p hp _ =>
      exact List.mem_append.mpr (Or.inl (List.mem_map.mpr
        ⟨p.head, ((nff_WF h).1 p hp).1, rfl⟩))
  have hsub2 : ∀ x ∈ (normalFormFinal h).vars.map GObj.var
      ++ (normalFormFinal h).terms.map GObj.term,
      x ∈ getGeneratingSymbols (normalFormFinal h) := by
    intro x hx
    rcases List.mem_append.mp hx with hx | hx
    · rcases List.mem_map.mp hx with ⟨v, hv, rfl⟩
      exact (hspec.1 _).mpr (g1_vars_gen h hwf hcan hne v hv)
    · rcases List.mem_map.mp hx with ⟨t, ht, rfl⟩
      exact (hspec.1 _).mpr (GenSym.seed _ (List.mem_map.mpr ⟨t, ht, rfl⟩))
  have hlen := length_eq_of_nodup_subsets _ _ hspec.2
    (varTermObjs_nodup _ (nff_WF h)) hsub1 hsub2
  rw [hlen, List.length_append, List.length_map, List.length_map]

/-- Every symbol reachable in a canonical grammar is reachable in the
final-phase grammar. -/
theorem reach_transfer (h : Cfg) (hwf : h.WF) :
    ∀ x, ReachSym h x → ReachSym (normalFormFinal h) x := by
  intro x hx
  induction hx with
  | start =>
    have hs : (normalFormFinal h).start = h.start := rfl
    rw [← hs]
    exact ReachSym.start
  | step A p y hr hp hh hbp ih =>
    by_cases hl1 : p.body.length = 1
    · have hpmem : p ∈ (normalFormFinal h).prods := by
        rw [mem_nff_prods]
        exact decompFold_pass h.vars _ _ p
          ((singleTerminals_char h p).mpr (Or.inl ⟨p, hp, hl1, rfl⟩)) (by omega)
      exact ReachSym.step A p y ih hpmem hh hbp
    · have hq : (Production.mk p.head (p.body.map (termReplFun h.terms)))
          ∈ getProductionsWithOnlySingleTerminals h :=
        (singleTerminals_char h _).mpr (Or.inr (Or.inl ⟨p, hp, hl1, rfl⟩))
      have hR1 := (decompFold_reach1 h.vars
        (fun s2 => ReachSym (normalFormFinal h) (some s2))
        (normalFormFinal h).prods
        (fun r hr2 hhr s2 hs2 => ReachSym.step r.head r s2 hhr hr2 rfl hs2)
        (getProductionsWithOnlySingleTerminals h) ⟨0, [], []⟩
        (fun r hr2 => (mem_nff_prods h r).mpr hr2)
        (by simp)).1 _ hq
      have hhead : ReachSym (normalFormFinal h)
          (some (GObj.var (Production.mk p.head
            (p.body.map (termReplFun h.terms))).head)) := by
        show ReachSym (normalFormFinal h) (some (GObj.var p.head))
        rw [hh]
        exact ih
      have hall := hR1 hhead
      cases y with
      | var v =>
        have hmem : GObj.var v ∈ p.body.map (termReplFun h.terms) :=
          List.mem_map.mpr ⟨GObj.var v, hbp, rfl⟩
        exact hall _ hmem
      | term t =>
        have ht : t ∈ h.terms := (hwf.1 p hp).2 _ hbp
        have hrepl : termReplFun h.terms (GObj.term t)
            = GObj.var (termToVarName t) := by
          show (if t ∈ h.terms then GObj.var (termToVarName t)
            else GObj.term t) = GObj.var (termToVarName t)
          rw [if_pos ht]
        have hmem : GObj.var (termToVarName t)
            ∈ p.body.map (termReplFun h.terms) :=
          List.mem_map.mpr ⟨GObj.term t, hbp, hrepl⟩
        have htv := hall _ hmem
        have hside : (Production.mk (termToVarName t) [GObj.term t])
            ∈ (normalFormFinal h).prods := by
          rw [mem_nff_prods]
          refine decompFold_pass h.vars _ _ _ ?_ (by simp)
          exact (singleTerminals_char h _).mpr
            (Or.inr (Or.inr ⟨t, ⟨p, hp, hl1, hbp, ht⟩, rfl⟩))
        exact ReachSym.step (termToVarName t) _ (GObj.term t) htv hside rfl
          (by simp)

theorem stout_heads_reach (h : Cfg) (hwf : h.WF) (hcan : isCanonical h = true)
    (hne : h.prods ≠ []) :
    ∀ p ∈ getProductionsWithOnlySingleTerminals h,
      ReachSym (normalFormFinal h) (some (GObj.var p.head)) := by
  have hreach_h : ∀ A ∈ h.vars, ReachSym h (some (GObj.var A)) := by
    intro A hA
    exact getReachableSymbols_sound h _
      ((all_reachable_of_canonical h hwf hcan hne).1 A hA)
  intro p hp
  rcases (singleTerminals_char h p).mp hp with ⟨p0, hp0, _, heq⟩ |
    ⟨p0, hp0, _, heq⟩ | ⟨t, ht, heq⟩
  · rw [heq]
    exact reach_transfer h hwf _ (hreach_h p0.head (hwf.1 p0 hp0).1)
  · rw [heq]
    exact reach_transfer h hwf _ (hreach_h p0.head (hwf.1 p0 hp0).1)
  · rcases ht with ⟨p1, hp1, hl1, hbt, htt⟩
    have hq0 : (Production.mk p1.head (p1.body.map (termReplFun h.terms)))
        ∈ getProductionsWithOnlySingleTerminals h :=
      (singleTerminals_char h _).mpr (Or.inr (Or.inl ⟨p1, hp1, hl1, rfl⟩))
    have hR1 := (decompFold_reach1 h.vars
      (fun s2 => ReachSym (normalFormFinal h) (some s2))
      (normalFormFinal h).prods
      (fun r hr2 hhr s2 hs2 => ReachSym.step r.head r s2 hhr hr2 rfl hs2)
      (getProductionsWithOnlySingleTerminals h) ⟨0, [], []⟩
      (fun r hr2 => (mem_nff_prods h r).mpr hr2)
      (by simp)).1 _ hq0
    have hhead : ReachSym (normalFormFinal h)
        (some (GObj.var (Production.mk p1.head
          (p1.body.map (termReplFun h.terms))).head)) := by
      show ReachSym (normalFormFinal h) (some (GObj.var p1.head))
      exact reach_transfer h hwf _ (hreach_h p1.head (hwf.1 p1 hp1).1)
    have hrepl : termReplFun h.terms (GObj.term t)
        = GObj.var (termToVarName t) := by
      show (if t ∈ h.terms then GObj.var (termToVarName t)
        else GObj.term t) = GObj.var (termToVarName t)
      rw [if_pos htt]
    have hmem : GObj.var (termToVarName t)
        ∈ p1.body.map (termReplFun h.terms) :=
      List.mem_map.mpr ⟨GObj.term t, hbt, hrepl⟩
    have := hR1 hhead _ hmem
    rw [heq]
    exact this

theorem done_reach (h : Cfg) (hwf : h.WF) (hcan : isCanonical h = true)
    (hne : h.prods ≠ []) :
    ∀ e ∈ ((getProductionsWithOnlySingleTerminals h).foldl
        (decompStep h.vars) ⟨0, [], []⟩).done,
      ReachSym (normalFormFinal h) (some (GObj.var e.2)) := by
  refine (decompFold_reach h.vars
    (fun s2 => ReachSym (normalFormFinal h) (some s2))
    (normalFormFinal h).prods
    (fun r hr2 hhr s2 hs2 => ReachSym.step r.head r s2 hhr hr2 rfl hs2)
    (getProductionsWithOnlySingleTerminals h) ⟨0, [], []⟩
    (fun r hr2 => (mem_nff_prods h r).mpr hr2)
    (by simp) (by simp) ?_).2
  intro p hp _
  exact stout_heads_reach h hwf hcan hne p hp

theorem p1_heads_reach (h : Cfg) (hwf : h.WF) (hcan : isCanonical h = true)
    (hne : h.prods ≠ []) :
    ∀ q ∈ (normalFormFinal h).prods,
      ReachSym (normalFormFinal h) (some (GObj.var q.head)) := by
  intro q hq
  rw [mem_nff_prods] at hq
  rcases decompFold_out_char h.vars _ _ q hq with h0 |
    ⟨p, hp, _, heq⟩ | ⟨p, hp, _, hhead, _, _⟩
  · simp at h0
  · rw [heq]
    exact stout_heads_reach h hwf hcan hne p hp
  · rcases hhead with hh | ⟨e, he, hh⟩
    · rw [hh]
      exact stout_heads_reach h hwf hcan hne p hp
    · rw [hh]
      exact done_reach h hwf hcan hne e he

theorem g1_vars_reach (h : Cfg) (hwf : h.WF) (hcan : isCanonical h = true)
    (hne : h.prods ≠ []) :
    ∀ v ∈ (normalFormFinal h).vars,
      ReachSym (normalFormFinal h) (some (GObj.var v)) := by
  intro v hv
  rcases (nff_vars_iff h v).mp hv with hstart | ⟨q, hq, hcase⟩
  · have h0 : (normalFormFinal h).start.map GObj.var = some (GObj.var v) := by
      rw [nff_start, hstart]
      rfl
    exact h0 ▸ ReachSym.start
  · rcases hcase with rfl | hbv
    · exact p1_heads_reach h hwf hcan hne q hq
    · exact ReachSym.step q.head q _ (p1_heads_reach h hwf hcan hne q hq)
        hq rfl hbv

theorem g1_terms_reach (h : Cfg) (hwf : h.WF) (hcan : isCanonical h = true)
    (hne : h.prods ≠ []) :
    ∀ t ∈ (normalFormFinal h).terms,
      ReachSym (normalFormFinal h) (some (GObj.term t)) := by
  intro t ht
  rcases (nff_terms_iff h t).mp ht with ⟨q, hq, hbt⟩
  exact ReachSym.step q.head q _ (p1_heads_reach h hwf hcan hne q hq)
    hq rfl hbt

theorem g1_guard4 (h : Cfg) (hwf : h.WF) (hcan : isCanonical h = true)
    (hne : h.prods ≠ []) :
    (getReachableSymbols (normalFormFinal h)).length
      = (normalFormFinal h).vars.length + (normalFormFinal h).terms.length := by
  rcases start_some_of_canonical h hwf hcan hne with ⟨s0, hs0⟩
  have hg1start : (normalFormFinal h).start = some s0 := by
    rw [nff_start, hs0]
  have hsub1 : ∀ x ∈ getReachableSymbols (normalFormFinal h),
      x ∈ ((normalFormFinal h).vars.map GObj.var
        ++ (normalFormFinal h).terms.map GObj.term).map some := by
    intro x hx
    rcases getReachableSymbols_bound _ x hx with hb | ⟨p, hp, b, hb, rfl⟩
    · rw [hg1start] at hb
      subst hb
      refine List.mem_map.mpr ⟨GObj.var s0, ?_, rfl⟩
      refine List.mem_append.mpr (Or.inl (List.mem_map.mpr ⟨s0, ?_, rfl⟩))
      exact (nff_vars_iff h s0).mpr (Or.inl hs0)
    · refine List.mem_map.mpr ⟨b, ?_, rfl⟩
      have hok := ((nff_WF h).1 p hp).2 b hb
      cases b with
      | var v =>
        exact List.mem_append.mpr (Or.inl (List.mem_map.mpr ⟨v, hok, rfl⟩))
      | term t =>
        exact List.mem_append.mpr (Or.inr (List.mem_map.mpr ⟨t, hok, rfl⟩))
  have hsub2 : ∀ x ∈ ((normalFormFinal h).vars.map GObj.var
      ++ (normalFormFinal h).terms.map GObj.term).map some,
      x ∈ getReachableSymbols (normalFormFinal h) := by
    intro x hx
    rcases List.mem_map.mp hx with ⟨b, hb, rfl⟩
    rcases List.mem_append.mp hb with hb | hb
    · rcases List.mem_map.mp hb with ⟨v, hv, rfl⟩
      exact getReachableSymbols_complete _ _ (g1_vars_reach h hwf hcan hne v hv)
    · rcases List.mem_map.mp hb with ⟨t, ht, rfl⟩
      exact getReachableSymbols_complete _ _ (g1_terms_reach h hwf hcan hne t ht)
  have hUnd : (((normalFormFinal h).vars.map GObj.var
      ++ (normalFormFinal h).terms.map GObj.term).map some).Nodup :=
    (varTermObjs_nodup _ (nff_WF h)).map (fun a b hab => Option.some.inj hab)
  have hlen := length_eq_of_nodup_subsets _ _
    (getReachableSymbols_nodup (normalFormFinal h)) hUnd hsub1 hsub2
  rw [hlen, List.length_map, List.length_append, List.length_map,
    List.length_map]

theorem isUnit_shape (p : Production) (h1 : isUnitProduction p = true) :
    ∃ w, p.body = [GObj.var w] := by
  unfold isUnitProduction at h1
  cases hb : p.body with
  | nil => rw [hb] at h1
           simp at h1
  | cons a l =>
    cases a with
    | var w =>
      cases l with
      | nil => exact ⟨w, rfl⟩
      | cons b l2 =>
        rw [hb] at h1
        simp at h1
    | term t =>
      rw [hb] at h1
      simp at h1

theorem g1_unit_selfloop (h : Cfg) (hwf : h.WF) (hcan : isCanonical h = true) :
    ∀ q ∈ (normalFormFinal h).prods, ∀ w, q.body = [GObj.var w] →
      w = q.head := by
  intro q hq w hbw
  rw [mem_nff_prods] at hq
  rcases decompFold_out_char h.vars _ _ q hq with h0 |
    ⟨p, hp, _, heq⟩ | ⟨p, hp, _, _, _, x, y, hxy⟩
  · simp at h0
  · subst heq
    rcases (singleTerminals_char h q).mp hp with ⟨p0, hp0, _, heq2⟩ |
      ⟨p0, hp0, hl0, heq2⟩ | ⟨t, _, heq2⟩
    · subst heq2
      exact unit_selfloop_of_guard h hwf (isCanonical_parts h hcan).2.1
        q hp0 w hbw
    · exfalso
      have hlen : q.body.length = 1 := by
        rw [hbw]
        rfl
      rw [heq2] at hlen
      simp only [List.length_map] at hlen
      exact hl0 hlen
    · exfalso
      rw [heq2] at hbw
      simp only [List.cons.injEq] at hbw
      exact absurd hbw.1 (by simp)
  · exfalso
    rw [hxy] at hbw
    simp at hbw

theorem g1_guard2 (h : Cfg) (hwf : h.WF) (hcan : isCanonical h = true) :
    (getUnitPairs (normalFormFinal h)).length
      = (normalFormFinal h).vars.length := by
  have hself := g1_unit_selfloop h hwf hcan
  have hmin : ∀ ab ∈ getUnitPairs (normalFormFinal h),
      ab.2 = ab.1 ∧ ab.1 ∈ (normalFormFinal h).vars := by
    unfold getUnitPairs
    dsimp only
    refine wlClosure_minimal _ _ _ _ ?_ ?_
    · intro ab hab
      rcases List.mem_map.mp hab with ⟨v, hv, rfl⟩
      exact ⟨rfl, hv⟩
    · intro ab hab c hc _
      rcases List.mem_map.mp hc with ⟨p, hply, rfl⟩
      rw [mem_getProductionsD] at hply
      rcases hply with ⟨hpunit, hphead⟩
      rcases List.mem_filter.mp hpunit with ⟨hpmem, hpu⟩
      rcases isUnit_shape p hpu with ⟨w, hbw⟩
      have hw : w = p.head := hself p hpmem w hbw
      have htgt : unitTarget p = w := by
        unfold unitTarget
        rw [hbw]
      refine ⟨?_, hab.2⟩
      show unitTarget p = ab.1
      rw [htgt, hw, hphead]
      exact hab.1
  have hsub1 : ∀ ab ∈ getUnitPairs (normalFormFinal h),
      ab ∈ (normalFormFinal h).vars.map (fun v => (v, v)) := by
    intro ab hab
    rcases hmin ab hab with ⟨h2, h1⟩
    refine List.mem_map.mpr ⟨ab.1, h1, ?_⟩
    have h3 : ab = (ab.1, ab.2) := rfl
    rw [h3, h2]
  have hsub2 : ∀ ab ∈ (normalFormFinal h).vars.map (fun v => (v, v)),
      ab ∈ getUnitPairs (normalFormFinal h) := by
    intro ab hab
    unfold getUnitPairs
    dsimp only
    exact wlClosure_init _ _ _ ab hab
  have hInd : ((normalFormFinal h).vars.map (fun v => (v, v))).Nodup :=
    ((nff_WF h).2.2.1).map (fun a b hab => congrArg Prod.fst hab)
  have hlen := length_eq_of_nodup_subsets _ _
    (getUnitPairs_nodup (normalFormFinal h)) hInd hsub1 hsub2
  rw [hlen, List.length_map]

theorem g1_guard1 (h : Cfg) (hwf : h.WF) (hcan : isCanonical h = true) :
    (getNullableSymbols (normalFormFinal h)).length = 0 := by
  have hne2 : ∀ q ∈ (normalFormFinal h).prods, q.body ≠ [] := by
    intro q hq hc
    rcases g1_shape h hwf hcan q hq with ⟨x, hx⟩ | ⟨v, w2, hvw⟩
    · rw [hc] at hx
      simp at hx
    · rw [hc] at hvw
      simp at hvw
  rw [nullable_empty_of_no_empty _ hne2]
  rfl

/-- The grammar built by the final phase of `to_normal_form` from a
canonical grammar with productions is itself canonical. -/
theorem g1_canonical (h : Cfg) (hwf : h.WF) (hcan : isCanonical h = true)
    (hne : h.prods ≠ []) : isCanonical (normalFormFinal h) = true := by
  unfold isCanonical
  simp only [decide_eq_true_eq, Bool.and_eq_true]
  exact ⟨g1_guard1 h hwf hcan, g1_guard2 h hwf hcan,
    g1_guard3 h hwf hcan hne, g1_guard4 h hwf hcan hne⟩

theorem nff_prods_nil (g : Cfg) (hp : g.prods = []) :
    (normalFormFinal g).prods = [] := by
  rw [nff_prods]
  have h1 : getProductionsWithOnlySingleTerminals g = [] := by
    unfold getProductionsWithOnlySingleTerminals
    dsimp only
    rw [hp]
    rfl
  rw [h1]
  rfl

/-- Classification of `to_normal_form` outputs: either a non-canonical
grammar without productions (returned unchanged), or the final-phase image
of some canonical well-formed grammar. -/
theorem toNormalForm_out (fuel : Nat) :
    ∀ (g g1 : Cfg), g.WF → toNormalForm g fuel = some g1 →
      (isCanonical g1 = false ∧ g1.prods = []) ∨
      (∃ h, h.WF ∧ isCanonical h = true ∧ g1 = normalFormFinal h) := by
  induction fuel with
  | zero =>
    intro g g1 _ h1
    simp [toNormalForm] at h1
  | succ fuel ih =>
    intro g g1 hwf h1
    rw [toNormalForm] at h1
    by_cases hcan : isCanonical g = true
    · rw [if_neg (by simp [hcan])] at h1
      exact Or.inr ⟨g, hwf, hcan, (Option.some.inj h1).symm⟩
    · rw [if_pos hcan] at h1
      by_cases hlen : g.prods.length = 0
      · rw [if_pos hlen] at h1
        have hg1 : g1 = g := (Option.some.inj h1).symm
        subst hg1
        refine Or.inl ⟨?_, List.length_eq_zero.mp hlen⟩
        cases hb : isCanonical g1 with
        | false => rfl
        | true => exact absurd hb hcan
      · rw [if_neg hlen] at h1
        exact ih _ g1 (normalFormPass_WF g) h1

/-- C3 (confirmed): converting to Chomsky normal form is idempotent on
production sets — `to_normal_form` of a `to_normal_form` result has
exactly the same production set. -/
theorem toNormalForm_idempotent (g : Cfg) (hwf : g.WF) (fuel1 fuel2 : Nat)
    {g1 g2 : Cfg} (h1 : toNormalForm g fuel1 = some g1)
    (h2 : toNormalForm g1 fuel2 = some g2) : g2.prods = g1.prods := by
  rcases toNormalForm_out fuel1 g g1 hwf h1 with ⟨hcan1, hnil1⟩ |
    ⟨h, hwfh, hcanh, rfl⟩
  · cases fuel2 with
    | zero => simp [toNormalForm] at h2
    | succ fuel2 =>
      rw [toNormalForm] at h2
      rw [if_pos (by simp [hcan1])] at h2
      rw [if_pos (by rw [hnil1]; rfl)] at h2
      exact congrArg Cfg.prods (Option.some.inj h2).symm
  · by_cases hpn : (normalFormFinal h).prods = []
    · cases fuel2 with
      | zero => simp [toNormalForm] at h2
      | succ fuel2 =>
        rw [toNormalForm] at h2
        by_cases hc1 : isCanonical (normalFormFinal h) = true
        · rw [if_neg (by simp [hc1])] at h2
          have hg2 : g2 = normalFormFinal (normalFormFinal h) :=
            (Option.some.inj h2).symm
          rw [hg2, nff_prods_nil _ hpn, hpn]
        · rw [if_pos hc1] at h2
          rw [if_pos (by rw [hpn]; rfl)] at h2
          exact congrArg Cfg.prods (Option.some.inj h2).symm
    · have hneh : h.prods ≠ [] := by
        intro hc
        exact hpn (nff_prods_nil h hc)
      have hcang1 : isCanonical (normalFormFinal h) = true :=
        g1_canonical h hwfh hcanh hneh
      cases fuel2 with
      | zero => simp [toNormalForm] at h2
      | succ fuel2 =>
        rw [toNormalForm] at h2
        rw [if_neg (by simp [hcang1])] at h2
        have hg2 : g2 = normalFormFinal (normalFormFinal h) :=
          (Option.some.inj h2).symm
        rw [hg2]
        refine normalFormFinal_idem_prods _ ?_ ?_
        · exact g1_shape h hwfh hcanh
        · rw [nff_prods]
          exact uniq_nodup _

theorem toNormalForm_idempotent_witness :
    (normalFormFinal (normalFormFinal exG)).prods = (normalFormFinal exG).prods :=
  toNormalForm_idempotent exG (by decide) 1 1 (by decide) (by decide)
